import Mathlib

/-! Galois speculative parallel-for engine: ownership protocol and executor

A shallow embedding of `src/src/Context.cpp` (resource handles and execution
contexts) and of `libgalois/include/Galois/Runtime/Executor_ForEach.h`
(abort handler and per-thread executor), with the properties of the
specification proved over it.

Pointers are natural numbers; the null pointer is `none`.  Every step of a
context (acquire, commit, cancel) is atomic.
-/

namespace GaloisRuntime

/-! ## Data model of Context.cpp -/

/-- Modelled from the spec: the pointer lock `LL::PtrLock` behind
`Lockable::Owner` (Galois/Runtime/ll/PtrLock.h is not among the sources).  The
spec gives a handle "an owner reference (exclusively one Execution Context or
none)"; Context.cpp reads and writes it through `try_lock`, `getValue`,
`setValue` and `unlock_and_clear`, so the lock bit and the stored owner are
kept apart. -/
structure PtrLock where
  locked : Bool
  value : Option Nat
  deriving DecidableEq

/-- Modelled from the spec: non-blocking attempt to take the lock bit; the
stored value is untouched. -/
def PtrLock.try_lock (p : PtrLock) : Bool × PtrLock :=
  if p.locked then (false, p) else (true, { p with locked := true })

/-- Modelled from the spec: the stored owner reference. -/
def PtrLock.getValue (p : PtrLock) : Option Nat := p.value

/-- Modelled from the spec: store an owner reference, keeping the lock bit. -/
def PtrLock.setValue (p : PtrLock) (v : Option Nat) : PtrLock := { p with value := v }

/-- Modelled from the spec: release the lock bit and clear the owner. -/
def PtrLock.unlock_and_clear (_p : PtrLock) : PtrLock := { locked := false, value := none }

/-- A resource handle: `Lockable` with its `Owner` lock and the intrusive
`next` link. -/
structure Lockable where
  Owner : PtrLock
  next : Option Nat
  deriving DecidableEq

/-- The memory Context.cpp works on: every `Lockable` (by address) and the
`locks` field (head of the acquired-list) of every `SimpleRuntimeContext`
(by address). -/
structure Memory where
  handles : Nat → Lockable
  locks : Nat → Option Nat

/-- Write `L->Owner`. -/
def Memory.setOwner (s : Memory) (L : Nat) (o : PtrLock) : Memory :=
  { s with handles := Function.update s.handles L { s.handles L with Owner := o } }

/-- Write `L->next`. -/
def Memory.setNext (s : Memory) (L : Nat) (n : Option Nat) : Memory :=
  { s with handles := Function.update s.handles L { s.handles L with next := n } }

/-- Write `this->locks`. -/
def Memory.setLocks (s : Memory) (this : Nat) (l : Option Nat) : Memory :=
  { s with locks := Function.update s.locks this l }

/-- The owner a handle records: `L->Owner.getValue()`. -/
def Memory.owner (s : Memory) (L : Nat) : Option Nat := (s.handles L).Owner.getValue

/-- How a call of `acquire` ends: it returns, it throws the conflict
(`throw -1`), or one of its two `assert`s fails. -/
inductive Signal where
  | returned
  | conflict
  | assertFailed
  deriving DecidableEq

/-- `SimpleRuntimeContext::acquire(Lockable* L)` called on context `this`. -/
def acquire (s : Memory) (this L : Nat) : Signal × Memory :=
  let r := (s.handles L).Owner.try_lock
  let suc := r.1
  let s1 := s.setOwner L r.2
  if suc then
    if (s1.handles L).Owner.getValue ≠ none then (Signal.assertFailed, s1)
    else if (s1.handles L).next ≠ none then (Signal.assertFailed, s1)
    else
      let s2 := s1.setOwner L ((s1.handles L).Owner.setValue (some this))
      let s3 := s2.setNext L (s2.locks this)
      let s4 := s3.setLocks this (some L)
      (Signal.returned, s4)
  else
    if (s1.handles L).Owner.getValue ≠ some this then (Signal.conflict, s1)
    else (Signal.returned, s1)

/-- The `while (locks)` loop of `commit_iteration`, run for at most `fuel`
iterations (`none` when the fuel runs out).  `numLocks` is the `unsigned`
counter; the last component lists the handles in the order in which
`unlock_and_clear` is called on them. -/
def commit_iteration_loop :
    Nat → Memory → Nat → Nat → List Nat → Option (Memory × Nat × List Nat)
  | 0, _, _, _, _ => none
  | fuel + 1, s, this, numLocks, cleared =>
    match s.locks this with
    | none => some (s, numLocks, cleared)
    | some L =>
      let s1 := s.setLocks this (s.handles L).next
      let s2 := s1.setNext L none
      let s3 := s2.setOwner L (s2.handles L).Owner.unlock_and_clear
      commit_iteration_loop fuel s3 this ((numLocks + 1) % 4294967296) (cleared ++ [L])

/-- `SimpleRuntimeContext::commit_iteration()` on context `this`: the new
memory, the returned `numLocks`, and the order of release. -/
def commit_iteration (fuel : Nat) (s : Memory) (this : Nat) :
    Option (Memory × Nat × List Nat) :=
  commit_iteration_loop fuel s this 0 []

/-- `SimpleRuntimeContext::cancel_iteration()`: `return commit_iteration();`. -/
def cancel_iteration (fuel : Nat) (s : Memory) (this : Nat) :
    Option (Memory × Nat × List Nat) :=
  commit_iteration fuel s this

/-- `doAcquire(Lockable* C)` with the thread's context pointer `thread_cnx`
(what `getThreadContext()` returns). -/
def doAcquire (s : Memory) (thread_cnx : Option Nat) (C : Nat) : Signal × Memory :=
  match thread_cnx with
  | some cnx => acquire s cnx C
  | none => (Signal.returned, s)

/-- The list `l` is the acquired-list that starts at `head`: following the
`next` links from `head` visits exactly the handles of `l`, in order, and
ends at the null pointer. -/
def isList (handles : Nat → Lockable) : Option Nat → List Nat → Prop
  | none, [] => True
  | some h, x :: t => h = x ∧ isList handles (handles x).next t
  | none, _ :: _ => False
  | some _, [] => False

instance decIsList (handles : Nat → Lockable) :
    (head : Option Nat) → (l : List Nat) → Decidable (isList handles head l)
  | none, [] => isTrue trivial
  | some h, x :: t =>
    match decEq h x, decIsList handles (handles x).next t with
    | isTrue h1, isTrue h2 => isTrue ⟨h1, h2⟩
    | isFalse h1, _ => isFalse (fun h => h1 h.1)
    | _, isFalse h2 => isFalse (fun h => h2 h.2)
  | none, _ :: _ => isFalse (fun h => h)
  | some _, [] => isFalse (fun h => h)

/-- The initial memory: every handle unowned and unlinked, every context's
acquired-list empty. -/
def initMemory : Memory :=
  { handles := fun _ => { Owner := { locked := false, value := none }, next := none },
    locks := fun _ => none }

/-- States reachable from the initial memory by atomic steps of any contexts:
an `acquire` that returns or throws, a `commit_iteration`, a
`cancel_iteration`. -/
inductive Reachable : Memory → Prop where
  | init : Reachable initMemory
  | acquire (s : Memory) (this L : Nat) :
      Reachable s → (acquire s this L).1 ≠ Signal.assertFailed →
      Reachable (acquire s this L).2
  | commit (s : Memory) (this fuel : Nat) (r : Memory × Nat × List Nat) :
      Reachable s → commit_iteration fuel s this = some r → Reachable r.1
  | cancel (s : Memory) (this fuel : Nat) (r : Memory × Nat × List Nat) :
      Reachable s → cancel_iteration fuel s this = some r → Reachable r.1

/-- A context acquires the handles of a list one after the other, stopping at
the first call that does not return. -/
def acquireAll (s : Memory) (this : Nat) : List Nat → Signal × Memory
  | [] => (Signal.returned, s)
  | L :: rest =>
    match acquire s this L with
    | (Signal.returned, s1) => acquireAll s1 this rest
    | r => r

/-- The invariant behind mutual exclusion: the lock bit is set exactly on the
handles that record an owner, an unowned handle is unlinked, and every
context's acquired-list is a duplicate-free list of exactly the handles that
record this context as owner. -/
def Inv (s : Memory) : Prop :=
  (∀ h, (s.handles h).Owner.locked = true ↔ (s.handles h).Owner.value ≠ none) ∧
  (∀ h, (s.handles h).Owner.value = none → (s.handles h).next = none) ∧
  (∀ c, ∃ l, isList s.handles (s.locks c) l ∧ l.Nodup ∧
    ∀ h, h ∈ l ↔ (s.handles h).Owner.value = some c)

/-- The memory after a successful first `acquire` of `L` by `this`. -/
def acquired (s : Memory) (this L : Nat) : Memory :=
  { handles := Function.update s.handles L
      { Owner := { locked := true, value := some this }, next := s.locks this },
    locks := Function.update s.locks this (some L) }

/-- The memory after context `this` has released the handles of `l`. -/
def released (s : Memory) (this : Nat) (l : List Nat) : Memory :=
  { handles := fun h =>
      if h ∈ l then { Owner := { locked := false, value := none }, next := none }
      else s.handles h,
    locks := Function.update s.locks this none }

end GaloisRuntime

namespace galois.runtime

open GaloisRuntime

/-! ## Data model of Executor_ForEach.h -/

/-- Modelled from the spec: the Thread Topology Query (`substrate::ThreadPool`
is not among the sources): "exposes thread-to-package mapping and a leader
thread of package lookup".  `getPackage t` and `getLeader t` are what thread
`t` gets from `getPackage()` and `getLeader()`; thread ids are `unsigned`. -/
structure ThreadPool where
  getPackage : Nat → Nat
  getLeader : Nat → Nat
  getLeaderForPackage : Nat → Nat
  getMaxPackages : Nat

/-- `AbortHandler::Item`: a value and its `int retries` counter (kept as an
integer, signed overflow being undefined in the source). -/
structure Item (V : Type) where
  val : V
  retries : Int
  deriving DecidableEq

/-- `AbortHandler`: one FIFO `AbortedList` per thread id (head of the list is
the next item popped) and the policy flag. -/
structure AbortHandler (V : Type) where
  queues : Nat → List (Item V)
  useBasicPolicy : Bool

variable {V A : Type}

/-- `queues.getRemote(t)->push(item)`; `queues.getLocal()` is
`queues.getRemote(tid)` for the calling thread `tid`. -/
def AbortHandler.pushRemote (h : AbortHandler V) (t : Nat) (item : Item V) : AbortHandler V :=
  { h with queues := Function.update h.queues t (h.queues t ++ [item]) }

/-- `AbortHandler::basicPolicy`, called by thread `tid`. -/
def AbortHandler.basicPolicy (tp : ThreadPool) (tid : Nat) (h : AbortHandler V)
    (item : Item V) : AbortHandler V :=
  let package := tp.getPackage tid
  h.pushRemote (tp.getLeaderForPackage (package / 2)) item

/-- `AbortHandler::doublePolicy`, called by thread `tid`.  `(retries & 1) == 1`
on a two's complement `int` holds exactly for odd `retries`; `tid - leader` is
an `unsigned` subtraction. -/
def AbortHandler.doublePolicy (tp : ThreadPool) (tid : Nat) (h : AbortHandler V)
    (item : Item V) : AbortHandler V :=
  let retries := item.retries - 1
  if retries % 2 = 1 then h.pushRemote tid item
  else
    let package := tp.getPackage tid
    let leader := tp.getLeader tid
    if tid ≠ leader then
      let next := (leader + ((tid + 4294967296 - leader) % 4294967296) / 2) % 4294967296
      h.pushRemote next item
    else h.pushRemote (tp.getLeaderForPackage (package / 2)) item

/-- `AbortHandler::boundedPolicy`, called by thread `tid`. -/
def AbortHandler.boundedPolicy (tp : ThreadPool) (tid : Nat) (h : AbortHandler V)
    (item : Item V) : AbortHandler V :=
  let retries := item.retries - 1
  if retries < 2 then h.pushRemote tid item
  else
    let package := tp.getPackage tid
    let leader := tp.getLeaderForPackage package
    if retries < 5 ∧ tid ≠ leader then
      let next := (leader + ((tid + 4294967296 - leader) % 4294967296) / 2) % 4294967296
      h.pushRemote next item
    else h.pushRemote (tp.getLeaderForPackage (package / 2)) item

/-- `AbortHandler::eagerPolicy`, called by thread `tid`. -/
def AbortHandler.eagerPolicy (tid : Nat) (h : AbortHandler V) (item : Item V) :
    AbortHandler V :=
  h.pushRemote tid item

/-- The constructor `AbortHandler()`. -/
def AbortHandler.new (tp : ThreadPool) : AbortHandler V :=
  { queues := fun _ => [], useBasicPolicy := decide (tp.getMaxPackages > 2) }

/-- `AbortHandler::push(const value_type& val)`, called by thread `tid`. -/
def AbortHandler.pushValue (tid : Nat) (h : AbortHandler V) (val : V) : AbortHandler V :=
  let item : Item V := { val := val, retries := 1 }
  h.pushRemote tid item

/-- `AbortHandler::push(const Item& item)`, called by thread `tid`. -/
def AbortHandler.push (tp : ThreadPool) (tid : Nat) (h : AbortHandler V) (item : Item V) :
    AbortHandler V :=
  let newitem : Item V := { val := item.val, retries := item.retries + 1 }
  if h.useBasicPolicy then h.basicPolicy tp tid newitem
  else h.doublePolicy tp tid newitem

/-- What `runQueue` pops: a plain value from the work list, or an `Item` from
the abort queue. -/
abbrev Popped (V : Type) := V ⊕ Item V

/-- The two overloads of `AbortHandler::value`. -/
def AbortHandler.value : Popped V → V
  | Sum.inl val => val
  | Sum.inr item => item.val

/-- Overload resolution of `aborted.push(item)` in `abortIteration`. -/
def AbortHandler.pushPopped (tp : ThreadPool) (tid : Nat) (h : AbortHandler V) :
    Popped V → AbortHandler V
  | Sum.inl val => h.pushValue tid val
  | Sum.inr item => h.push tp tid item

/-- The compile-time traits of `ForEachExecutor`. -/
structure Traits where
  needsStats : Bool
  needsPush : Bool
  needsAborts : Bool
  needsPia : Bool
  needsBreak : Bool

/-- Modelled from the spec: `UserContextAccess` (Galois/Runtime/UserContextAccess.h
is not among the sources): "a buffer of newly produced items pending commit".
`fastPushBack` tells whether `go` installed `ForEachExecutor::fastPushBack`. -/
structure UserContextAccess (V : Type) where
  pushBuffer : List V
  fastPushBack : Bool

/-- `ForEachExecutor::ThreadLocalData`; `ctx` is the address of the thread's
`SimpleRuntimeContext`, the three counters are `unsigned long` (64 bit). -/
structure ThreadLocalData (V : Type) where
  facing : UserContextAccess V
  ctx : Nat
  stat_conflicts : Nat
  stat_iterations : Nat
  stat_pushes : Nat

/-- The constructor of `ThreadLocalData`. -/
def ThreadLocalData.new (ctx : Nat) : ThreadLocalData V :=
  { facing := { pushBuffer := [], fastPushBack := false }, ctx := ctx,
    stat_conflicts := 0, stat_iterations := 0, stat_pushes := 0 }

/-- The value reported as "Commits" by `~ThreadLocalData`:
`stat_iterations - stat_conflicts` in `unsigned long` arithmetic. -/
def ThreadLocalData.reportedCommits (tld : ThreadLocalData V) : Nat :=
  (tld.stat_iterations + 18446744073709551616 - tld.stat_conflicts) % 18446744073709551616

/-- All a worker thread of `ForEachExecutor` works on: the memory of handles
and contexts, its `thread_cnx` pointer, the application data `app`, the
executor members `aborted`, `wl` (a FIFO list, head popped first) and `broke`,
and the `tld` of `go`. -/
structure ExecState (V A : Type) where
  heap : Memory
  thread_cnx : Option Nat
  app : A
  aborted : AbortHandler V
  wl : List V
  broke : Bool
  tld : ThreadLocalData V

/-- What a user operation can do to the engine during one attempt: touch a
handle (`doAcquire`), push a new item, ask for a parallel break, write
application data. -/
inductive UserAction (V A : Type) where
  | acquire (L : Nat)
  | push (v : V)
  | breakLoop
  | update (f : A → A)

/-- The user operation `FunctionTy`: the actions it performs on an item, given
the application data at the start of the attempt. -/
abbrev FunctionTy (V A : Type) := V → A → List (UserAction V A)

/-- `ForEachExecutor::fastPushBack`: flush the buffer into `wl` at once. -/
def fastPushBack (st : ExecState V A) : ExecState V A :=
  { st with
    wl := st.wl ++ st.tld.facing.pushBuffer,
    tld := { st.tld with facing := { st.tld.facing with pushBuffer := [] } } }

/-- Modelled from the spec: one action of the user operation.  A touched handle
goes through `doAcquire`; a pushed item is appended to the push buffer (and
flushed at once when `fastPushBack` is installed). -/
def userStep (st : ExecState V A) : UserAction V A → Signal × ExecState V A
  | UserAction.acquire L =>
    let r := doAcquire st.heap st.thread_cnx L
    (r.1, { st with heap := r.2 })
  | UserAction.push v =>
    let st1 : ExecState V A :=
      { st with tld := { st.tld with facing :=
          { st.tld.facing with pushBuffer := st.tld.facing.pushBuffer ++ [v] } } }
    if st1.tld.facing.fastPushBack then (Signal.returned, fastPushBack st1)
    else (Signal.returned, st1)
  | UserAction.breakLoop => (Signal.returned, { st with broke := true })
  | UserAction.update f => (Signal.returned, { st with app := f st.app })

/-- The call `tld.function(val, tld.facing.data())`: the actions run in order
until one does not return. -/
def runActions (st : ExecState V A) : List (UserAction V A) → Signal × ExecState V A
  | [] => (Signal.returned, st)
  | a :: rest =>
    match userStep st a with
    | (Signal.returned, st1) => runActions st1 rest
    | r => r

/-- Modelled from the spec: `SimpleRuntimeContext::startIteration`
(Galois/Runtime/Context.h is not among the sources): "clears acquired-list
(defensive; should already be empty)". -/
def startIteration (st : ExecState V A) : ExecState V A :=
  { st with heap := st.heap.setLocks st.tld.ctx none }

/-- `ForEachExecutor::commitIteration`.  Galois/Runtime/Context.h is not among
the sources; by the spec commit "calls releaseAll", so `tld.ctx.commitIteration()`
is `commit_iteration` of Context.cpp, run with `cfuel`.  The per-iteration
allocator reset under `needsPia` has no state here. -/
def commitIteration (cfg : Traits) (cfuel : Nat) (st : ExecState V A) :
    Option (ExecState V A) :=
  let st1 : ExecState V A :=
    if cfg.needsPush then
      let pb := st.tld.facing.pushBuffer
      let n := pb.length
      if n ≠ 0 then
        { st with
          tld := { st.tld with
            stat_pushes := (st.tld.stat_pushes + n) % 18446744073709551616,
            facing := { st.tld.facing with pushBuffer := [] } },
          wl := st.wl ++ pb }
      else st
    else st
  if cfg.needsAborts then
    match commit_iteration cfuel st1.heap st1.tld.ctx with
    | none => none
    | some r => some { st1 with heap := r.1 }
  else some st1

/-- `ForEachExecutor::abortIteration`.  By the spec cancel "calls releaseAll",
so `tld.ctx.cancelIteration()` is `cancel_iteration` of Context.cpp, run with
`cfuel`.  The per-iteration allocator reset under `needsPia` has no state
here. -/
def abortIteration (cfg : Traits) (tp : ThreadPool) (tid : Nat) (cfuel : Nat)
    (item : Popped V) (st : ExecState V A) : Option (Signal × ExecState V A) :=
  if cfg.needsAborts = false then some (Signal.assertFailed, st)
  else
    match cancel_iteration cfuel st.heap st.tld.ctx with
    | none => none
    | some r =>
      let st1 : ExecState V A := { st with heap := r.1 }
      let st2 : ExecState V A :=
        { st1 with tld := { st1.tld with
            stat_conflicts := (st1.tld.stat_conflicts + 1) % 18446744073709551616 } }
      let st3 : ExecState V A := { st2 with aborted := st2.aborted.pushPopped tp tid item }
      let st4 : ExecState V A :=
        if cfg.needsPush then
          { st3 with tld := { st3.tld with facing := { st3.tld.facing with pushBuffer := [] } } }
        else st3
      some (Signal.returned, st4)

/-- `ForEachExecutor::doProcess`: when the user operation throws, the
exception leaves `doProcess` before `commitIteration`. -/
def doProcess (cfg : Traits) (function : FunctionTy V A) (cfuel : Nat) (val : V)
    (st : ExecState V A) : Option (Signal × ExecState V A) :=
  let st1 := if cfg.needsAborts then startIteration st else st
  let st2 : ExecState V A :=
    { st1 with tld := { st1.tld with
        stat_iterations := (st1.tld.stat_iterations + 1) % 18446744073709551616 } }
  match runActions st2 (function val st2.app) with
  | (Signal.returned, st3) =>
    match commitIteration cfg cfuel st3 with
    | none => none
    | some st4 => some (Signal.returned, st4)
  | r => some r

/-- The queue `runQueue` is called on: the work list `wl` or the calling
thread's abort queue `*aborted.getQueue()`. -/
inductive WL where
  | work
  | aborts
  deriving DecidableEq

/-- The content of the chosen queue of thread `tid`, head first. -/
def queueOf (tid : Nat) (st : ExecState V A) : WL → List (Popped V)
  | WL.work => st.wl.map Sum.inl
  | WL.aborts => (st.aborted.queues tid).map Sum.inr

/-- The state with the first `k` items of the chosen queue removed. -/
def dropQueue (tid : Nat) (k : Nat) (st : ExecState V A) : WL → ExecState V A
  | WL.work => { st with wl := st.wl.drop k }
  | WL.aborts =>
    { st with aborted := { st.aborted with
        queues := Function.update st.aborted.queues tid ((st.aborted.queues tid).drop k) } }

/-- Modelled from the spec: the Work Queue (Galois/WorkList is not among the
sources), "pop() -> optional<item>": `lwl.pop()` gives the head of the queue,
if any, and the state without it; pushes go to the tail. -/
def pop (tid : Nat) (st : ExecState V A) (lwl : WL) : Option (Popped V × ExecState V A) :=
  match queueOf tid st lwl with
  | [] => none
  | p :: _ => some (p, dropQueue tid 1 st lwl)

/-- The `while` loop inside the `try` of `runQueue<limit>`, for at most `fuel`
evaluations of its condition.  The result carries the `p` that was being
processed when an exception left the loop. -/
def runQueueLoop (cfg : Traits) (function : FunctionTy V A) (tid : Nat) (limit : Nat)
    (lwl : WL) (cfuel : Nat) :
    Nat → Nat → ExecState V A → Option (Signal × ExecState V A × Option (Popped V))
  | 0, _, _ => none
  | fuel + 1, num, st =>
    if limit = 0 ∨ num < limit then
      let num1 := if limit = 0 then num else num + 1
      match pop tid st lwl with
      | none => some (Signal.returned, st, none)
      | some (p, st1) =>
        match doProcess cfg function cfuel (AbortHandler.value p) st1 with
        | none => none
        | some (Signal.returned, st2) =>
          runQueueLoop cfg function tid limit lwl cfuel fuel num1 st2
        | some (sig, st2) => some (sig, st2, some p)
    else some (Signal.returned, st, none)

/-- `ForEachExecutor::runQueue<limit>(tld, lwl)` called by thread `tid`: the
loop, and `abortIteration(*p, tld)` when the conflict is caught. -/
def runQueue (cfg : Traits) (tp : ThreadPool) (function : FunctionTy V A) (tid : Nat)
    (limit : Nat) (lwl : WL) (cfuel fuel : Nat) (st : ExecState V A) :
    Option (Signal × ExecState V A) :=
  match runQueueLoop cfg function tid limit lwl cfuel fuel 0 st with
  | none => none
  | some (Signal.conflict, st1, some p) => abortIteration cfg tp tid cfuel p st1
  | some (sig, st1, _) => some (sig, st1)

/-- The items a list of actions pushes, in order. -/
def pushesOf : List (UserAction V A) → List V
  | [] => []
  | UserAction.push v :: rest => v :: pushesOf rest
  | _ :: rest => pushesOf rest

/-- What no action of a user operation changes: the thread's context, its
counters, the abort handler, the context pointer, the fast-push setting; the
work list can only grow at its tail. -/
def UserFrame (st st' : ExecState V A) : Prop :=
  st'.tld.ctx = st.tld.ctx ∧ st'.tld.stat_conflicts = st.tld.stat_conflicts ∧
  st'.tld.stat_iterations = st.tld.stat_iterations ∧
  st'.tld.stat_pushes = st.tld.stat_pushes ∧ st'.aborted = st.aborted ∧
  st'.thread_cnx = st.thread_cnx ∧
  st'.tld.facing.fastPushBack = st.tld.facing.fastPushBack ∧
  (∃ added, st'.wl = st.wl ++ added) ∧
  (st.tld.facing.fastPushBack = false → st'.wl = st.wl ∧
    ∃ b, st'.tld.facing.pushBuffer = st.tld.facing.pushBuffer ++ b)

/-- What neither the user operation nor `commitIteration` changes. -/
def AttemptFrame (st st' : ExecState V A) : Prop :=
  st'.tld.ctx = st.tld.ctx ∧ st'.tld.stat_conflicts = st.tld.stat_conflicts ∧
  st'.aborted = st.aborted ∧ st'.thread_cnx = st.thread_cnx ∧
  st'.tld.facing.fastPushBack = st.tld.facing.fastPushBack ∧
  (∃ added, st'.wl = st.wl ++ added)

/-- The state in which `doProcess` calls the user operation: after
`startIteration` (when `needsAborts`) and `++tld.stat_iterations`. -/
def beginAttempt (cfg : Traits) (st : ExecState V A) : ExecState V A :=
  let st1 := if cfg.needsAborts then startIteration st else st
  { st1 with tld := { st1.tld with
      stat_iterations := (st1.tld.stat_iterations + 1) % 18446744073709551616 } }

/-- The first half of `commitIteration`: the push buffer flushed into `wl`. -/
def flushPushes (cfg : Traits) (st : ExecState V A) : ExecState V A :=
  if cfg.needsPush then
    if st.tld.facing.pushBuffer.length ≠ 0 then
      { st with
        tld := { st.tld with
          stat_pushes :=
            (st.tld.stat_pushes + st.tld.facing.pushBuffer.length) % 18446744073709551616,
          facing := { st.tld.facing with pushBuffer := [] } },
        wl := st.wl ++ st.tld.facing.pushBuffer }
    else st
  else st

/-- A topology with a single package led by thread 0. -/
def onePackage : ThreadPool :=
  { getPackage := fun _ => 0, getLeader := fun _ => 0, getLeaderForPackage := fun _ => 0,
    getMaxPackages := 1 }

/-- The default traits: statistics, pushes and aborts are all needed. -/
def defaultTraits : Traits :=
  { needsStats := true, needsPush := true, needsAborts := true, needsPia := false,
    needsBreak := false }

/-- An operation that pushes three new items and then touches handle 5. -/
def pushThreeThenTouch : FunctionTy Nat Unit :=
  fun v _ => [UserAction.push (v + 1), UserAction.push (v + 2), UserAction.push (v + 3),
    UserAction.acquire 5]

/-- A worker (thread 0, context 1) with items 10 and 20 in its work list, on
the given memory. -/
def sampleState (heap : Memory) : ExecState Nat Unit :=
  { heap := heap, thread_cnx := some 1, app := (), aborted := AbortHandler.new onePackage,
    wl := [10, 20], broke := false, tld := ThreadLocalData.new 1 }

/-- The worker of `sampleState` with the items 7, 8, 9 in its push buffer. -/
def sampleBuffered (heap : Memory) : ExecState Nat Unit :=
  { heap := heap, thread_cnx := some 1, app := (), aborted := AbortHandler.new onePackage,
    wl := [10, 20], broke := false,
    tld :=
      { facing := { pushBuffer := [7, 8, 9], fastPushBack := false }, ctx := 1,
        stat_conflicts := 0, stat_iterations := 0, stat_pushes := 0 } }

/-- The state in which the attempt on item 10 of `sampleState` throws its
conflict when context 9 owns handle 5. -/
def sampleConflict : ExecState Nat Unit :=
  match doProcess defaultTraits pushThreeThenTouch 5 10
      (dropQueue 0 1 (sampleState (acquire initMemory 9 5).2) WL.work) with
  | some r => r.2
  | none => sampleState (acquire initMemory 9 5).2

/-- The state after the catch handler aborted that attempt. -/
def sampleAborted : ExecState Nat Unit :=
  match abortIteration defaultTraits onePackage 0 5 (Sum.inl 10) sampleConflict with
  | some r => r.2
  | none => sampleConflict

/-- The thread states `runQueue` and `runQueueSimple` can produce: starting
from a fresh `ThreadLocalData`, after `n` attempts, each one a pop followed by
a `doProcess` that commits or by a `doProcess` that conflicts and the
`abortIteration` of the catch handler; other threads may change everything
but the `tld` in between. -/
inductive Attempts (cfg : Traits) (tp : ThreadPool) (function : FunctionTy V A)
    (tid cfuel : Nat) : Nat → ExecState V A → Prop where
  | start (st : ExecState V A) :
      st.tld.stat_conflicts = 0 → st.tld.stat_iterations = 0 → st.tld.stat_pushes = 0 →
      Attempts cfg tp function tid cfuel 0 st
  | committed (n : Nat) (st st1 st2 : ExecState V A) (lwl : WL) (p : Popped V) :
      Attempts cfg tp function tid cfuel n st → pop tid st lwl = some (p, st1) →
      doProcess cfg function cfuel (AbortHandler.value p) st1 = some (Signal.returned, st2) →
      Attempts cfg tp function tid cfuel (n + 1) st2
  | cancelled (n : Nat) (st st1 st2 st3 : ExecState V A) (lwl : WL) (p : Popped V) :
      Attempts cfg tp function tid cfuel n st → pop tid st lwl = some (p, st1) →
      doProcess cfg function cfuel (AbortHandler.value p) st1 = some (Signal.conflict, st2) →
      abortIteration cfg tp tid cfuel p st2 = some (Signal.returned, st3) →
      Attempts cfg tp function tid cfuel (n + 1) st3
  | interfere (n : Nat) (st st' : ExecState V A) :
      Attempts cfg tp function tid cfuel n st → st'.tld = st.tld →
      Attempts cfg tp function tid cfuel n st'

/-! ## Routing of the abort handler and the round of `go` -/

/-- The thread whose queue `basicPolicy` pushes to: the argument of
`queues.getRemote`. -/
def basicDest (tp : ThreadPool) (tid : Nat) : Nat :=
  tp.getLeaderForPackage (tp.getPackage tid / 2)

/-- The step inside a package: `leader + (tid - leader) / 2` in `unsigned`
arithmetic. -/
def packageStep (leader tid : Nat) : Nat :=
  (leader + ((tid + 4294967296 - leader) % 4294967296) / 2) % 4294967296

/-- The thread whose queue `doublePolicy` pushes an item with counter
`retries` to, when called by thread `tid`. -/
def doubleDest (tp : ThreadPool) (tid : Nat) (retries : Int) : Nat :=
  if (retries - 1) % 2 = 1 then tid
  else if tid ≠ tp.getLeader tid then packageStep (tp.getLeader tid) tid
  else tp.getLeaderForPackage (tp.getPackage tid / 2)

/-- Whether `boundedPolicy`, called by thread `tid` on an item with counter
`retries`, takes its within-package branch (`retries < 5 && tid != leader`
after the local branch was not taken). -/
def boundedWithin (tp : ThreadPool) (tid : Nat) (retries : Int) : Bool :=
  decide (¬ (retries - 1 < 2) ∧ (retries - 1 < 5 ∧
    tid ≠ tp.getLeaderForPackage (tp.getPackage tid)))

/-- The thread whose queue `boundedPolicy` pushes an item with counter
`retries` to, when called by thread `tid`. -/
def boundedDest (tp : ThreadPool) (tid : Nat) (retries : Int) : Nat :=
  if retries - 1 < 2 then tid
  else if boundedWithin tp tid retries then
    packageStep (tp.getLeaderForPackage (tp.getPackage tid)) tid
  else tp.getLeaderForPackage (tp.getPackage tid / 2)

/-- The thread whose queue `push(const Item&)` pushes to, for an item that
comes in with counter `retries`, when called by thread `tid`. -/
def pushDest (tp : ThreadPool) (useBasicPolicy : Bool) (tid : Nat) (retries : Int) : Nat :=
  if useBasicPolicy then basicDest tp tid else doubleDest tp tid (retries + 1)

/-- The number of items in the abort queues of the threads `0 .. n-1`. -/
def totalQueued (h : AbortHandler V) : Nat → Nat
  | 0 => 0
  | n + 1 => totalQueued h n + (h.queues n).length

/-- A topology of 4 packages with 4 threads each: threads `4p .. 4p+3` form
package `p`, led by thread `4p`. -/
def fourByFour : ThreadPool :=
  { getPackage := fun t => t / 4, getLeader := fun t => t / 4 * 4,
    getLeaderForPackage := fun p => 4 * p, getMaxPackages := 4 }

/-- Where an item that keeps aborting sits after its `k+1`-th push by the
abort handler, and with which counter: first aborted by thread `tid` (so
queued there with counter 1 by `push(const value_type&)`), then each time
popped and retried by the thread whose queue holds it and pushed again by
that thread with `push(const Item&)`. -/
def journey (tp : ThreadPool) (useBasicPolicy : Bool) (tid : Nat) : Nat → Nat × Int
  | 0 => (tid, 1)
  | k + 1 =>
    let at_k := journey tp useBasicPolicy tid k
    (pushDest tp useBasicPolicy at_k.1 at_k.2, at_k.2 + 1)

/-- `ForEachExecutor::runQueueSimple`, for at most `fuel` evaluations of the
loop condition; no handler catches what `doProcess` throws. -/
def runQueueSimple (cfg : Traits) (function : FunctionTy V A) (tid : Nat) (cfuel : Nat) :
    Nat → ExecState V A → Option (Signal × ExecState V A)
  | 0, _ => none
  | fuel + 1, st =>
    match pop tid st WL.work with
    | none => some (Signal.returned, st)
    | some (p, st1) =>
      match doProcess cfg function cfuel (AbortHandler.value p) st1 with
      | none => none
      | some (Signal.returned, st2) => runQueueSimple cfg function tid cfuel fuel st2
      | some r => some r

/-- `ForEachExecutor::handleAborts`: `runQueue<0>(tld, *aborted.getQueue())`. -/
def handleAborts (cfg : Traits) (tp : ThreadPool) (function : FunctionTy V A) (tid : Nat)
    (cfuel fuel : Nat) (st : ExecState V A) : Option (Signal × ExecState V A) :=
  runQueue cfg tp function tid 0 WL.aborts cfuel fuel st

/-- The "Run some iterations" block of one pass of the inner loop of
`go<couldAbort, isLeader>`, called by thread `tid`. -/
def goRound (cfg : Traits) (tp : ThreadPool) (function : FunctionTy V A) (tid : Nat)
    (couldAbort isLeader : Bool) (cfuel fuel : Nat) (st : ExecState V A) :
    Option (Signal × ExecState V A) :=
  if couldAbort ∨ cfg.needsBreak then
    let NUM := if cfg.needsBreak ∨ isLeader then 64 else 0
    match runQueue cfg tp function tid NUM WL.work cfuel fuel st with
    | none => none
    | some (Signal.returned, st1) =>
      if couldAbort then handleAborts cfg tp function tid cfuel fuel st1
      else some (Signal.returned, st1)
    | some r => some r
  else runQueueSimple cfg function tid cfuel fuel st

/-- An operation that appends its item to the application data, a log of the
attempts in the order they are made. -/
def logItem : FunctionTy Nat (List Nat) :=
  fun v _ => [UserAction.update (fun log => log ++ [v])]

/-- A worker (thread 0, context 1, context installed) with item 10 in its work
list and the previously aborted item 20 in its own abort queue. -/
def sampleRetry : ExecState Nat (List Nat) :=
  { heap := initMemory, thread_cnx := some 1, app := [],
    aborted := (AbortHandler.new onePackage).pushValue 0 20,
    wl := [10], broke := false, tld := ThreadLocalData.new 1 }

/-- The state after one round of a leader that can abort, started in
`sampleRetry`. -/
def sampleRound : ExecState Nat (List Nat) :=
  match goRound defaultTraits onePackage logItem 0 true true 5 5 sampleRetry with
  | some r => r.2
  | none => sampleRetry

/-! ## The worker loop `go` -/

/-- Modelled from the spec: the Termination Detector
(Galois/Substrate/Termination.h is not among the sources), with the operations
"initializeThread(), localTermination(didWork: bool), globalTermination() ->
bool".  `T` is the detector as the calling thread sees it; what the other
threads do to it between two calls is part of the three functions. -/
structure TerminationDetection (T : Type) where
  initializeThread : T → T
  localTermination : T → Bool → T
  globalTermination : T → Bool × T

/-- A call `go` makes to the termination detector or to the barrier. -/
inductive TermCall where
  | localTermination (didWork : Bool)
  | globalTermination (result : Bool)
  | initializeThread
  | barrierWait
  deriving DecidableEq

/-- The state of `go`: the executor state with the `tld` of `go`, the
termination detector, the local `old_iterations`, and the calls made so far to
the detector and the barrier, oldest first. -/
structure GoState (V A T : Type) where
  st : ExecState V A
  term : T
  old_iterations : Nat
  calls : List TermCall

/-- The two overloads of `checkEmpty(wl, tld, 0)`: `wl.empty()` when the work
list type has a member `empty()` (`wlHasEmpty`), and `true` otherwise. -/
def checkEmpty (wlHasEmpty : Bool) (st : ExecState V A) : Bool :=
  if wlHasEmpty then st.wl.isEmpty else true

/-- One pass through the body of the inner `do ... while` of
`go<couldAbort, isLeader>`, followed, when the loop condition fails, by the
rest of the body of `while (true)`.  The flag of the result tells whether the
thread leaves `while (true)`; it is `false` when another pass follows.
`barrier.wait()` changes nothing the thread sees. -/
def goPass {T : Type} (cfg : Traits) (tp : ThreadPool) (function : FunctionTy V A) (tid : Nat)
    (couldAbort isLeader wlHasEmpty : Bool) (td : TerminationDetection T)
    (cfuel qfuel : Nat) (s : GoState V A T) : Option (Signal × GoState V A T × Bool) :=
  match goRound cfg tp function tid couldAbort isLeader cfuel qfuel s.st with
  | none => none
  | some (Signal.returned, st1) =>
    let didWork := decide (s.old_iterations ≠ st1.tld.stat_iterations)
    let term1 := td.localTermination s.term didWork
    let g := td.globalTermination term1
    let s1 : GoState V A T :=
      { st := st1, term := g.2, old_iterations := st1.tld.stat_iterations,
        calls := s.calls ++ [TermCall.localTermination didWork, TermCall.globalTermination g.1] }
    if g.1 = false ∧ (cfg.needsBreak = false ∨ st1.broke = false) then
      some (Signal.returned, s1, false)
    else if checkEmpty wlHasEmpty st1 then some (Signal.returned, s1, true)
    else if cfg.needsBreak ∧ st1.broke then some (Signal.returned, s1, true)
    else
      some (Signal.returned,
        { s1 with
          term := td.initializeThread s1.term,
          calls := s1.calls ++ [TermCall.initializeThread, TermCall.barrierWait] },
        false)
  | some (sig, st1) => some (sig, { s with st := st1 }, true)

/-- The two nested loops of `go`, for at most `fuel` passes. -/
def goLoop {T : Type} (cfg : Traits) (tp : ThreadPool) (function : FunctionTy V A) (tid : Nat)
    (couldAbort isLeader wlHasEmpty : Bool) (td : TerminationDetection T)
    (cfuel qfuel : Nat) : Nat → GoState V A T → Option (Signal × GoState V A T)
  | 0, _ => none
  | fuel + 1, s =>
    match goPass cfg tp function tid couldAbort isLeader wlHasEmpty td cfuel qfuel s with
    | none => none
    | some (Signal.returned, s1, false) =>
      goLoop cfg tp function tid couldAbort isLeader wlHasEmpty td cfuel qfuel fuel s1
    | some (sig, s1, _) => some (sig, s1)

/-- The state in which `go` enters its loops: a fresh `ThreadLocalData` whose
context sits at address `ctx`, the thread context installed when `couldAbort`,
`fastPushBack` installed when `needsPush && !couldAbort`, `old_iterations = 0`. -/
def goEnter {T : Type} (cfg : Traits) (couldAbort : Bool) (ctx : Nat) (st : ExecState V A)
    (term : T) : GoState V A T :=
  let tld : ThreadLocalData V := ThreadLocalData.new ctx
  let tld1 : ThreadLocalData V :=
    if cfg.needsPush ∧ couldAbort = false then
      { tld with facing := { tld.facing with fastPushBack := true } }
    else tld
  { st := { st with tld := tld1, thread_cnx := if couldAbort then some ctx else st.thread_cnx },
    term := term, old_iterations := 0, calls := [] }

/-- `ForEachExecutor::go<couldAbort, isLeader>` called by thread `tid`, for at
most `fuel` passes; an exception leaves `go` before `setThreadContext(0)`.  The
timer `execTime` has no state here. -/
def go {T : Type} (cfg : Traits) (tp : ThreadPool) (function : FunctionTy V A) (tid : Nat)
    (couldAbort isLeader wlHasEmpty : Bool) (td : TerminationDetection T) (ctx : Nat)
    (cfuel qfuel fuel : Nat) (st : ExecState V A) (term : T) :
    Option (Signal × GoState V A T) :=
  match goLoop cfg tp function tid couldAbort isLeader wlHasEmpty td cfuel qfuel fuel
      (goEnter cfg couldAbort ctx st term) with
  | none => none
  | some (Signal.returned, s) =>
    some (Signal.returned,
      if couldAbort then { s with st := { s.st with thread_cnx := none } } else s)
  | some r => some r

/-- `ForEachExecutor::operator()` called by thread `tid` when the engine has
`activeThreads` threads; `isLeader` is `substrate::ThreadPool::isLeader()`. -/
def operatorCall {T : Type} (cfg : Traits) (tp : ThreadPool) (function : FunctionTy V A)
    (tid activeThreads : Nat) (isLeader wlHasEmpty : Bool) (td : TerminationDetection T)
    (ctx : Nat) (cfuel qfuel fuel : Nat) (st : ExecState V A) (term : T) :
    Option (Signal × GoState V A T) :=
  let couldAbort : Bool := cfg.needsAborts && decide (activeThreads > 1)
  go cfg tp function tid couldAbort isLeader wlHasEmpty td ctx cfuel qfuel fuel st term

/-- The application data after one attempt that commits: the writes of the
actions, in order. -/
def appAfter : List (UserAction V A) → A → A
  | [], a => a
  | UserAction.update f :: rest, a => appAfter rest (f a)
  | _ :: rest, a => appAfter rest a

/-- Whether a list of actions asks for a parallel break. -/
def breaksOf : List (UserAction V A) → Bool
  | [] => false
  | UserAction.breakLoop :: _ => true
  | _ :: rest => breaksOf rest

/-- Modelled from the spec: the detector of a run in which the calling thread
is the only one voting, "true iff every thread's latest vote was no work".  The
state is "the latest vote was no work". -/
def soloDetection : TerminationDetection Bool :=
  { initializeThread := fun _ => false,
    localTermination := fun _ didWork => !didWork,
    globalTermination := fun t => (t, t) }

/-- An operation that touches handle 5 and does nothing else. -/
def touchFive : FunctionTy Nat (List Nat) :=
  fun _ _ => [UserAction.acquire 5]

/-- A worker (thread 0, context 1) with the items `0 .. n-1` in its work list
and nothing else. -/
def sampleWork (n : Nat) : ExecState Nat (List Nat) :=
  { heap := initMemory, thread_cnx := none, app := [],
    aborted := AbortHandler.new onePackage,
    wl := List.range n, broke := false, tld := ThreadLocalData.new 1 }

/-- The worker of `sampleWork 1` when context 9 owns handle 5. -/
def sampleOwned : ExecState Nat (List Nat) :=
  { sampleWork 1 with heap := (acquire initMemory 9 5).2 }

/-- A worker (thread 0, context 1, context installed) with the 65 items
`0 .. 64` in its work list. -/
def sampleCrowd : ExecState Nat (List Nat) :=
  { sampleWork 65 with thread_cnx := some 1 }

/-- The state after one round of a leader that can abort, started in
`sampleCrowd`. -/
def sampleCrowdRound : ExecState Nat (List Nat) :=
  match goRound defaultTraits onePackage logItem 0 true true 5 100 sampleCrowd with
  | some r => r.2
  | none => sampleCrowd

/-- The state in which `go<true, true>` enters its loops on `sampleRetry`, with
the detector of a single voter. -/
def samplePassStart : GoState Nat (List Nat) Bool :=
  goEnter defaultTraits true 1 sampleRetry false

/-- The state after the first pass of `go<true, true>` from `samplePassStart`. -/
def samplePassEnd : GoState Nat (List Nat) Bool :=
  match goPass defaultTraits onePackage logItem 0 true true true soloDetection 5 5
      samplePassStart with
  | some r => r.2.1
  | none => samplePassStart

/-- The state in which `go<false, true>` enters its loops with nothing to do. -/
def sampleIdleStart : GoState Nat (List Nat) Bool :=
  goEnter defaultTraits false 1 (sampleWork 0) false

/-- The state after the first pass of `go<false, true>` from `sampleIdleStart`. -/
def sampleIdleEnd : GoState Nat (List Nat) Bool :=
  match goPass defaultTraits onePackage logItem 0 false true true soloDetection 5 5
      sampleIdleStart with
  | some r => r.2.1
  | none => sampleIdleStart

/-- The state in which `operator()` returns for the only thread of the engine,
started in `sampleOwned`: one item whose operation touches handle 5 while
context 9 owns that handle. -/
def sampleSoloRun : GoState Nat (List Nat) Bool :=
  match operatorCall defaultTraits onePackage touchFive 0 1 true true soloDetection 1 5 5 5
      sampleOwned false with
  | some r => r.2
  | none => goEnter defaultTraits false 1 sampleOwned false

/-- What holds between two attempts of the only thread of the engine: no
thread context, `fastPushBack` installed exactly when pushes are needed and
the push buffer then empty, and no break pending when the parallel break is
compiled in. -/
def GoodSolo (cfg : Traits) (st : ExecState V A) : Prop :=
  st.thread_cnx = none ∧ st.tld.facing.fastPushBack = cfg.needsPush ∧
  (cfg.needsPush = true → st.tld.facing.pushBuffer = []) ∧
  (cfg.needsBreak = true → st.broke = false)

/-- An operation that adds one to the application data, a counter, and does
nothing else. -/
def countItem : FunctionTy Nat Nat :=
  fun _ _ => [UserAction.update (fun c => c + 1)]

/-- A thread with the items 7, 8, 9 in its work list and the counter at 0. -/
def sampleCount : ExecState Nat Nat :=
  { heap := initMemory, thread_cnx := none, app := 0,
    aborted := AbortHandler.new onePackage,
    wl := [7, 8, 9], broke := false, tld := ThreadLocalData.new 1 }

/-- An operation on numbers that logs its item and, for an item `v ≥ 1`,
pushes `v - 1`. -/
def countDown : FunctionTy Nat (List Nat) :=
  fun v _ =>
    if 1 ≤ v then [UserAction.update (fun log => log ++ [v]), UserAction.push (v - 1)]
    else [UserAction.update (fun log => log ++ [v])]

end galois.runtime

namespace galois.graphs

/-! ## Data model of LC_CSR_Graph.h -/

/-- A `std::vector<uint32_t>`: its size and its elements by index. -/
structure Vec where
  size : Nat
  data : Nat → Nat

/-- The elements of a vector, in order. -/
def Vec.toList (v : Vec) : List Nat := (List.range v.size).map v.data

/-- `v.resize(n)`: the elements kept stay, the new ones are 0. -/
def Vec.resize (v : Vec) (n : Nat) : Vec :=
  { size := n, data := fun i => if i < v.size then v.data i else 0 }

/-- The assignment `v[i] = x`. -/
def Vec.set (v : Vec) (i x : Nat) : Vec :=
  { v with data := Function.update v.data i x }

/-- The empty vector. -/
def Vec.empty : Vec := { size := 0, data := fun _ => 0 }

/-- How a call that contains assertions ends: with its result, or at an
assertion that fails. -/
inductive Outcome (α : Type) where
  | done (a : α)
  | assertFailed

/-- The members of `LC_CSR_Graph` the functions below work on: `edgeIndData`
(a `LargeArray<uint64_t>` of `numNodes` entries), `edgeDst` (a
`LargeArray<uint32_t>` of `numEdges` entries), `edgeData` (of `numEdges`
entries), the two counts and `threadRanges`.  The arrays are given by index;
an index at or past the size of an array is outside it. -/
structure LC_CSR_Graph (E : Type) where
  numNodes : Nat
  numEdges : Nat
  edgeIndData : Nat → Nat
  edgeDst : Nat → Nat
  edgeData : Nat → E
  threadRanges : Vec

variable {E : Type}

/-- `LC_CSR_Graph::raw_begin`. -/
def LC_CSR_Graph.raw_begin (g : LC_CSR_Graph E) (N : Nat) : Nat :=
  if N = 0 then 0 else g.edgeIndData (N - 1)

/-- `LC_CSR_Graph::raw_end`. -/
def LC_CSR_Graph.raw_end (g : LC_CSR_Graph E) (N : Nat) : Nat :=
  g.edgeIndData N

/-- A `for (uint32_t i = lo; i < hi; i++)` loop with body `f i`. -/
def forLoop {σ : Type} (lo hi : Nat) (f : Nat → σ → σ) (s : σ) : σ :=
  (List.range' lo (hi - lo)).foldl (fun s i => f i s) s

/-- The two assertions at the end of both `determineThreadRanges`. -/
def checkRanges (ranges : Vec) (num_threads first last : Nat) : Outcome Vec :=
  if ranges.data 0 ≠ first then Outcome.assertFailed
  else if ranges.data num_threads ≠ last then Outcome.assertFailed
  else Outcome.done ranges

/-- The inner `for` loop "each remaining thread gets 1 node", run `n` times
from `current_thread`, `current_element`: the new vector and the two
counters. -/
def assignOneEach : Nat → Vec → Nat → Nat → Vec × Nat × Nat
  | 0, ranges, current_thread, current_element => (ranges, current_thread, current_element)
  | n + 1, ranges, current_thread, current_element =>
    assignOneEach n (ranges.set (current_thread + 1) (current_element + 1))
      (current_thread + 1) (current_element + 1)

/-- The `while` loop of `determineThreadRanges(beginNode, endNode,
returnRanges, nodeAlpha)`, for at most `fuel` evaluations of its condition,
followed by the two final assertions.  `edge_begin` and `edge_end` are
`raw_begin` and `raw_end` (their locking is not part of this model); the
counters below `endNode` and `num_threads` cannot wrap, the unit counts are
`uint64_t`. -/
def rangesLoop (g : LC_CSR_Graph E) (num_threads beginNode endNode nodeAlpha
    units_per_thread : Nat) :
    Nat → Vec → Nat → Nat → Nat → Option (Outcome Vec)
  | 0, _, _, _, _ => none
  | fuel + 1, returnRanges, current_thread, current_element, current_unit_count =>
    if current_element < endNode ∧ current_thread < num_threads then
      let nodes_remaining := endNode - current_element
      let threads_remaining := num_threads - current_thread
      if ¬ (nodes_remaining ≥ threads_remaining) then some Outcome.assertFailed
      else if threads_remaining = 1 then
        some (checkRanges (returnRanges.set (current_thread + 1) endNode) num_threads
          beginNode endNode)
      else if nodes_remaining = threads_remaining then
        let r := assignOneEach threads_remaining returnRanges current_thread current_element
        if r.2.2 ≠ endNode then some Outcome.assertFailed
        else if r.2.1 ≠ num_threads then some Outcome.assertFailed
        else some (checkRanges r.1 num_threads beginNode endNode)
      else
        let num_edges := (g.raw_end current_element + 18446744073709551616 -
          g.raw_begin current_element) % 18446744073709551616
        let num_units := (num_edges + nodeAlpha) % 18446744073709551616
        if num_units > (3 * units_per_thread) % 18446744073709551616 / 4 ∧
            current_unit_count > units_per_thread / 2 then
          if current_element = beginNode then some Outcome.assertFailed
          else
            rangesLoop g num_threads beginNode endNode nodeAlpha units_per_thread fuel
              (returnRanges.set (current_thread + 1) current_element) (current_thread + 1)
              current_element 0
        else
          let count := (current_unit_count + num_units) % 18446744073709551616
          if count ≥ units_per_thread then
            rangesLoop g num_threads beginNode endNode nodeAlpha units_per_thread fuel
              (returnRanges.set (current_thread + 1) (current_element + 1))
              (current_thread + 1) (current_element + 1) 0
          else
            rangesLoop g num_threads beginNode endNode nodeAlpha units_per_thread fuel
              returnRanges current_thread (current_element + 1) count
    else some (checkRanges returnRanges num_threads beginNode endNode)

/-- `LC_CSR_Graph::determineThreadRanges(beginNode, endNode, returnRanges,
nodeAlpha)` when `galois::runtime::activeThreads` is `activeThreads`: the new
`returnRanges`.  `total_nodes` and `num_threads + 1` are `uint32_t`; the edge
count of the range, a difference of edge iterators, is taken as a natural
number. -/
def determineThreadRanges (g : LC_CSR_Graph E) (activeThreads beginNode endNode : Nat)
    (returnRanges : Vec) (nodeAlpha fuel : Nat) : Option (Outcome Vec) :=
  let num_threads := activeThreads
  let total_nodes := (endNode + 4294967296 - beginNode) % 4294967296
  let ranges := returnRanges.resize ((num_threads + 1) % 4294967296)
  if beginNode = endNode then
    some (Outcome.done
      (forLoop 0 num_threads (fun i r => r.set (i + 1) beginNode) (ranges.set 0 beginNode)))
  else if num_threads = 1 then
    some (Outcome.done ((ranges.set 0 beginNode).set 1 endNode))
  else if num_threads > total_nodes then
    some (Outcome.done
      (forLoop total_nodes num_threads (fun i r => r.set (i + 1) total_nodes)
        (forLoop 0 total_nodes
          (fun i r => r.set (i + 1) ((beginNode + i + 1) % 4294967296))
          (ranges.set 0 beginNode))))
  else
    let node_weight := total_nodes * nodeAlpha
    let units_per_thread :=
      ((g.raw_end (endNode - 1) - g.raw_begin beginNode) / num_threads + node_weight) %
        18446744073709551616
    rangesLoop g num_threads beginNode endNode nodeAlpha units_per_thread fuel
      (ranges.set 0 beginNode) 0 beginNode 0

/-- The `while` loop of `determineThreadRanges(totalNodes, edgePrefixSum,
nodeAlpha)`, for at most `fuel` evaluations of its condition, followed by the
two final assertions.  `edgePrefixSum` is given by index; the differences of
its entries and the unit counts are `uint64_t`, the product with `nodeAlpha`
is `uint32_t`. -/
def prefixRangesLoop (totalNodes : Nat) (edgePrefixSum : Nat → Nat)
    (num_threads nodeAlpha units_per_thread : Nat) :
    Nat → Vec → Nat → Nat → Nat → Nat → Option (Outcome Vec)
  | 0, _, _, _, _, _ => none
  | fuel + 1, threadRanges, current_thread, current_element, accounted_edges,
      accounted_elements =>
    if current_element < totalNodes ∧ current_thread < num_threads then
      let threads_remaining := num_threads - current_thread
      if ¬ (totalNodes - current_element ≥ threads_remaining) then some Outcome.assertFailed
      else if threads_remaining = 1 then
        if current_thread ≠ num_threads - 1 then some Outcome.assertFailed
        else
          some (checkRanges (threadRanges.set (current_thread + 1) totalNodes) num_threads 0
            totalNodes)
      else if totalNodes - current_element = threads_remaining then
        let r := assignOneEach threads_remaining threadRanges current_thread current_element
        if r.2.2 ≠ totalNodes then some Outcome.assertFailed
        else if r.2.1 ≠ num_threads then some Outcome.assertFailed
        else some (checkRanges r.1 num_threads 0 totalNodes)
      else
        let element_edges :=
          if current_element > 0 then
            (edgePrefixSum current_element + 18446744073709551616 -
              edgePrefixSum (current_element - 1)) % 18446744073709551616
          else edgePrefixSum 0
        let edge_count_without_current :=
          if current_element > 0 then
            (edgePrefixSum current_element + 2 * 18446744073709551616 - accounted_edges -
              element_edges) % 18446744073709551616
          else 0
        let unit_count_without_current :=
          (edge_count_without_current +
            ((current_element + 4294967296 - accounted_elements) % 4294967296 * nodeAlpha) %
              4294967296) % 18446744073709551616
        let element_units := (element_edges + nodeAlpha) % 18446744073709551616
        if element_units > (3 * units_per_thread) % 18446744073709551616 / 4 ∧
            unit_count_without_current > units_per_thread / 2 then
          if current_element = 0 then some Outcome.assertFailed
          else
            prefixRangesLoop totalNodes edgePrefixSum num_threads nodeAlpha units_per_thread
              fuel (threadRanges.set (current_thread + 1) current_element)
              (current_thread + 1) current_element (edgePrefixSum (current_element - 1))
              current_element
        else
          let unit_count_with_current :=
            (unit_count_without_current + element_units) % 18446744073709551616
          if unit_count_with_current ≥ units_per_thread then
            prefixRangesLoop totalNodes edgePrefixSum num_threads nodeAlpha units_per_thread
              fuel (threadRanges.set (current_thread + 1) (current_element + 1))
              (current_thread + 1) (current_element + 1) (edgePrefixSum current_element)
              (current_element + 1)
          else
            prefixRangesLoop totalNodes edgePrefixSum num_threads nodeAlpha units_per_thread
              fuel threadRanges current_thread (current_element + 1) accounted_edges
              accounted_elements
    else some (checkRanges threadRanges num_threads 0 totalNodes)

/-- `LC_CSR_Graph::determineThreadRanges(totalNodes, edgePrefixSum, nodeAlpha)`
when `galois::runtime::activeThreads` is `activeThreads`: the new
`threadRanges`.  `edgePrefixSum` has `prefixSize` entries, given by index. -/
def determineThreadRangesPrefix (g : LC_CSR_Graph E) (activeThreads totalNodes : Nat)
    (prefixSize : Nat) (edgePrefixSum : Nat → Nat) (nodeAlpha fuel : Nat) :
    Option (Outcome Vec) :=
  if g.threadRanges.size ≠ 0 then some (Outcome.done g.threadRanges)
  else if prefixSize ≠ totalNodes then some Outcome.assertFailed
  else
    let num_threads := activeThreads
    let ranges := g.threadRanges.resize ((num_threads + 1) % 4294967296)
    if num_threads = 1 then some (Outcome.done ((ranges.set 0 0).set 1 totalNodes))
    else if num_threads > totalNodes then
      some (Outcome.done
        (forLoop totalNodes num_threads (fun i r => r.set (i + 1) totalNodes)
          (forLoop 0 totalNodes (fun i r => r.set (i + 1) ((i + 1) % 4294967296))
            (ranges.set 0 0))))
    else
      let node_weight := totalNodes * nodeAlpha
      let units_per_thread :=
        (edgePrefixSum (totalNodes - 1) / num_threads + node_weight) % 18446744073709551616
      prefixRangesLoop totalNodes edgePrefixSum num_threads nodeAlpha units_per_thread fuel
        (ranges.set 0 0) 0 0 0 0

/-- What `determineThreadRanges` reports, as a list: the entries of the
vector of a call that ends well. -/
def rangesOf : Option (Outcome Vec) → Option (List Nat)
  | some (Outcome.done v) => some v.toList
  | _ => none

/-- A graph of 8 nodes and 8 edges, node `n` having the one edge to node
`n + 1` (the last to node 0), with no thread ranges yet. -/
def ring8 : LC_CSR_Graph Nat :=
  { numNodes := 8, numEdges := 8, edgeIndData := fun n => n + 1,
    edgeDst := fun e => (e + 1) % 8, edgeData := fun e => e, threadRanges := Vec.empty }

/-- What the callers of `determineThreadRanges` rely on: `T + 1` entries that
do not decrease, from `first` to `last`. -/
def RangesOk (ranges : Vec) (T first last : Nat) : Prop :=
  ranges.size = T + 1 ∧ ranges.data 0 = first ∧ ranges.data T = last ∧
  ∀ i, i < T → ranges.data i ≤ ranges.data (i + 1)

/-- What holds of the vector at each test of the `while` loops: entry 0 is
`first`, the entries up to `current_thread` do not decrease, and entry
`current_thread` is at most `current_element`. -/
def RangesInv (ranges : Vec) (first current_thread current_element : Nat) : Prop :=
  ranges.data 0 = first ∧
  (∀ i, i < current_thread → ranges.data i ≤ ranges.data (i + 1)) ∧
  ranges.data current_thread ≤ current_element

/-! ## findEdgeSortedByDst -/

/-- The loop of `std::lower_bound(first, last, N2, comp)` with the comparison
`getEdgeDst(e) < N` of `findEdgeSortedByDst` (the algorithm of the C++
standard library: halve the length, compare at the middle), for at most
`fuel` evaluations of its condition: the iterator returned, and the indices
at which `edgeDst` was read, in order. -/
def lowerBoundLoop (edgeDst : Nat → Nat) (N2 : Nat) :
    Nat → Nat → Nat → List Nat → Nat × List Nat
  | 0, first, _, reads => (first, reads)
  | fuel + 1, first, len, reads =>
    if len > 0 then
      let half := len / 2
      let middle := first + half
      if edgeDst middle < N2 then
        lowerBoundLoop edgeDst N2 fuel (middle + 1) (len - half - 1) (reads ++ [middle])
      else lowerBoundLoop edgeDst N2 fuel first half (reads ++ [middle])
    else (first, reads)

/-- `std::lower_bound` on the edges `first .. last - 1`; the length more than
halves in each pass, so `last - first` passes are enough. -/
def lower_bound (edgeDst : Nat → Nat) (N2 first last : Nat) : Nat × List Nat :=
  lowerBoundLoop edgeDst N2 (last - first) first (last - first) []

/-- `LC_CSR_Graph::edge_begin(N)` with the default flag: the iterator, and the
indices at which `edgeDst` is read when the neighbours are locked.  The locks
themselves are not part of this model. -/
def LC_CSR_Graph.edge_begin (g : LC_CSR_Graph E) (N : Nat) : Nat × List Nat :=
  (g.raw_begin N, List.range' (g.raw_begin N) (g.raw_end N - g.raw_begin N))

/-- `LC_CSR_Graph::edge_end(N)`. -/
def LC_CSR_Graph.edge_end (g : LC_CSR_Graph E) (N : Nat) : Nat := g.raw_end N

/-- `LC_CSR_Graph::findEdgeSortedByDst(N1, N2)`: the iterator returned, and the
indices at which `edgeDst` was read, in order, the last one being the read of
`getEdgeDst(e)` after the search. -/
def findEdgeSortedByDst (g : LC_CSR_Graph E) (N1 N2 : Nat) : Nat × List Nat :=
  let b := g.edge_begin N1
  let r := lower_bound g.edgeDst N2 b.1 (g.edge_end N1)
  let e := r.1
  (if g.edgeDst e = N2 then e else g.edge_end N1, b.2 ++ r.2 ++ [e])

/-- A graph of 2 nodes and 3 edges: node 0 has the edges to 0, 0 and 1, in
this order, and node 1 has no edge. -/
def fan3 : LC_CSR_Graph Nat :=
  { numNodes := 2, numEdges := 3, edgeIndData := fun n => if n = 0 then 3 else 3,
    edgeDst := fun e => if e < 2 then 0 else 1, edgeData := fun e => 10 + e,
    threadRanges := Vec.empty }

/-! ## transpose -/

/-- The arrays `transpose` works on: the three arrays of the graph and its
four local arrays. -/
structure TransposeVars (E : Type) where
  edgeIndData : Nat → Nat
  edgeDst : Nat → Nat
  edgeData : Nat → E
  edgeDst_old : Nat → Nat
  edgeData_new : Nat → E
  edgeIndData_old : Nat → Nat
  edgeIndData_temp : Nat → Nat

/-- The body of the loop "TRANSPOSE_EDGEINTDATA_COPY". -/
def copyIndex (n : Nat) (s : TransposeVars E) : TransposeVars E :=
  { s with
    edgeIndData_old := Function.update s.edgeIndData_old n (s.edgeIndData n),
    edgeIndData_temp := Function.update s.edgeIndData_temp n 0 }

/-- The body of the loop that copies the destinations and counts the incoming
edges; the counters are `uint64_t`. -/
def countIncoming (e : Nat) (s : TransposeVars E) : TransposeVars E :=
  let dst := s.edgeDst e
  { s with
    edgeDst_old := Function.update s.edgeDst_old e dst,
    edgeIndData_temp := Function.update s.edgeIndData_temp dst
      ((s.edgeIndData_temp dst + 1) % 18446744073709551616) }

/-- The body of the prefix sum loop. -/
def addPrevious (n : Nat) (s : TransposeVars E) : TransposeVars E :=
  { s with
    edgeIndData_temp := Function.update s.edgeIndData_temp n
      ((s.edgeIndData_temp n + s.edgeIndData_temp (n - 1)) % 18446744073709551616) }

/-- The body of the loop "TRANSPOSE_EDGEINTDATA_SET". -/
def setIndex (n : Nat) (s : TransposeVars E) : TransposeVars E :=
  { s with edgeIndData := Function.update s.edgeIndData n (s.edgeIndData_temp n) }

/-- The body of the loop "TRANSPOSE_EDGEINTDATA_TEMP". -/
def shiftTemp (n : Nat) (s : TransposeVars E) : TransposeVars E :=
  { s with edgeIndData_temp := Function.update s.edgeIndData_temp n (s.edgeIndData (n - 1)) }

/-- The body of the `while` loop that moves edge `e` of node `src` to its new
place, with `edgeDataCopy(edgeData_new, edgeData, e_new, e)`. -/
def moveEdge (src e : Nat) (s : TransposeVars E) : TransposeVars E :=
  let dst := s.edgeDst_old e
  let e_new := s.edgeIndData_temp dst
  { s with
    edgeIndData_temp := Function.update s.edgeIndData_temp dst
      ((e_new + 1) % 18446744073709551616),
    edgeDst := Function.update s.edgeDst e_new src,
    edgeData_new := Function.update s.edgeData_new e_new (s.edgeData e) }

/-- The body of the `for` loop over `src`: the `while` loop over the edges of
`src` in the old index array. -/
def moveEdgesOf (src : Nat) (s : TransposeVars E) : TransposeVars E :=
  forLoop (if src = 0 then 0 else s.edgeIndData_old (src - 1)) (s.edgeIndData_old src)
    (moveEdge src) s

/-- The body of the loop "TRANSPOSE_EDGEDATA_SET". -/
def copyData (e : Nat) (s : TransposeVars E) : TransposeVars E :=
  { s with edgeData := Function.update s.edgeData e (s.edgeData_new e) }

/-- The arrays at the end of `transpose()`, for a graph with edge data and
fewer than 2^32 nodes: the loops in the order of the source.  The `do_all`
loops count in `uint32_t`, so they stop at the count taken modulo 2^32. -/
def transposeVars (g : LC_CSR_Graph E) (fresh : TransposeVars E) : TransposeVars E :=
  let s0 : TransposeVars E :=
    { fresh with edgeIndData := g.edgeIndData, edgeDst := g.edgeDst, edgeData := g.edgeData }
  let s1 := forLoop 0 (g.numNodes % 4294967296) copyIndex s0
  let s2 := forLoop 0 g.numEdges countIncoming s1
  let s3 := forLoop 1 g.numNodes addPrevious s2
  let s4 := forLoop 0 (g.numNodes % 4294967296) setIndex s3
  let s5 :=
    if g.numNodes ≥ 1 then
      forLoop 1 (g.numNodes % 4294967296) shiftTemp
        { s4 with edgeIndData_temp := Function.update s4.edgeIndData_temp 0 0 }
    else s4
  let s6 := forLoop 0 g.numNodes moveEdgesOf s5
  forLoop 0 (g.numEdges % 4294967296) copyData s6

/-- `LC_CSR_Graph::transpose()` (with `reallocate = false`) on a graph with
edge data.  `fresh` is what the newly allocated local arrays hold, and
`newRanges` what `determineThreadRangesByNode` leaves in `threadRanges`
(`divideByNode` is not among the sources).  With 2^32 nodes or more the
`uint32_t` counters of the `for` loops never reach `numNodes`, and the call
does not return. -/
def transpose (g : LC_CSR_Graph E) (fresh : TransposeVars E) (newRanges : Vec) :
    Option (LC_CSR_Graph E) :=
  if g.numNodes ≥ 4294967296 then none
  else
    let s := transposeVars g fresh
    some { numNodes := g.numNodes, numEdges := g.numEdges, edgeIndData := s.edgeIndData,
           edgeDst := s.edgeDst, edgeData := s.edgeData, threadRanges := newRanges }

/-- The CSR arrays are valid: `edgeIndData` does not decrease and ends at
`numEdges`, and every destination is a node. -/
def ValidCSR (g : LC_CSR_Graph E) : Prop :=
  (∀ n, n + 1 < g.numNodes → g.edgeIndData n ≤ g.edgeIndData (n + 1)) ∧
  (0 < g.numNodes → g.edgeIndData (g.numNodes - 1) = g.numEdges) ∧
  (g.numNodes = 0 → g.numEdges = 0) ∧
  (∀ e, e < g.numEdges → g.edgeDst e < g.numNodes)

/-- The number of edges `e < k` with destination `d`. -/
def inDegree (edgeDst : Nat → Nat) (d : Nat) : Nat → Nat
  | 0 => 0
  | k + 1 => inDegree edgeDst d k + (if edgeDst k = d then 1 else 0)

/-- The number of edges `e < k` with a destination below `n`. -/
def edgesBelow (edgeDst : Nat → Nat) (n : Nat) : Nat → Nat
  | 0 => 0
  | k + 1 => edgesBelow edgeDst n k + (if edgeDst k < n then 1 else 0)

/-- Where edge `e` of the graph belongs after the transpose: behind the edges
into smaller nodes and the earlier edges into the same node. -/
def transposedIndex (g : LC_CSR_Graph E) (e : Nat) : Nat :=
  edgesBelow g.edgeDst (g.edgeDst e) g.numEdges + inDegree g.edgeDst (g.edgeDst e) e

/-- Local arrays filled with zeros and the given edge data. -/
def freshVars (data : Nat → E) : TransposeVars E :=
  { edgeIndData := fun _ => 0, edgeDst := fun _ => 0, edgeData := data,
    edgeDst_old := fun _ => 0, edgeData_new := data, edgeIndData_old := fun _ => 0,
    edgeIndData_temp := fun _ => 0 }

/-- The first `numNodes` entries of `edgeIndData` and the first `numEdges`
entries of `edgeDst` and `edgeData`. -/
def LC_CSR_Graph.arrays (g : LC_CSR_Graph Nat) : List Nat × List Nat × List Nat :=
  ((List.range g.numNodes).map g.edgeIndData, (List.range g.numEdges).map g.edgeDst,
    (List.range g.numEdges).map g.edgeData)

/-- A graph of 2 nodes and 2^32 edges, all leaving node 0: the first goes to
node 1 and all the others to node 0; edge `e` carries the data `e`. -/
def wideFan : LC_CSR_Graph Nat :=
  { numNodes := 2, numEdges := 4294967296, edgeIndData := fun _ => 4294967296,
    edgeDst := fun e => if e = 0 then 1 else 0, edgeData := fun e => e,
    threadRanges := Vec.empty }

/-- What holds of the arrays of `transpose` when the edges `0 .. k - 1` of the
graph `g` have been moved: the new index array `ind` is in place, the copies
of the old arrays are complete, `edgeIndData_temp[d]` is the next free place
among the places of node `d`, and each moved edge sits at its new place, with
its source as destination and with its data in `edgeData_new`. -/
def Moved (g : LC_CSR_Graph E) (ind : Nat → Nat) (k : Nat) (s : TransposeVars E) : Prop :=
  s.edgeIndData = ind ∧ s.edgeData = g.edgeData ∧
  (∀ j, j < g.numNodes → s.edgeIndData_old j = g.edgeIndData j) ∧
  (∀ e, e < g.numEdges → s.edgeDst_old e = g.edgeDst e) ∧
  (∀ d, d < g.numNodes → s.edgeIndData_temp d =
    edgesBelow g.edgeDst d g.numEdges + inDegree g.edgeDst d k) ∧
  (∀ e, e < k → ∃ src, src < g.numNodes ∧ g.raw_begin src ≤ e ∧ e < g.raw_end src ∧
    s.edgeDst (transposedIndex g e) = src) ∧
  (∀ e, e < k → s.edgeData_new (transposedIndex g e) = g.edgeData e)

/-- The number of edges from node `u` to node `v`: the edges of `u` with
destination `v`. -/
def edgeCount (g : LC_CSR_Graph E) (u v : Nat) : Nat :=
  ((Finset.Ico (g.raw_begin u) (g.raw_end u)).filter (fun e => g.edgeDst e = v)).card

end galois.graphs

namespace GaloisRuntime

/-! ## Lemmas on the ownership protocol -/

theorem isList_congr (f g : Nat → Lockable) :
    ∀ (l : List Nat) (p : Option Nat), (∀ h ∈ l, (f h).next = (g h).next) →
      isList f p l → isList g p l := by
  intro l
  induction l with
  | nil => intro p _ h; cases p <;> simp [isList] at h ⊢
  | cons x t ih =>
    intro p hfg h
    cases p with
    | none => simp [isList] at h
    | some y =>
      simp only [isList] at h ⊢
      refine ⟨h.1, ?_⟩
      have hx : (f x).next = (g x).next := hfg x (by simp)
      rw [← hx]
      exact ih _ (fun h' hh => hfg h' (by simp [hh])) h.2

theorem isList_unique (f : Nat → Lockable) :
    ∀ (l1 l2 : List Nat) (p : Option Nat), isList f p l1 → isList f p l2 → l1 = l2 := by
  intro l1
  induction l1 with
  | nil =>
    intro l2 p h1 h2
    cases p with
    | none => cases l2 with
      | nil => rfl
      | cons _ _ => simp [isList] at h2
    | some _ => simp [isList] at h1
  | cons x t ih =>
    intro l2 p h1 h2
    cases p with
    | none => simp [isList] at h1
    | some y =>
      cases l2 with
      | nil => simp [isList] at h2
      | cons x2 t2 =>
        simp only [isList] at h1 h2
        obtain ⟨e1, r1⟩ := h1
        obtain ⟨e2, r2⟩ := h2
        subst e1
        subst e2
        rw [ih t2 _ r1 r2]

theorem isList_nil_iff (f : Nat → Lockable) (p : Option Nat) :
    isList f p [] ↔ p = none := by
  cases p <;> simp [isList]

theorem Memory.setOwner_self (s : Memory) (L : Nat) :
    s.setOwner L (s.handles L).Owner = s := by
  cases s
  simp [Memory.setOwner]

/-- What `acquire` does on a handle whose lock bit is set. -/
theorem acquire_locked (s : Memory) (this L : Nat)
    (hl : (s.handles L).Owner.locked = true) :
    acquire s this L =
      (if (s.handles L).Owner.value ≠ some this then Signal.conflict else Signal.returned, s) := by
  have h1 : (s.handles L).Owner.try_lock = (false, (s.handles L).Owner) := by
    simp [PtrLock.try_lock, hl]
  unfold acquire
  simp only [h1, Memory.setOwner_self, PtrLock.getValue]
  by_cases hv : (s.handles L).Owner.value = some this <;> simp [hv]

/-- What `acquire` does on a free, unlinked handle. -/
theorem acquire_free (s : Memory) (this L : Nat)
    (hl : (s.handles L).Owner.locked = false) (hv : (s.handles L).Owner.value = none)
    (hn : (s.handles L).next = none) :
    acquire s this L = (Signal.returned, acquired s this L) := by
  have h1 : (s.handles L).Owner.try_lock = (true, { (s.handles L).Owner with locked := true }) := by
    simp [PtrLock.try_lock, hl]
  unfold acquire
  simp only [h1]
  simp [Memory.setOwner, Memory.setNext, Memory.setLocks, PtrLock.getValue, PtrLock.setValue,
    hv, hn, acquired]

theorem commit_iteration_loop_spec :
    ∀ (l : List Nat) (fuel : Nat) (s : Memory) (this n : Nat) (tr : List Nat),
      isList s.handles (s.locks this) l → l.Nodup → n < 4294967296 →
      commit_iteration_loop fuel s this n tr =
        if l.length < fuel then
          some (released s this l, (n + l.length) % 4294967296, tr ++ l)
        else none := by
  intro l
  induction l with
  | nil =>
    intro fuel s this n tr hl _ hn
    have h0 : s.locks this = none := (isList_nil_iff _ _).1 hl
    cases fuel with
    | zero => simp [commit_iteration_loop]
    | succ f =>
      have hs : released s this [] = s := by
        cases s with
        | mk hh ll =>
          simp only [released, Memory.mk.injEq]
          refine ⟨by funext h; simp, ?_⟩
          simp only at h0
          rw [← h0]
          simp
      simp [commit_iteration_loop, h0, hs, Nat.mod_eq_of_lt hn]
  | cons x t ih =>
    intro fuel s this n tr hl hnd hn
    cases hp : s.locks this with
    | none => rw [hp] at hl; simp [isList] at hl
    | some y =>
      rw [hp] at hl
      simp only [isList] at hl
      obtain ⟨rfl, hl⟩ := hl
      cases fuel with
      | zero => simp [commit_iteration_loop]
      | succ f =>
        have hx : y ∉ t := (List.nodup_cons.1 hnd).1
        have ht : t.Nodup := (List.nodup_cons.1 hnd).2
        simp only [commit_iteration_loop, hp]
        rw [ih f _ this _ _ ?_ ht (Nat.mod_lt _ (by norm_num))]
        · by_cases hf : t.length < f
          · have hf2 : (y :: t).length < f + 1 := by simp; omega
            rw [if_pos hf, if_pos hf2]
            refine congrArg some (Prod.ext ?_ (Prod.ext ?_ ?_))
            · simp only [released, Memory.setOwner, Memory.setNext, Memory.setLocks,
                PtrLock.unlock_and_clear, Memory.mk.injEq, Function.update_idem, and_true]
              funext h
              by_cases h1 : h ∈ t
              · simp [h1]
              · by_cases h2 : h = y
                · subst h2
                  simp [h1]
                · simp [h1, h2, Function.update_noteq h2]
            · simp only [List.length_cons]
              omega
            · simp
          · have hf2 : ¬ (y :: t).length < f + 1 := by simp; omega
            rw [if_neg hf, if_neg hf2]
        · simp only [Memory.setOwner, Memory.setNext, Memory.setLocks, Function.update_same]
          refine isList_congr s.handles _ t _ ?_ hl
          intro h hh
          have : h ≠ y := fun e => hx (e ▸ hh)
          simp [Function.update_noteq this]

/-- With enough fuel `commit_iteration` releases exactly the acquired-list;
with less it does not finish. -/
theorem commit_iteration_eq (s : Memory) (this fuel : Nat) (l : List Nat)
    (hl : isList s.handles (s.locks this) l) (hnd : l.Nodup) :
    commit_iteration fuel s this =
      if l.length < fuel then some (released s this l, l.length % 4294967296, l) else none := by
  have := commit_iteration_loop_spec l fuel s this 0 [] hl hnd (by norm_num)
  simpa [commit_iteration] using this

theorem commit_iteration_spec (s : Memory) (this fuel : Nat) (l : List Nat)
    (hl : isList s.handles (s.locks this) l) (hnd : l.Nodup) (hf : l.length < fuel) :
    commit_iteration fuel s this = some (released s this l, l.length % 4294967296, l) := by
  rw [commit_iteration_eq s this fuel l hl hnd, if_pos hf]

theorem Inv_init : Inv initMemory := by
  refine ⟨fun h => by simp [initMemory], fun h _ => by simp [initMemory], fun c => ?_⟩
  exact ⟨[], by simp [initMemory, isList], List.nodup_nil, fun h => by simp [initMemory]⟩

theorem Inv_acquired (s : Memory) (this L : Nat) (hi : Inv s)
    (hv : (s.handles L).Owner.value = none) : Inv (acquired s this L) := by
  obtain ⟨h1, h2, h3⟩ := hi
  have notin : ∀ (c : Nat) (l : List Nat), (∀ h, h ∈ l ↔ (s.handles h).Owner.value = some c) → L ∉ l := by
    intro c l hm hL
    have := (hm L).1 hL
    rw [hv] at this
    cases this
  refine ⟨fun h => ?_, fun h => ?_, fun c => ?_⟩
  · by_cases e : h = L
    · subst e; simp [acquired]
    · simpa [acquired, Function.update_noteq e] using h1 h
  · by_cases e : h = L
    · subst e; simp [acquired]
    · simpa [acquired, Function.update_noteq e] using h2 h
  · obtain ⟨l, hl, hnd, hm⟩ := h3 c
    have hL : L ∉ l := notin c l hm
    have hl2 : ∀ p, isList s.handles p l → isList (acquired s this L).handles p l := by
      intro p hp
      refine isList_congr _ _ l p ?_ hp
      intro h hh
      have e : h ≠ L := fun e => hL (e ▸ hh)
      simp [acquired, Function.update_noteq e]
    by_cases ec : c = this
    · subst ec
      refine ⟨L :: l, ?_, List.nodup_cons.2 ⟨hL, hnd⟩, fun h => ?_⟩
      · have : (acquired s c L).locks c = some L := by simp [acquired]
        rw [this]
        simp only [isList, true_and]
        have hn : ((acquired s c L).handles L).next = s.locks c := by simp [acquired]
        rw [hn]
        exact hl2 _ hl
      · by_cases e : h = L
        · subst e; simp [acquired]
        · simp [acquired, Function.update_noteq e, e, hm h]
    · refine ⟨l, ?_, hnd, fun h => ?_⟩
      · have : (acquired s this L).locks c = s.locks c := by
          simp [acquired, Function.update_noteq ec]
        rw [this]
        exact hl2 _ hl
      · by_cases e : h = L
        · subst e
          have : ¬ this = c := fun e => ec e.symm
          simp [acquired, hL, this]
        · simp [acquired, Function.update_noteq e, hm h]

theorem Inv_released (s : Memory) (this : Nat) (l : List Nat) (hi : Inv s)
    (hl : isList s.handles (s.locks this) l) : Inv (released s this l) := by
  obtain ⟨h1, h2, h3⟩ := hi
  obtain ⟨l0, hl0, hnd0, hm0⟩ := h3 this
  have e0 : l = l0 := isList_unique _ _ _ _ hl hl0
  subst e0
  refine ⟨fun h => ?_, fun h => ?_, fun c => ?_⟩
  · by_cases e : h ∈ l
    · simp [released, e]
    · simpa [released, e] using h1 h
  · by_cases e : h ∈ l
    · simp [released, e]
    · simpa [released, e] using h2 h
  · by_cases ec : c = this
    · subst ec
      refine ⟨[], by simp [released, isList], List.nodup_nil, fun h => ?_⟩
      by_cases e : h ∈ l
      · simp [released, e]
      · have := hm0 h
        simp only [released, e, if_false, List.not_mem_nil, false_iff]
        exact fun hh => e (this.2 hh)
    · obtain ⟨lc, hlc, hndc, hmc⟩ := h3 c
      have disj : ∀ h, h ∈ lc → h ∉ l := by
        intro h hc hl
        have a := (hmc h).1 hc
        have b := (hm0 h).1 hl
        rw [a] at b
        exact ec (Option.some.inj b)
      refine ⟨lc, ?_, hndc, fun h => ?_⟩
      · have : (released s this l).locks c = s.locks c := by
          simp [released, Function.update_noteq ec]
        rw [this]
        refine isList_congr _ _ lc _ ?_ hlc
        intro h hh
        simp [released, disj h hh]
      · by_cases e : h ∈ l
        · have : h ∉ lc := fun hc => disj h hc e
          simp [released, e, this]
        · simp [released, e, hmc h]

/-- Every reachable memory satisfies the invariant. -/
theorem Reachable.inv : ∀ {s : Memory}, Reachable s → Inv s := by
  intro s hr
  induction hr with
  | init => exact Inv_init
  | acquire s this L _ hna ih =>
    by_cases hl : (s.handles L).Owner.locked = true
    · rw [acquire_locked s this L hl]
      exact ih
    · have hl2 : (s.handles L).Owner.locked = false := by simpa using hl
      have hv : (s.handles L).Owner.value = none := by
        by_contra hv
        exact hl ((ih.1 L).2 hv)
      rw [acquire_free s this L hl2 hv (ih.2.1 L hv)]
      exact Inv_acquired s this L ih hv
  | commit s this fuel r _ hc ih =>
    obtain ⟨l, hl, hnd, _⟩ := ih.2.2 this
    rw [commit_iteration_eq s this fuel l hl hnd] at hc
    split at hc
    · cases hc
      exact Inv_released s this l ih hl
    · cases hc
  | cancel s this fuel r _ hc ih =>
    obtain ⟨l, hl, hnd, _⟩ := ih.2.2 this
    rw [cancel_iteration, commit_iteration_eq s this fuel l hl hnd] at hc
    split at hc
    · cases hc
      exact Inv_released s this l ih hl
    · cases hc

/-! ## Claims on the ownership protocol -/

/-- C1 (mutual exclusion): in every memory reachable from the initial one by
atomic acquire, commit_iteration and cancel_iteration steps of any contexts,
a handle records at most one owner, every context has an acquired-list in
which a handle occurs exactly once when it is owned by this context and not at
all otherwise, and no handle is in the acquired-lists of two contexts. -/
theorem mutual_exclusion (s : Memory) (hr : Reachable s) :
    (∀ h c1 c2, s.owner h = some c1 → s.owner h = some c2 → c1 = c2) ∧
    (∀ c, ∃ l, isList s.handles (s.locks c) l ∧
      ∀ h, (s.owner h = some c → l.count h = 1) ∧ (s.owner h ≠ some c → l.count h = 0)) ∧
    (∀ c1 c2 l1 l2 h, isList s.handles (s.locks c1) l1 → isList s.handles (s.locks c2) l2 →
      h ∈ l1 → h ∈ l2 → c1 = c2) := by
  obtain ⟨_, _, h3⟩ := hr.inv
  refine ⟨fun h c1 c2 e1 e2 => ?_, fun c => ?_, fun c1 c2 l1 l2 h hl1 hl2 m1 m2 => ?_⟩
  · rw [e1] at e2
    exact Option.some.inj e2
  · obtain ⟨l, hl, hnd, hm⟩ := h3 c
    refine ⟨l, hl, fun h => ⟨fun ho => ?_, fun ho => ?_⟩⟩
    · exact List.count_eq_one_of_mem hnd ((hm h).2 ho)
    · exact List.count_eq_zero_of_not_mem (fun hh => ho ((hm h).1 hh))
  · obtain ⟨l1', hl1', _, hm1⟩ := h3 c1
    obtain ⟨l2', hl2', _, hm2⟩ := h3 c2
    have e1 := isList_unique _ _ _ _ hl1 hl1'
    have e2 := isList_unique _ _ _ _ hl2 hl2'
    subst e1
    subst e2
    have a := (hm1 h).1 m1
    have b := (hm2 h).1 m2
    rw [a] at b
    exact Option.some.inj b

/-- Witness for C1: after context 1 acquired handle 5 and context 2 acquired
handle 7, handle 5 occurs once in the acquired-list of context 1. -/
theorem mutual_exclusion_witness :
    Reachable (acquire (acquire initMemory 1 5).2 2 7).2 ∧
    ∃ l, isList (acquire (acquire initMemory 1 5).2 2 7).2.handles
        ((acquire (acquire initMemory 1 5).2 2 7).2.locks 1) l ∧
      ∀ h, ((acquire (acquire initMemory 1 5).2 2 7).2.owner h = some 1 → l.count h = 1) ∧
        ((acquire (acquire initMemory 1 5).2 2 7).2.owner h ≠ some 1 → l.count h = 0) :=
  have hr : Reachable (acquire (acquire initMemory 1 5).2 2 7).2 :=
    Reachable.acquire _ 2 7 (Reachable.acquire _ 1 5 Reachable.init (by decide)) (by decide)
  ⟨hr, (mutual_exclusion _ hr).2.1 1⟩

/-- In a reachable memory `acquire` either finds the lock bit set and leaves
the memory alone, or finds a free unlinked handle and takes it. -/
theorem acquire_cases (s : Memory) (hr : Reachable s) (c h : Nat) :
    (s.owner h ≠ none ∧ acquire s c h =
      (if s.owner h ≠ some c then Signal.conflict else Signal.returned, s)) ∨
    (s.owner h = none ∧ acquire s c h = (Signal.returned, acquired s c h)) := by
  have hi := hr.inv
  by_cases hl : (s.handles h).Owner.locked = true
  · left
    exact ⟨(hi.1 h).1 hl, acquire_locked s c h hl⟩
  · right
    have hl2 : (s.handles h).Owner.locked = false := by simpa using hl
    have hv : (s.handles h).Owner.value = none := by
      by_contra hv
      exact hl ((hi.1 h).2 hv)
    exact ⟨hv, acquire_free s c h hl2 hv (hi.2.1 h hv)⟩

/-- C2: in a reachable memory, acquire of handle h by context c throws the
conflict exactly when h records an owner other than c, and when it throws the
whole memory (owner and link of every handle, acquired-list of every context)
is unchanged. -/
theorem acquire_conflict_iff (s : Memory) (hr : Reachable s) (c h : Nat) :
    ((acquire s c h).1 = Signal.conflict ↔ ∃ c', c' ≠ c ∧ s.owner h = some c') ∧
    ((acquire s c h).1 = Signal.conflict → (acquire s c h).2 = s) := by
  rcases acquire_cases s hr c h with ⟨ho, ha⟩ | ⟨ho, ha⟩
  · rw [ha]
    refine ⟨?_, fun _ => rfl⟩
    by_cases hc : s.owner h = some c
    · simp only [hc, ne_eq, not_true_eq_false, if_false, reduceCtorEq, false_iff]
      rintro ⟨c', hne, he⟩
      exact hne (Option.some.inj he).symm
    · simp only [ne_eq, hc, not_false_eq_true, if_true, true_iff]
      cases hv : s.owner h with
      | none => exact absurd hv ho
      | some c' =>
        refine ⟨c', fun e => hc ?_, rfl⟩
        rw [hv, e]
  · rw [ha]
    simp [ho]

/-- Witness for C2: handle 5 is owned by context 1, so context 2 gets the
conflict and the memory stays as it was. -/
theorem acquire_conflict_iff_witness :
    Reachable (acquire initMemory 1 5).2 ∧
    (acquire (acquire initMemory 1 5).2 2 5).1 = Signal.conflict ∧
    (acquire (acquire initMemory 1 5).2 2 5).2 = (acquire initMemory 1 5).2 :=
  have hr : Reachable (acquire initMemory 1 5).2 :=
    Reachable.acquire _ 1 5 Reachable.init (by decide)
  ⟨hr, by decide, (acquire_conflict_iff _ hr 2 5).2 (by decide)⟩

/-- The effect of `acquire` on an unowned handle of a reachable memory. -/
theorem acquire_free_spec (s : Memory) (hr : Reachable s) (c h : Nat)
    (hu : s.owner h = none) :
    (acquire s c h).1 = Signal.returned ∧
    (acquire s c h).2.owner h = some c ∧
    (∀ l, isList s.handles (s.locks c) l →
      isList (acquire s c h).2.handles ((acquire s c h).2.locks c) (h :: l)) ∧
    (∀ h', h' ≠ h → (acquire s c h).2.handles h' = s.handles h') ∧
    (∀ c', c' ≠ c → (acquire s c h).2.locks c' = s.locks c' ∧
      ∀ l', isList s.handles (s.locks c') l' →
        isList (acquire s c h).2.handles ((acquire s c h).2.locks c') l') := by
  have hi := hr.inv
  have notin : ∀ (c0 : Nat) (l : List Nat), isList s.handles (s.locks c0) l → h ∉ l := by
    intro c0 l hl hh
    obtain ⟨l0, hl0, _, hm⟩ := hi.2.2 c0
    have e := isList_unique _ _ _ _ hl hl0
    subst e
    have := (hm h).1 hh
    rw [show (s.handles h).Owner.value = s.owner h from rfl, hu] at this
    cases this
  have keep : ∀ (l : List Nat) (p : Option Nat), h ∉ l → isList s.handles p l →
      isList (acquired s c h).handles p l := by
    intro l p hn hp
    refine isList_congr _ _ l p ?_ hp
    intro h' hh
    have e : h' ≠ h := fun e => hn (e ▸ hh)
    simp [acquired, Function.update_noteq e]
  rcases acquire_cases s hr c h with ⟨ho, _⟩ | ⟨_, ha⟩
  · exact absurd hu ho
  · rw [ha]
    refine ⟨rfl, by simp [acquired, Memory.owner, PtrLock.getValue], fun l hl => ?_,
      fun h' hne => by simp [acquired, Function.update_noteq hne], fun c' hne => ⟨?_, ?_⟩⟩
    · have e1 : (acquired s c h).locks c = some h := by simp [acquired]
      have e2 : ((acquired s c h).handles h).next = s.locks c := by simp [acquired]
      rw [e1]
      simp only [isList, true_and]
      rw [e2]
      exact keep l _ (notin c l hl) hl
    · simp [acquired, Function.update_noteq hne]
    · intro l' hl'
      have e1 : (acquired s c h).locks c' = s.locks c' := by
        simp [acquired, Function.update_noteq hne]
      rw [e1]
      exact keep l' _ (notin c' l' hl') hl'

/-- C3: in a reachable memory, acquire of an unowned handle h by context c
returns without conflict, makes c the owner of h, puts h in front of the
acquired-list of c (whose earlier handles all stay), and changes neither
another handle nor the acquired-list of another context. -/
theorem acquire_unowned (s : Memory) (hr : Reachable s) (c h : Nat)
    (hu : s.owner h = none) :
    (acquire s c h).1 = Signal.returned ∧
    (acquire s c h).2.owner h = some c ∧
    (∀ l, isList s.handles (s.locks c) l →
      isList (acquire s c h).2.handles ((acquire s c h).2.locks c) (h :: l)) ∧
    (∀ h', h' ≠ h → (acquire s c h).2.handles h' = s.handles h') ∧
    (∀ c', c' ≠ c → (acquire s c h).2.locks c' = s.locks c' ∧
      ∀ l', isList s.handles (s.locks c') l' →
        isList (acquire s c h).2.handles ((acquire s c h).2.locks c') l') := by
  have hi := hr.inv
  have notin : ∀ (c0 : Nat) (l : List Nat), isList s.handles (s.locks c0) l → h ∉ l := by
    intro c0 l hl hh
    obtain ⟨l0, hl0, _, hm⟩ := hi.2.2 c0
    have e := isList_unique _ _ _ _ hl hl0
    subst e
    have := (hm h).1 hh
    rw [show (s.handles h).Owner.value = s.owner h from rfl, hu] at this
    cases this
  have keep : ∀ (l : List Nat) (p : Option Nat), h ∉ l → isList s.handles p l →
      isList (acquired s c h).handles p l := by
    intro l p hn hp
    refine isList_congr _ _ l p ?_ hp
    intro h' hh
    have e : h' ≠ h := fun e => hn (e ▸ hh)
    simp [acquired, Function.update_noteq e]
  rcases acquire_cases s hr c h with ⟨ho, _⟩ | ⟨_, ha⟩
  · exact absurd hu ho
  · rw [ha]
    refine ⟨rfl, by simp [acquired, Memory.owner, PtrLock.getValue], fun l hl => ?_,
      fun h' hne => by simp [acquired, Function.update_noteq hne], fun c' hne => ⟨?_, ?_⟩⟩
    · have e1 : (acquired s c h).locks c = some h := by simp [acquired]
      have e2 : ((acquired s c h).handles h).next = s.locks c := by simp [acquired]
      rw [e1]
      simp only [isList, true_and]
      rw [e2]
      exact keep l _ (notin c l hl) hl
    · simp [acquired, Function.update_noteq hne]
    · intro l' hl'
      have e1 : (acquired s c h).locks c' = s.locks c' := by
        simp [acquired, Function.update_noteq hne]
      rw [e1]
      exact keep l' _ (notin c' l' hl') hl'

/-- Witness for C3: context 2 acquires the unowned handle 7 while context 1
holds handle 5. -/
theorem acquire_unowned_witness :
    Reachable (acquire initMemory 1 5).2 ∧ (acquire initMemory 1 5).2.owner 7 = none ∧
    (acquire (acquire initMemory 1 5).2 2 7).1 = Signal.returned ∧
    (acquire (acquire initMemory 1 5).2 2 7).2.owner 7 = some 2 :=
  have hr : Reachable (acquire initMemory 1 5).2 :=
    Reachable.acquire _ 1 5 Reachable.init (by decide)
  have h := acquire_unowned _ hr 2 7 (by decide)
  ⟨hr, by decide, h.1, h.2.1⟩

/-- In a reachable memory the acquired-list of a context has no duplicates
and holds exactly the handles the context owns. -/
theorem Reachable.list_props {s : Memory} (hr : Reachable s) (c : Nat) (l : List Nat)
    (hl : isList s.handles (s.locks c) l) :
    l.Nodup ∧ ∀ h, h ∈ l ↔ s.owner h = some c := by
  obtain ⟨l0, hl0, hnd, hm⟩ := hr.inv.2.2 c
  have e := isList_unique _ _ _ _ hl hl0
  subst e
  exact ⟨hnd, hm⟩

/-- C4 (idempotent re-acquisition): in a reachable memory, acquire by c of a
handle that c owns returns without conflict and leaves the whole memory
unchanged; hence a second acquire right after a returning acquire changes
nothing, and after acquiring an unowned handle twice commit_iteration
releases and counts it once. -/
theorem acquire_idempotent (s : Memory) (hr : Reachable s) (c h : Nat) :
    (s.owner h = some c → acquire s c h = (Signal.returned, s)) ∧
    ((acquire s c h).1 = Signal.returned →
      acquire (acquire s c h).2 c h = (Signal.returned, (acquire s c h).2)) ∧
    (∀ l fuel, s.owner h = none → isList s.handles (s.locks c) l → l.length + 1 < fuel →
      ∃ s', commit_iteration fuel (acquire (acquire s c h).2 c h).2 c =
        some (s', (l.length + 1) % 4294967296, h :: l)) := by
  have own : ∀ s0 : Memory, Reachable s0 → s0.owner h = some c →
      acquire s0 c h = (Signal.returned, s0) := by
    intro s0 hr0 ho
    rcases acquire_cases s0 hr0 c h with ⟨_, ha⟩ | ⟨hn, _⟩
    · rw [ha]; simp [ho]
    · rw [ho] at hn; cases hn
  have twice : (acquire s c h).1 = Signal.returned →
      acquire (acquire s c h).2 c h = (Signal.returned, (acquire s c h).2) := by
    intro hret
    have hr1 : Reachable (acquire s c h).2 :=
      Reachable.acquire s c h hr (by rw [hret]; decide)
    refine own _ hr1 ?_
    rcases acquire_cases s hr c h with ⟨_, ha⟩ | ⟨_, ha⟩
    · rw [ha] at hret ⊢
      by_cases hc : s.owner h = some c
      · exact hc
      · simp [hc] at hret
    · rw [ha]
      simp [acquired, Memory.owner, PtrLock.getValue]
  refine ⟨own s hr, twice, fun l fuel hu hl hf => ?_⟩
  have h3 := acquire_free_spec s hr c h hu
  have hr1 : Reachable (acquire s c h).2 :=
    Reachable.acquire s c h hr (by rw [h3.1]; decide)
  rw [twice h3.1]
  have hl1 := h3.2.2.1 l hl
  have hnd := (hr1.list_props c _ hl1).1
  exact ⟨_, commit_iteration_spec _ c fuel (h :: l) hl1 hnd (by simpa using hf)⟩

/-- Witness for C4: context 1 acquires handle 5 again. -/
theorem acquire_idempotent_witness :
    Reachable (acquire initMemory 1 5).2 ∧ (acquire initMemory 1 5).2.owner 5 = some 1 ∧
    acquire (acquire initMemory 1 5).2 1 5 = (Signal.returned, (acquire initMemory 1 5).2) :=
  have hr : Reachable (acquire initMemory 1 5).2 :=
    Reachable.acquire _ 1 5 Reachable.init (by decide)
  ⟨hr, by decide, (acquire_idempotent _ hr 1 5).1 (by decide)⟩

theorem acquireAll_spec (c : Nat) :
    ∀ (hs : List Nat) (s : Memory) (l : List Nat), Reachable s →
      isList s.handles (s.locks c) l → hs.Nodup → (∀ h ∈ hs, s.owner h = none) →
      (acquireAll s c hs).1 = Signal.returned ∧ Reachable (acquireAll s c hs).2 ∧
      isList (acquireAll s c hs).2.handles ((acquireAll s c hs).2.locks c) (hs.reverse ++ l) := by
  intro hs
  induction hs with
  | nil => intro s l hr hl _ _; exact ⟨rfl, hr, by simpa [acquireAll] using hl⟩
  | cons x t ih =>
    intro s l hr hl hnd hu
    have h3 := acquire_free_spec s hr c x (hu x (by simp))
    have hr1 : Reachable (acquire s c x).2 :=
      Reachable.acquire s c x hr (by rw [h3.1]; decide)
    have hx : x ∉ t := (List.nodup_cons.1 hnd).1
    have hu1 : ∀ h ∈ t, (acquire s c x).2.owner h = none := by
      intro h hh
      have e : h ≠ x := fun e => hx (e ▸ hh)
      have := h3.2.2.2.1 h e
      simp only [Memory.owner, this]
      exact hu h (by simp [hh])
    have e : acquireAll s c (x :: t) = acquireAll (acquire s c x).2 c t := by
      have e1 : acquire s c x = (Signal.returned, (acquire s c x).2) := Prod.ext h3.1 rfl
      conv_lhs => rw [acquireAll, e1]
    rw [e]
    have := ih (acquire s c x).2 (x :: l) hr1 (h3.2.2.1 l hl) (List.nodup_cons.1 hnd).2 hu1
    simpa using this

/-- C5 (as the code has it): a context with an empty acquired-list that
acquires distinct unowned handles h1..hn in this order gets all of them, and
commit_iteration then clears their ownership in the reverse order, hn first
and h1 last (the list is a stack: acquire links the new handle in front and
commit_iteration walks from the front). -/
theorem release_order_reverse (s : Memory) (hr : Reachable s) (c : Nat) (hs : List Nat)
    (he : s.locks c = none) (hnd : hs.Nodup) (hu : ∀ h ∈ hs, s.owner h = none)
    (fuel : Nat) (hf : hs.length < fuel) :
    (acquireAll s c hs).1 = Signal.returned ∧
    ∃ s' n, commit_iteration fuel (acquireAll s c hs).2 c = some (s', n, hs.reverse) := by
  have h0 : isList s.handles (s.locks c) [] := by rw [he]; simp [isList]
  obtain ⟨h1, h2, h3⟩ := acquireAll_spec c hs s [] hr h0 hnd hu
  simp only [List.append_nil] at h3
  exact ⟨h1, _, _, commit_iteration_spec _ c fuel hs.reverse h3 (h2.list_props c _ h3).1
    (by simpa using hf)⟩

/-- Witness for C5 as amended: context 0 acquires handles 1, 2, 3. -/
theorem release_order_reverse_witness :
    (acquireAll initMemory 0 [1, 2, 3]).1 = Signal.returned ∧
    ∃ s' n, commit_iteration 4 (acquireAll initMemory 0 [1, 2, 3]).2 0 = some (s', n, [3, 2, 1]) :=
  release_order_reverse initMemory Reachable.init 0 [1, 2, 3] rfl (by decide) (by decide) 4
    (by decide)

/-- Counterexample to C5 as stated: context 0 acquires handle 1 and then
handle 2; commit_iteration clears handle 2 first, so the first handle cleared
is not the first handle acquired. -/
theorem release_order_counterexample :
    (acquireAll initMemory 0 [1, 2]).1 = Signal.returned ∧
    (commit_iteration 3 (acquireAll initMemory 0 [1, 2]).2 0).map (fun r => r.2.2) = some [2, 1] ∧
    (commit_iteration 3 (acquireAll initMemory 0 [1, 2]).2 0).map (fun r => r.2.2) ≠ some [1, 2] := by
  refine ⟨by decide, by decide, by decide⟩

/-- C6: in a reachable memory where context c holds the n handles of its
acquired-list (n below 2^32, the range of the unsigned result),
commit_iteration with fuel for more than n loop iterations returns n, leaves
the list of c empty and each of the n handles unlocked, unowned and unlinked,
and changes neither a handle outside the list (in particular none owned by
another context) nor the list of another context; cancel_iteration gives the
same result. -/
theorem commit_iteration_releases (s : Memory) (hr : Reachable s) (c : Nat) (l : List Nat)
    (hl : isList s.handles (s.locks c) l) (hn : l.length < 4294967296)
    (fuel : Nat) (hf : l.length < fuel) :
    ∃ s', commit_iteration fuel s c = some (s', l.length, l) ∧
      s'.locks c = none ∧
      (∀ h ∈ l, s'.handles h = { Owner := { locked := false, value := none }, next := none }) ∧
      (∀ h, h ∉ l → s'.handles h = s.handles h) ∧
      (∀ h c', c' ≠ c → s.owner h = some c' → s'.handles h = s.handles h) ∧
      (∀ c', c' ≠ c → s'.locks c' = s.locks c') ∧
      cancel_iteration fuel s c = commit_iteration fuel s c := by
  obtain ⟨hnd, hm⟩ := hr.list_props c l hl
  refine ⟨released s c l, ?_, by simp [released], fun h hh => by simp [released, hh],
    fun h hh => by simp [released, hh], fun h c' hne ho => ?_,
    fun c' hne => by simp [released, Function.update_noteq hne], rfl⟩
  · rw [commit_iteration_spec s c fuel l hl hnd hf, Nat.mod_eq_of_lt hn]
  · have : h ∉ l := by
      intro hh
      have := (hm h).1 hh
      rw [ho] at this
      exact hne (Option.some.inj this)
    simp [released, this]

/-- Witness for C6: context 1 holds handles 5 and 6 and commits. -/
theorem commit_iteration_releases_witness :
    Reachable (acquireAll initMemory 1 [5, 6]).2 ∧
    ∃ s', commit_iteration 3 (acquireAll initMemory 1 [5, 6]).2 1 = some (s', 2, [6, 5]) ∧
      s'.locks 1 = none :=
  have hr : Reachable (acquireAll initMemory 1 [5, 6]).2 :=
    (acquireAll_spec 1 [5, 6] initMemory [] Reachable.init (by decide) (by decide)
      (by decide)).2.1
  have h := commit_iteration_releases _ hr 1 [6, 5] (by decide) (by decide) 3 (by decide)
  ⟨hr, h.choose, h.choose_spec.1, h.choose_spec.2.1⟩

end GaloisRuntime

namespace galois.runtime

open GaloisRuntime

variable {V A : Type}

/-! ## Lemmas on the executor -/

theorem userFrame_refl (st : ExecState V A) : UserFrame st st :=
  ⟨rfl, rfl, rfl, rfl, rfl, rfl, rfl, ⟨[], by simp⟩, fun _ => ⟨rfl, [], by simp⟩⟩

theorem userFrame_trans {a b c : ExecState V A} (h1 : UserFrame a b) (h2 : UserFrame b c) :
    UserFrame a c := by
  obtain ⟨a1, a2, a3, a4, a5, a6, a7, ⟨x, a8⟩, a9⟩ := h1
  obtain ⟨b1, b2, b3, b4, b5, b6, b7, ⟨y, b8⟩, b9⟩ := h2
  refine ⟨b1.trans a1, b2.trans a2, b3.trans a3, b4.trans a4, b5.trans a5, b6.trans a6,
    b7.trans a7, ⟨x ++ y, by rw [b8, a8, List.append_assoc]⟩, fun hf => ?_⟩
  obtain ⟨w1, p, hp⟩ := a9 hf
  obtain ⟨w2, q, hq⟩ := b9 (a7.trans hf)
  exact ⟨w2.trans w1, p ++ q, by rw [hq, hp, List.append_assoc]⟩

theorem userStep_frame (st : ExecState V A) (a : UserAction V A) :
    UserFrame st (userStep st a).2 := by
  cases a with
  | acquire L => exact ⟨rfl, rfl, rfl, rfl, rfl, rfl, rfl, ⟨[], by simp [userStep]⟩,
      fun _ => ⟨rfl, [], by simp [userStep]⟩⟩
  | push v =>
    unfold UserFrame
    simp only [userStep]
    split
    · rename_i hf
      simp [fastPushBack, hf]
    · simp
  | breakLoop => exact ⟨rfl, rfl, rfl, rfl, rfl, rfl, rfl, ⟨[], by simp [userStep]⟩,
      fun _ => ⟨rfl, [], by simp [userStep]⟩⟩
  | update f => exact ⟨rfl, rfl, rfl, rfl, rfl, rfl, rfl, ⟨[], by simp [userStep]⟩,
      fun _ => ⟨rfl, [], by simp [userStep]⟩⟩

/-- Unfolding of `runActions` on a non-empty list. -/
theorem runActions_cons (st : ExecState V A) (a : UserAction V A)
    (rest : List (UserAction V A)) :
    runActions st (a :: rest) =
      if (userStep st a).1 = Signal.returned then runActions (userStep st a).2 rest
      else userStep st a := by
  rw [runActions]
  rcases h : userStep st a with ⟨sig, st1⟩
  cases sig <;> simp

theorem runActions_frame (script : List (UserAction V A)) :
    ∀ st : ExecState V A, UserFrame st (runActions st script).2 := by
  induction script with
  | nil => intro st; exact userFrame_refl st
  | cons a rest ih =>
    intro st
    rw [runActions_cons]
    split
    · exact userFrame_trans (userStep_frame st a) (ih _)
    · exact userStep_frame st a

theorem runActions_pushBuffer (script : List (UserAction V A)) :
    ∀ st : ExecState V A, st.tld.facing.fastPushBack = false →
      (runActions st script).1 = Signal.returned →
      (runActions st script).2.tld.facing.pushBuffer =
        st.tld.facing.pushBuffer ++ pushesOf script := by
  induction script with
  | nil => intro st _ _; simp [runActions, pushesOf]
  | cons a rest ih =>
    intro st hf hret
    rw [runActions_cons] at hret ⊢
    have hfr := userStep_frame st a
    by_cases h1 : (userStep st a).1 = Signal.returned
    · rw [if_pos h1] at hret ⊢
      rw [ih _ (hfr.2.2.2.2.2.2.1.trans hf) hret]
      cases a with
      | acquire L => simp [userStep, pushesOf]
      | push v => simp [userStep, pushesOf, hf]
      | breakLoop => simp [userStep, pushesOf]
      | update f => simp [userStep, pushesOf]
    · rw [if_neg h1] at hret
      exact absurd hret h1

/-- One `acquire` in a reachable memory never fails an assertion, keeps the
memory reachable and lengthens no acquired-list by more than one handle. -/
theorem acquire_heap (s : Memory) (hr : Reachable s) (cnx L c : Nat) (l : List Nat)
    (hl : isList s.handles (s.locks c) l) :
    (acquire s cnx L).1 ≠ Signal.assertFailed ∧ Reachable (acquire s cnx L).2 ∧
    ∃ l', isList (acquire s cnx L).2.handles ((acquire s cnx L).2.locks c) l' ∧
      l'.length ≤ l.length + 1 := by
  have hna : (acquire s cnx L).1 ≠ Signal.assertFailed := by
    rcases acquire_cases s hr cnx L with ⟨_, ha⟩ | ⟨_, ha⟩
    · rw [ha]; split <;> simp
    · rw [ha]; simp
  refine ⟨hna, Reachable.acquire s cnx L hr hna, ?_⟩
  rcases acquire_cases s hr cnx L with ⟨_, ha⟩ | ⟨hu, _⟩
  · rw [ha]
    exact ⟨l, hl, by omega⟩
  · have h3 := acquire_free_spec s hr cnx L hu
    by_cases ec : c = cnx
    · subst ec
      exact ⟨L :: l, h3.2.2.1 l hl, by simp⟩
    · refine ⟨l, ?_, by omega⟩
      exact (h3.2.2.2.2 c ec).2 l hl

theorem userStep_heap (st : ExecState V A) (a : UserAction V A) (hr : Reachable st.heap)
    (c : Nat) (l : List Nat) (hl : isList st.heap.handles (st.heap.locks c) l) :
    (userStep st a).1 ≠ Signal.assertFailed ∧ Reachable (userStep st a).2.heap ∧
    ∃ l', isList (userStep st a).2.heap.handles ((userStep st a).2.heap.locks c) l' ∧
      l'.length ≤ l.length + 1 := by
  cases a with
  | acquire L =>
    cases hc : st.thread_cnx with
    | none =>
      simp only [userStep, hc, doAcquire]
      exact ⟨by simp, hr, l, hl, by omega⟩
    | some cnx =>
      simp only [userStep, hc, doAcquire]
      exact acquire_heap st.heap hr cnx L c l hl
  | push v =>
    simp only [userStep]
    split
    · exact ⟨by simp, hr, l, hl, by omega⟩
    · exact ⟨by simp, hr, l, hl, by omega⟩
  | breakLoop => exact ⟨by simp [userStep], hr, l, hl, by omega⟩
  | update f => exact ⟨by simp [userStep], hr, l, hl, by omega⟩

theorem runActions_heap (script : List (UserAction V A)) :
    ∀ (st : ExecState V A) (c : Nat) (l : List Nat), Reachable st.heap →
      isList st.heap.handles (st.heap.locks c) l →
      (runActions st script).1 ≠ Signal.assertFailed ∧
      Reachable (runActions st script).2.heap ∧
      ∃ l', isList (runActions st script).2.heap.handles
          ((runActions st script).2.heap.locks c) l' ∧
        l'.length ≤ l.length + script.length := by
  induction script with
  | nil => intro st c l hr hl; exact ⟨by simp [runActions], hr, l, hl, by simp⟩
  | cons a rest ih =>
    intro st c l hr hl
    obtain ⟨h1, h2, l1, hl1, hlen1⟩ := userStep_heap st a hr c l hl
    rw [runActions_cons]
    split
    · obtain ⟨g1, g2, l2, hl2, hlen2⟩ := ih (userStep st a).2 c l1 h2 hl1
      exact ⟨g1, g2, l2, hl2, by simp only [List.length_cons]; omega⟩
    · exact ⟨h1, h2, l1, hl1, by simp only [List.length_cons]; omega⟩

theorem released_nil (s : Memory) (c : Nat) (h : s.locks c = none) : released s c [] = s := by
  cases s with
  | mk hh ll =>
    simp only [released, Memory.mk.injEq]
    refine ⟨by funext x; simp, ?_⟩
    simp only at h
    rw [← h]
    simp

theorem commitIteration_eq (cfg : Traits) (cfuel : Nat) (st : ExecState V A) :
    commitIteration cfg cfuel st =
      if cfg.needsAborts then
        match commit_iteration cfuel (flushPushes cfg st).heap (flushPushes cfg st).tld.ctx with
        | none => none
        | some r => some { flushPushes cfg st with heap := r.1 }
      else some (flushPushes cfg st) := rfl

theorem flushPushes_heap (cfg : Traits) (st : ExecState V A) :
    (flushPushes cfg st).heap = st.heap ∧ (flushPushes cfg st).tld.ctx = st.tld.ctx := by
  unfold flushPushes
  split
  · split <;> exact ⟨rfl, rfl⟩
  · exact ⟨rfl, rfl⟩

/-- With the acquired-list of the thread's context known, `commitIteration`
flushes the pushes and releases the list. -/
theorem commitIteration_spec (cfg : Traits) (cfuel : Nat) (st : ExecState V A) (l : List Nat)
    (hl : isList st.heap.handles (st.heap.locks st.tld.ctx) l) (hnd : l.Nodup)
    (hf : l.length < cfuel) (ha : cfg.needsAborts = false → l = []) :
    commitIteration cfg cfuel st =
      some { flushPushes cfg st with heap := released st.heap st.tld.ctx l } := by
  rw [commitIteration_eq]
  obtain ⟨e1, e2⟩ := flushPushes_heap cfg st
  by_cases hna : cfg.needsAborts = true
  · rw [if_pos hna, e1, e2, commit_iteration_spec st.heap st.tld.ctx cfuel l hl hnd hf]
  · have hna2 : cfg.needsAborts = false := by simpa using hna
    have hl0 := ha hna2
    subst hl0
    have h0 : st.heap.locks st.tld.ctx = none := (isList_nil_iff _ _).1 hl
    rw [if_neg hna, released_nil _ _ h0, ← e1]

theorem attemptFrame_refl (st : ExecState V A) : AttemptFrame st st :=
  ⟨rfl, rfl, rfl, rfl, rfl, ⟨[], by simp⟩⟩

theorem attemptFrame_trans {a b c : ExecState V A} (h1 : AttemptFrame a b)
    (h2 : AttemptFrame b c) : AttemptFrame a c := by
  obtain ⟨a1, a2, a3, a4, a5, ⟨x, a6⟩⟩ := h1
  obtain ⟨b1, b2, b3, b4, b5, ⟨y, b6⟩⟩ := h2
  exact ⟨b1.trans a1, b2.trans a2, b3.trans a3, b4.trans a4, b5.trans a5,
    ⟨x ++ y, by rw [b6, a6, List.append_assoc]⟩⟩

theorem userFrame_toAttempt {a b : ExecState V A} (h : UserFrame a b) : AttemptFrame a b :=
  ⟨h.1, h.2.1, h.2.2.2.2.1, h.2.2.2.2.2.1, h.2.2.2.2.2.2.1, h.2.2.2.2.2.2.2.1⟩

theorem flushPushes_frame (cfg : Traits) (st : ExecState V A) :
    AttemptFrame st (flushPushes cfg st) ∧
    (flushPushes cfg st).tld.stat_iterations = st.tld.stat_iterations := by
  unfold flushPushes
  split
  · split
    · exact ⟨⟨rfl, rfl, rfl, rfl, rfl, ⟨_, rfl⟩⟩, rfl⟩
    · exact ⟨attemptFrame_refl st, rfl⟩
  · exact ⟨attemptFrame_refl st, rfl⟩

theorem commitIteration_frame (cfg : Traits) (cfuel : Nat) (st st' : ExecState V A)
    (h : commitIteration cfg cfuel st = some st') :
    AttemptFrame st st' ∧ st'.tld.stat_iterations = st.tld.stat_iterations := by
  rw [commitIteration_eq] at h
  have hfl := flushPushes_frame cfg st
  split at h
  · split at h
    · cases h
    · cases h
      exact hfl
  · cases h
    exact hfl

theorem beginAttempt_frame (cfg : Traits) (st : ExecState V A) :
    AttemptFrame st (beginAttempt cfg st) ∧
    (beginAttempt cfg st).tld.stat_iterations =
      (st.tld.stat_iterations + 1) % 18446744073709551616 ∧
    (beginAttempt cfg st).tld.stat_pushes = st.tld.stat_pushes ∧
    (beginAttempt cfg st).wl = st.wl ∧
    (beginAttempt cfg st).tld.facing = st.tld.facing ∧
    (beginAttempt cfg st).app = st.app := by
  unfold beginAttempt
  split
  · exact ⟨⟨rfl, rfl, rfl, rfl, rfl, ⟨[], by simp [startIteration]⟩⟩, rfl, rfl, rfl, rfl, rfl⟩
  · exact ⟨⟨rfl, rfl, rfl, rfl, rfl, ⟨[], by simp⟩⟩, rfl, rfl, rfl, rfl, rfl⟩

/-- Unfolding of `doProcess` along the result of the user operation. -/
theorem doProcess_eq (cfg : Traits) (function : FunctionTy V A) (cfuel : Nat) (val : V)
    (st : ExecState V A) :
    doProcess cfg function cfuel val st =
      if (runActions (beginAttempt cfg st) (function val st.app)).1 = Signal.returned then
        (commitIteration cfg cfuel
          (runActions (beginAttempt cfg st) (function val st.app)).2).map
          (fun s => (Signal.returned, s))
      else some (runActions (beginAttempt cfg st) (function val st.app)) := by
  have happ : (beginAttempt cfg st).app = st.app := (beginAttempt_frame cfg st).2.2.2.2.2
  have e : doProcess cfg function cfuel val st =
      match runActions (beginAttempt cfg st) (function val (beginAttempt cfg st).app) with
      | (Signal.returned, st3) =>
        match commitIteration cfg cfuel st3 with
        | none => none
        | some st4 => some (Signal.returned, st4)
      | r => some r := rfl
  rw [e, happ]
  rcases h : runActions (beginAttempt cfg st) (function val st.app) with ⟨sig, st3⟩
  cases sig
  · simp only [if_true]
    cases commitIteration cfg cfuel st3 <;> rfl
  · simp
  · simp

/-- What one `doProcess` leaves alone, whatever its outcome. -/
theorem doProcess_frame (cfg : Traits) (function : FunctionTy V A) (cfuel : Nat) (val : V)
    (st : ExecState V A) (sig : Signal) (st' : ExecState V A)
    (h : doProcess cfg function cfuel val st = some (sig, st')) :
    AttemptFrame st st' ∧
    st'.tld.stat_iterations = (st.tld.stat_iterations + 1) % 18446744073709551616 ∧
    (sig ≠ Signal.returned → st'.tld.stat_pushes = st.tld.stat_pushes ∧
      (st.tld.facing.fastPushBack = false → st'.wl = st.wl)) := by
  rw [doProcess_eq] at h
  obtain ⟨b1, b2, b3, b4, b5, _⟩ := beginAttempt_frame cfg st
  have hu := runActions_frame (function val st.app) (beginAttempt cfg st)
  split at h
  · rename_i hret
    cases hc : commitIteration cfg cfuel
        (runActions (beginAttempt cfg st) (function val st.app)).2 with
    | none => rw [hc] at h; cases h
    | some st4 =>
      rw [hc] at h
      simp only [Option.map_some', Option.some.injEq, Prod.mk.injEq] at h
      obtain ⟨rfl, rfl⟩ := h
      obtain ⟨c1, c2⟩ := commitIteration_frame cfg cfuel _ _ hc
      exact ⟨attemptFrame_trans (attemptFrame_trans b1 (userFrame_toAttempt hu)) c1, by rw [c2, hu.2.2.1, b2], fun hne => absurd rfl hne⟩
  · simp only [Option.some.injEq] at h
    rw [h] at hu
    refine ⟨attemptFrame_trans b1 (userFrame_toAttempt hu), by rw [hu.2.2.1, b2], fun _ => ⟨by rw [hu.2.2.2.1, b3], ?_⟩⟩
    intro hf
    have hf2 : (beginAttempt cfg st).tld.facing.fastPushBack = false := by rw [b5]; exact hf
    rw [(hu.2.2.2.2.2.2.2.2 hf2).1, b4]

/-- Every overload and policy of the abort handler appends one item, carrying
the value of what was popped, to the queue of one thread. -/
theorem pushPopped_dest (tp : ThreadPool) (tid : Nat) (h : AbortHandler V) (p : Popped V) :
    ∃ d it, it.val = AbortHandler.value p ∧ h.pushPopped tp tid p = h.pushRemote d it := by
  cases p with
  | inl val => exact ⟨tid, { val := val, retries := 1 }, rfl, rfl⟩
  | inr item =>
    simp only [AbortHandler.pushPopped, AbortHandler.push, AbortHandler.basicPolicy,
      AbortHandler.doublePolicy, AbortHandler.value]
    split
    · exact ⟨_, { val := item.val, retries := item.retries + 1 }, rfl, rfl⟩
    · split
      · exact ⟨_, { val := item.val, retries := item.retries + 1 }, rfl, rfl⟩
      · split
        · exact ⟨_, { val := item.val, retries := item.retries + 1 }, rfl, rfl⟩
        · exact ⟨_, { val := item.val, retries := item.retries + 1 }, rfl, rfl⟩

/-- What `abortIteration` does when it returns. -/
theorem abortIteration_frame (cfg : Traits) (tp : ThreadPool) (tid cfuel : Nat)
    (p : Popped V) (st st' : ExecState V A) (sig : Signal)
    (h : abortIteration cfg tp tid cfuel p st = some (sig, st')) (hs : sig ≠ Signal.assertFailed) :
    sig = Signal.returned ∧ st'.wl = st.wl ∧ st'.tld.stat_pushes = st.tld.stat_pushes ∧
    st'.tld.stat_iterations = st.tld.stat_iterations ∧
    st'.tld.stat_conflicts = (st.tld.stat_conflicts + 1) % 18446744073709551616 ∧
    st'.aborted = st.aborted.pushPopped tp tid p ∧ st'.tld.ctx = st.tld.ctx ∧
    st'.thread_cnx = st.thread_cnx ∧
    st'.tld.facing.fastPushBack = st.tld.facing.fastPushBack ∧
    (cfg.needsPush = true → st'.tld.facing.pushBuffer = []) := by
  unfold abortIteration at h
  split at h
  · simp only [Option.some.injEq, Prod.mk.injEq] at h
    exact absurd h.1.symm hs
  · split at h
    · cases h
    · simp only [Option.some.injEq, Prod.mk.injEq] at h
      obtain ⟨rfl, rfl⟩ := h
      by_cases hp : cfg.needsPush = true
      · simp [hp]
      · simp [hp]

/-- With the acquired-list of the thread's context known, `abortIteration`
returns and releases the list. -/
theorem abortIteration_spec (cfg : Traits) (tp : ThreadPool) (tid cfuel : Nat)
    (p : Popped V) (st : ExecState V A) (l : List Nat) (ha : cfg.needsAborts = true)
    (hl : isList st.heap.handles (st.heap.locks st.tld.ctx) l) (hnd : l.Nodup)
    (hf : l.length < cfuel) :
    ∃ st', abortIteration cfg tp tid cfuel p st = some (Signal.returned, st') ∧
      st'.heap = released st.heap st.tld.ctx l := by
  unfold abortIteration
  simp only [ha, Bool.true_eq_false, if_false, cancel_iteration,
    commit_iteration_spec st.heap st.tld.ctx cfuel l hl hnd hf]
  exact ⟨_, rfl, by split <;> rfl⟩

/-- When the first item popped conflicts, `runQueue` is the abort of that
item. -/
theorem runQueue_first_conflict (cfg : Traits) (tp : ThreadPool) (function : FunctionTy V A)
    (tid limit : Nat) (lwl : WL) (cfuel fuel : Nat) (st st1 stc : ExecState V A)
    (p : Popped V) (hpop : pop tid st lwl = some (p, st1))
    (hdo : doProcess cfg function cfuel (AbortHandler.value p) st1 = some (Signal.conflict, stc))
    (hfuel : 0 < fuel) :
    runQueue cfg tp function tid limit lwl cfuel fuel st =
      abortIteration cfg tp tid cfuel p stc := by
  obtain ⟨f, rfl⟩ : ∃ f, fuel = f + 1 := ⟨fuel - 1, by omega⟩
  have hc : limit = 0 ∨ 0 < limit := by omega
  simp [runQueue, runQueueLoop, hc, hpop, hdo]

theorem Memory.setLocks_self (s : Memory) (c : Nat) (h : s.locks c = none) :
    s.setLocks c none = s := by
  cases s with
  | mk hh ll =>
    simp only [Memory.setLocks, Memory.mk.injEq, true_and]
    simp only at h
    rw [← h]
    simp

theorem beginAttempt_heap (cfg : Traits) (st : ExecState V A)
    (he : st.heap.locks st.tld.ctx = none) : (beginAttempt cfg st).heap = st.heap := by
  unfold beginAttempt
  split
  · simp [startIteration, Memory.setLocks_self _ _ he]
  · rfl

theorem pop_frame (tid : Nat) (st st1 : ExecState V A) (lwl : WL) (p : Popped V)
    (h : pop tid st lwl = some (p, st1)) :
    st1 = dropQueue tid 1 st lwl ∧ queueOf tid st lwl = p :: queueOf tid st1 lwl ∧
    st1.heap = st.heap ∧ st1.tld = st.tld ∧ st1.app = st.app ∧
    st1.thread_cnx = st.thread_cnx := by
  unfold pop at h
  split at h
  · cases h
  · rename_i q rest hq
    simp only [Option.some.injEq, Prod.mk.injEq] at h
    obtain ⟨rfl, rfl⟩ := h
    refine ⟨rfl, ?_, ?_⟩
    · rw [hq]
      cases lwl with
      | work =>
        simp only [queueOf, dropQueue] at hq ⊢
        cases hw : st.wl with
        | nil => rw [hw] at hq; cases hq
        | cons a b => rw [hw] at hq; simp at hq; simp [hq.2]
      | aborts =>
        simp only [queueOf, dropQueue] at hq ⊢
        cases hw : st.aborted.queues tid with
        | nil => rw [hw] at hq; cases hq
        | cons a b => rw [hw] at hq; simp at hq; simp [hq.2]
    · cases lwl <;> exact ⟨rfl, rfl, rfl, rfl⟩

/-! ## Claims on commit and abort -/

/-- C7: let thread tid pop an item p whose attempt ends in a conflict with
the items `buffered` in the push buffer (pushes and aborts enabled, no fast
push, memory reachable, context list empty before the attempt).  Then
runQueue returns through abortIteration, which leaves the work list as it was
after the pop (no buffered item becomes visible), empties the push buffer,
keeps the pushes counter, adds 1 to the conflict counter, releases the
context and appends one item with the value of p to exactly one abort queue.
And a later attempt that returns flushes exactly the items it buffered (three
when it pushes three) to the tail of the work list. -/
theorem abortIteration_rolls_back (cfg : Traits) (tp : ThreadPool)
    (function : FunctionTy V A) (tid limit : Nat) (lwl : WL) (cfuel fuel : Nat)
    (st st1 : ExecState V A) (p : Popped V) (buffered : List V)
    (ha : cfg.needsAborts = true) (hp : cfg.needsPush = true)
    (hr : Reachable st.heap) (he : st.heap.locks st.tld.ctx = none)
    (hfast : st.tld.facing.fastPushBack = false)
    (hpop : pop tid st lwl = some (p, st1))
    (hconf : (doProcess cfg function cfuel (AbortHandler.value p) st1).map
      (fun r => (r.1, r.2.tld.facing.pushBuffer)) = some (Signal.conflict, buffered))
    (hcf : (function (AbortHandler.value p) st.app).length < cfuel) (hfuel : 0 < fuel) :
    (∃ st', runQueue cfg tp function tid limit lwl cfuel fuel st = some (Signal.returned, st') ∧
      st'.wl = st1.wl ∧ st'.tld.facing.pushBuffer = [] ∧
      st'.tld.stat_pushes = st.tld.stat_pushes ∧
      st'.tld.stat_conflicts = (st.tld.stat_conflicts + 1) % 18446744073709551616 ∧
      st'.heap.locks st.tld.ctx = none ∧
      st'.aborted = st1.aborted.pushPopped tp tid p ∧
      ∃ d it, it.val = AbortHandler.value p ∧
        st'.aborted.queues d = st1.aborted.queues d ++ [it] ∧
        ∀ t, t ≠ d → st'.aborted.queues t = st1.aborted.queues t) ∧
    (∀ (st2 st4 : ExecState V A) (v : V), st2.tld.facing.pushBuffer = [] →
      st2.tld.facing.fastPushBack = false →
      doProcess cfg function cfuel v st2 = some (Signal.returned, st4) →
      st4.wl = st2.wl ++ pushesOf (function v st2.app) ∧ st4.tld.facing.pushBuffer = [] ∧
      (pushesOf (function v st2.app) ≠ [] → st4.tld.stat_pushes =
        (st2.tld.stat_pushes + (pushesOf (function v st2.app)).length) %
          18446744073709551616)) := by
  constructor
  · obtain ⟨e1, _, e3, e4, e5, _⟩ := pop_frame tid st st1 lwl p hpop
    cases hd : doProcess cfg function cfuel (AbortHandler.value p) st1 with
    | none => rw [hd] at hconf; cases hconf
    | some r =>
      obtain ⟨sig, stc⟩ := r
      rw [hd] at hconf
      simp only [Option.map_some', Option.some.injEq, Prod.mk.injEq] at hconf
      obtain ⟨rfl, _⟩ := hconf
      have hfr := doProcess_frame cfg function cfuel _ st1 _ stc hd
      have hd2 := hd
      rw [doProcess_eq] at hd2
      have he1 : st1.heap.locks st1.tld.ctx = none := by rw [e3, e4]; exact he
      have hb := beginAttempt_heap cfg st1 he1
      have hctx : (beginAttempt cfg st1).tld.ctx = st1.tld.ctx := (beginAttempt_frame cfg st1).1.1
      have hr0 : Reachable (beginAttempt cfg st1).heap := by rw [hb, e3]; exact hr
      have hl0 : isList (beginAttempt cfg st1).heap.handles
          ((beginAttempt cfg st1).heap.locks st1.tld.ctx) [] := by
        rw [hb, he1]; simp [isList]
      obtain ⟨_, hr2, l, hl, hlen⟩ :=
        runActions_heap (function (AbortHandler.value p) st1.app) _ st1.tld.ctx [] hr0 hl0
      have hstc : runActions (beginAttempt cfg st1) (function (AbortHandler.value p) st1.app)
          = (Signal.conflict, stc) := by
        split at hd2
        · cases hc : commitIteration cfg cfuel (runActions (beginAttempt cfg st1)
              (function (AbortHandler.value p) st1.app)).2 with
          | none => rw [hc] at hd2; cases hd2
          | some x => rw [hc] at hd2; simp at hd2
        · exact Option.some.inj hd2
      rw [hstc] at hr2 hl
      simp only at hr2 hl
      have hcx : stc.tld.ctx = st1.tld.ctx := hfr.1.1
      rw [← hcx] at hl
      have hnd := (hr2.list_props _ l hl).1
      have hlen2 : l.length < cfuel := by
        rw [e5] at hlen
        simp only [List.length_nil] at hlen
        omega
      obtain ⟨st', hab, hheap⟩ := abortIteration_spec cfg tp tid cfuel p stc l ha hl hnd hlen2
      have haf := abortIteration_frame cfg tp tid cfuel p stc st' _ hab (by simp)
      obtain ⟨d, it, hv, hpush⟩ := pushPopped_dest tp tid st1.aborted p
      have hfast1 : st1.tld.facing.fastPushBack = false := by rw [e4]; exact hfast
      refine ⟨st', ?_, ?_, haf.2.2.2.2.2.2.2.2.2 hp, ?_, ?_, ?_, ?_, d, it, hv, ?_, ?_⟩
      · rw [runQueue_first_conflict cfg tp function tid limit lwl cfuel fuel st st1 stc p hpop hd
          hfuel]
        exact hab
      · rw [haf.2.1]
        exact (hfr.2.2 (by simp)).2 hfast1
      · rw [haf.2.2.1, (hfr.2.2 (by simp)).1, e4]
      · rw [haf.2.2.2.2.1, hfr.1.2.1, e4]
      · rw [hheap, hcx, e4]
        simp [released]
      · rw [haf.2.2.2.2.2.1, hfr.1.2.2.1]
      · rw [haf.2.2.2.2.2.1, hfr.1.2.2.1, hpush]
        simp [AbortHandler.pushRemote]
      · intro t ht
        rw [haf.2.2.2.2.2.1, hfr.1.2.2.1, hpush]
        simp [AbortHandler.pushRemote, Function.update_noteq ht]
  · intro st2 st4 v hb hf hd
    rw [doProcess_eq] at hd
    obtain ⟨_, _, b3, b4, b5, _⟩ := beginAttempt_frame cfg st2
    have hf0 : (beginAttempt cfg st2).tld.facing.fastPushBack = false := by rw [b5]; exact hf
    split at hd
    · rename_i hret
      have hpb := runActions_pushBuffer (function v st2.app) _ hf0 hret
      have hwl := ((runActions_frame (function v st2.app) (beginAttempt cfg st2)).2.2.2.2.2.2.2.2
        hf0).1
      have hsp := (runActions_frame (function v st2.app) (beginAttempt cfg st2)).2.2.2.1
      rw [b5, hb, List.nil_append] at hpb
      rw [b4] at hwl
      rw [b3] at hsp
      rw [commitIteration_eq] at hd
      have hfl : (flushPushes cfg (runActions (beginAttempt cfg st2) (function v st2.app)).2).wl
            = st2.wl ++ pushesOf (function v st2.app) ∧
          (flushPushes cfg (runActions (beginAttempt cfg st2)
            (function v st2.app)).2).tld.facing.pushBuffer = [] ∧
          (pushesOf (function v st2.app) ≠ [] →
            (flushPushes cfg (runActions (beginAttempt cfg st2)
              (function v st2.app)).2).tld.stat_pushes =
              (st2.tld.stat_pushes + (pushesOf (function v st2.app)).length) %
                18446744073709551616) := by
        unfold flushPushes
        rw [if_pos hp]
        by_cases hn : pushesOf (function v st2.app) = []
        · rw [hn] at hpb
          simp [hpb, hwl, hn]
        · have : (runActions (beginAttempt cfg st2) (function v st2.app)).2.tld.facing.pushBuffer.length
              ≠ 0 := by
            rw [hpb]
            simpa using hn
          rw [if_pos this]
          simp [hpb, hwl, hsp]
      rw [if_pos ha] at hd
      split at hd
      · cases hd
      · simp only [Option.map_some', Option.some.injEq, Prod.mk.injEq, true_and] at hd
        rw [← hd]
        exact hfl
    · simp only [Option.some.injEq] at hd
      rename_i hne
      rw [hd] at hne
      exact absurd rfl hne

/-- Witness for C7 (scenario C): context 9 owns handle 5; the worker pops
item 10, buffers 11, 12, 13 and conflicts on handle 5. -/
theorem abortIteration_rolls_back_witness :
    Reachable (sampleState (acquire initMemory 9 5).2).heap ∧
    ∃ st', runQueue defaultTraits onePackage pushThreeThenTouch 0 64 WL.work 5 1
        (sampleState (acquire initMemory 9 5).2) = some (Signal.returned, st') ∧
      st'.wl = [20] ∧ st'.tld.facing.pushBuffer = [] :=
  have hr : Reachable (sampleState (acquire initMemory 9 5).2).heap :=
    Reachable.acquire _ 9 5 Reachable.init (by decide)
  have h := (abortIteration_rolls_back defaultTraits onePackage pushThreeThenTouch 0 64 WL.work
    5 1 (sampleState (acquire initMemory 9 5).2)
    (dropQueue 0 1 (sampleState (acquire initMemory 9 5).2) WL.work) (Sum.inl 10) [11, 12, 13]
    rfl rfl hr (by decide) rfl rfl (by decide) (by decide) (by decide)).1
  ⟨hr, h.choose, h.choose_spec.1, h.choose_spec.2.1, h.choose_spec.2.2.1⟩

/-- C8: in a reachable memory where the thread's context holds the handles of
l, commitIteration (with fuel to release them; a buffer that is empty when
pushes are disabled, a context that holds nothing when aborts are disabled)
appends the n buffered items in buffer order to the work list, empties the
push buffer, adds n to the 64-bit pushes counter, and releases every handle
of l, leaving the other handles alone; with n = 0 the work list and the
pushes counter are unchanged. -/
theorem commitIteration_flushes (cfg : Traits) (cfuel : Nat) (st : ExecState V A)
    (l : List Nat) (hr : Reachable st.heap)
    (hl : isList st.heap.handles (st.heap.locks st.tld.ctx) l) (hf : l.length < cfuel)
    (hpush : cfg.needsPush = false → st.tld.facing.pushBuffer = [])
    (habort : cfg.needsAborts = false → l = []) :
    ∃ st', commitIteration cfg cfuel st = some st' ∧
      st'.wl = st.wl ++ st.tld.facing.pushBuffer ∧ st'.tld.facing.pushBuffer = [] ∧
      (st.tld.facing.pushBuffer ≠ [] → st'.tld.stat_pushes =
        (st.tld.stat_pushes + st.tld.facing.pushBuffer.length) % 18446744073709551616) ∧
      st'.heap.locks st.tld.ctx = none ∧
      (∀ h ∈ l, st'.heap.handles h =
        { Owner := { locked := false, value := none }, next := none }) ∧
      (∀ h, h ∉ l → st'.heap.handles h = st.heap.handles h) ∧
      (st.tld.facing.pushBuffer = [] → st'.wl = st.wl ∧
        st'.tld.stat_pushes = st.tld.stat_pushes) := by
  have hnd := (hr.list_props _ l hl).1
  refine ⟨_, commitIteration_spec cfg cfuel st l hl hnd hf habort, ?_, ?_, ?_,
    by simp [released], fun h hh => by simp [released, hh],
    fun h hh => by simp [released, hh], ?_⟩
  · simp only [flushPushes]
    by_cases hp : cfg.needsPush = true
    · by_cases hn : st.tld.facing.pushBuffer = []
      · simp [hp, hn]
      · simp [hp, hn]
    · have hp2 : cfg.needsPush = false := by simpa using hp
      simp [hp2, hpush hp2]
  · simp only [flushPushes]
    by_cases hp : cfg.needsPush = true
    · by_cases hn : st.tld.facing.pushBuffer = []
      · simp [hp, hn]
      · simp [hp, hn]
    · have hp2 : cfg.needsPush = false := by simpa using hp
      simp [hp2, hpush hp2]
  · intro hn
    simp only [flushPushes]
    by_cases hp : cfg.needsPush = true
    · simp [hp, hn]
    · have hp2 : cfg.needsPush = false := by simpa using hp
      exact absurd (hpush hp2) hn
  · intro hn
    simp only [flushPushes]
    by_cases hp : cfg.needsPush = true
    · simp [hp, hn]
    · have hp2 : cfg.needsPush = false := by simpa using hp
      simp [hp2]

/-- Witness for C8: the worker holds handles 5 and 6 and has buffered the
items 7, 8, 9. -/
theorem commitIteration_flushes_witness :
    Reachable (acquireAll initMemory 1 [5, 6]).2 ∧
    ∃ st', commitIteration defaultTraits 3
        (sampleBuffered (acquireAll initMemory 1 [5, 6]).2) = some st' ∧
      st'.wl = [10, 20, 7, 8, 9] ∧ st'.tld.facing.pushBuffer = [] ∧ st'.tld.stat_pushes = 3 :=
  have hr : Reachable (acquireAll initMemory 1 [5, 6]).2 :=
    (acquireAll_spec 1 [5, 6] initMemory [] Reachable.init (by decide) (by decide)
      (by decide)).2.1
  have h := commitIteration_flushes defaultTraits 3
    (sampleBuffered (acquireAll initMemory 1 [5, 6]).2)
    [6, 5] hr (by decide) (by decide) (by decide) (by decide)
  ⟨hr, h.choose, h.choose_spec.1, h.choose_spec.2.1, h.choose_spec.2.2.1,
    h.choose_spec.2.2.2.1 (by decide)⟩

/-- The counters after `n` attempts: `stat_iterations` counts them all and
`stat_conflicts` at most as many, both modulo 2^64. -/
theorem Attempts.counters {cfg : Traits} {tp : ThreadPool} {function : FunctionTy V A}
    {tid cfuel n : Nat} {st : ExecState V A} (h : Attempts cfg tp function tid cfuel n st) :
    st.tld.stat_iterations = n % 18446744073709551616 ∧
    ∃ k, k ≤ n ∧ st.tld.stat_conflicts = k % 18446744073709551616 := by
  induction h with
  | start st h1 h2 _ => exact ⟨by rw [h2], 0, le_refl 0, by rw [h1]⟩
  | committed n st st1 st2 lwl p _ hpop hdo ih =>
    obtain ⟨hi, k, hk, hc⟩ := ih
    have e := (pop_frame tid st st1 lwl p hpop).2.2.2.1
    obtain ⟨f1, f2, _⟩ := doProcess_frame cfg function cfuel _ st1 _ st2 hdo
    refine ⟨?_, k, by omega, ?_⟩
    · rw [f2, e, hi]; omega
    · rw [f1.2.1, e, hc]
  | cancelled n st st1 st2 st3 lwl p _ hpop hdo hab ih =>
    obtain ⟨hi, k, hk, hc⟩ := ih
    have e := (pop_frame tid st st1 lwl p hpop).2.2.2.1
    obtain ⟨f1, f2, _⟩ := doProcess_frame cfg function cfuel _ st1 _ st2 hdo
    have g := abortIteration_frame cfg tp tid cfuel p st2 st3 _ hab (by simp)
    refine ⟨?_, k + 1, by omega, ?_⟩
    · rw [g.2.2.2.1, f2, e, hi]; omega
    · rw [g.2.2.2.2.1, f1.2.1, e, hc]; omega
  | interfere n st st' _ ht ih =>
    rw [ht]
    exact ih

/-- C9: in a thread state reached by n attempts, n below 2^64 (the range of
the unsigned long counters), conflicts <= iterations and the reported Commits
value is iterations - conflicts without underflow; an attempt that commits
raises Commits by exactly 1 (in 64-bit arithmetic, and as a number while the
attempts stay below 2^64); an attempt that is cancelled leaves Commits and
Pushes unchanged. -/
theorem commit_statistics (cfg : Traits) (tp : ThreadPool) (function : FunctionTy V A)
    (tid cfuel n : Nat) (st : ExecState V A)
    (hat : Attempts cfg tp function tid cfuel n st) :
    (n < 18446744073709551616 → st.tld.stat_conflicts ≤ st.tld.stat_iterations ∧
      st.tld.reportedCommits + st.tld.stat_conflicts = st.tld.stat_iterations) ∧
    (∀ lwl p st1 st2, pop tid st lwl = some (p, st1) →
      doProcess cfg function cfuel (AbortHandler.value p) st1 = some (Signal.returned, st2) →
      st2.tld.reportedCommits = (st.tld.reportedCommits + 1) % 18446744073709551616 ∧
      (n + 1 < 18446744073709551616 →
        st2.tld.reportedCommits = st.tld.reportedCommits + 1)) ∧
    (∀ lwl p st1 st2 st3, pop tid st lwl = some (p, st1) →
      doProcess cfg function cfuel (AbortHandler.value p) st1 = some (Signal.conflict, st2) →
      abortIteration cfg tp tid cfuel p st2 = some (Signal.returned, st3) →
      st3.tld.reportedCommits = st.tld.reportedCommits ∧
      st3.tld.stat_pushes = st.tld.stat_pushes) := by
  obtain ⟨hi, k, hk, hc⟩ := hat.counters
  refine ⟨fun hn => ?_, fun lwl p st1 st2 hpop hdo => ?_,
    fun lwl p st1 st2 st3 hpop hdo hab => ?_⟩
  · simp only [ThreadLocalData.reportedCommits]
    rw [hi, hc]
    omega
  · have e := (pop_frame tid st st1 lwl p hpop).2.2.2.1
    obtain ⟨f1, f2, _⟩ := doProcess_frame cfg function cfuel _ st1 _ st2 hdo
    simp only [ThreadLocalData.reportedCommits]
    rw [f2, f1.2.1, e, hi, hc]
    omega
  · have e := (pop_frame tid st st1 lwl p hpop).2.2.2.1
    obtain ⟨f1, f2, f3⟩ := doProcess_frame cfg function cfuel _ st1 _ st2 hdo
    have g := abortIteration_frame cfg tp tid cfuel p st2 st3 _ hab (by simp)
    refine ⟨?_, by rw [g.2.2.1, (f3 (by simp)).1, e]⟩
    simp only [ThreadLocalData.reportedCommits]
    rw [g.2.2.2.1, g.2.2.2.2.1, f2, f1.2.1, e, hi, hc]
    omega

/-- Witness for C9: the state after the one cancelled attempt of scenario C. -/
theorem commit_statistics_witness :
    Attempts defaultTraits onePackage pushThreeThenTouch 0 5 1 sampleAborted ∧
    sampleAborted.tld.stat_conflicts ≤ sampleAborted.tld.stat_iterations ∧
    sampleAborted.tld.reportedCommits + sampleAborted.tld.stat_conflicts =
      sampleAborted.tld.stat_iterations :=
  have hat : Attempts defaultTraits onePackage pushThreeThenTouch 0 5 1 sampleAborted :=
    Attempts.cancelled 0 (sampleState (acquire initMemory 9 5).2)
      (dropQueue 0 1 (sampleState (acquire initMemory 9 5).2) WL.work) sampleConflict
      sampleAborted WL.work (Sum.inl 10) (Attempts.start _ rfl rfl rfl) rfl rfl rfl
  ⟨hat, (commit_statistics defaultTraits onePackage pushThreeThenTouch 0 5 1 sampleAborted
    hat).1 (by decide)⟩

/-! ## Accounting of a `runQueue` call -/

/-- One evaluation of the loop condition of `runQueue` and the body after it. -/
theorem runQueueLoop_succ (cfg : Traits) (function : FunctionTy V A) (tid limit : Nat)
    (lwl : WL) (cfuel fuel num : Nat) (st : ExecState V A) :
    runQueueLoop cfg function tid limit lwl cfuel (fuel + 1) num st =
      if limit = 0 ∨ num < limit then
        match pop tid st lwl with
        | none => some (Signal.returned, st, none)
        | some (p, st1) =>
          match doProcess cfg function cfuel (AbortHandler.value p) st1 with
          | none => none
          | some r =>
            if r.1 = Signal.returned then
              runQueueLoop cfg function tid limit lwl cfuel fuel
                (if limit = 0 then num else num + 1) r.2
            else some (r.1, r.2, some p)
      else some (Signal.returned, st, none) := by
  rw [runQueueLoop]
  split
  · cases pop tid st lwl with
    | none => rfl
    | some x =>
      obtain ⟨p, st1⟩ := x
      simp only
      cases doProcess cfg function cfuel (AbortHandler.value p) st1 with
      | none => rfl
      | some r =>
        obtain ⟨sig, st2⟩ := r
        cases sig <;> simp
  · rfl

/-- The catch handler of `runQueue`, spelled out on the result of the loop. -/
theorem runQueue_eq (cfg : Traits) (tp : ThreadPool) (function : FunctionTy V A)
    (tid limit : Nat) (lwl : WL) (cfuel fuel : Nat) (st : ExecState V A) :
    runQueue cfg tp function tid limit lwl cfuel fuel st =
      match runQueueLoop cfg function tid limit lwl cfuel fuel 0 st with
      | none => none
      | some r =>
        if r.1 = Signal.conflict then
          match r.2.2 with
          | some p => abortIteration cfg tp tid cfuel p r.2.1
          | none => some (r.1, r.2.1)
        else some (r.1, r.2.1) := by
  rw [runQueue]
  cases runQueueLoop cfg function tid limit lwl cfuel fuel 0 st with
  | none => rfl
  | some r =>
    obtain ⟨sig, st1, op⟩ := r
    cases sig <;> cases op <;> simp

theorem dropQueue_one_queues (tid : Nat) (st : ExecState V A) (lwl : WL) (t : Nat)
    (h : lwl = WL.work ∨ t ≠ tid) :
    (dropQueue tid 1 st lwl).aborted.queues t = st.aborted.queues t := by
  cases lwl with
  | work => rfl
  | aborts =>
    have ht : t ≠ tid := by
      rcases h with h | h
      · cases h
      · exact h
    simp [dropQueue, Function.update_noteq ht]

theorem queueOf_frame (tid : Nat) (lwl : WL) (a b : ExecState V A) (h : AttemptFrame a b) :
    ∃ x, queueOf tid b lwl = queueOf tid a lwl ++ x ∧ (lwl = WL.aborts → x = []) := by
  obtain ⟨_, _, h3, _, _, ⟨y, h6⟩⟩ := h
  cases lwl with
  | work => exact ⟨y.map Sum.inl, by simp [queueOf, h6], fun hh => by cases hh⟩
  | aborts => exact ⟨[], by simp [queueOf, h3], fun _ => rfl⟩

/-- Accounting of the loop of `runQueue`: what was in the queue or was added
to it has either been popped or is still in the queue, in order; every popped
item went through one `doProcess`; only the last one can have thrown. -/
theorem runQueueLoop_spec (cfg : Traits) (function : FunctionTy V A) (tid limit : Nat)
    (lwl : WL) (cfuel : Nat) :
    ∀ (fuel num : Nat) (st : ExecState V A) (sig : Signal) (st' : ExecState V A)
      (op : Option (Popped V)),
      st.tld.stat_iterations < 18446744073709551616 →
      runQueueLoop cfg function tid limit lwl cfuel fuel num st = some (sig, st', op) →
      ∃ popped added,
        queueOf tid st lwl ++ added = popped ++ queueOf tid st' lwl ∧
        st'.tld.stat_iterations =
          (st.tld.stat_iterations + popped.length) % 18446744073709551616 ∧
        st'.tld.stat_conflicts = st.tld.stat_conflicts ∧
        (limit ≠ 0 → num ≤ limit → num + popped.length ≤ limit) ∧
        (∀ t, (lwl = WL.work ∨ t ≠ tid) → st'.aborted.queues t = st.aborted.queues t) ∧
        (lwl = WL.aborts → added = []) ∧
        ((op = none ∧ sig = Signal.returned) ∨
          ∃ p init, op = some p ∧ sig ≠ Signal.returned ∧ popped = init ++ [p]) := by
  intro fuel
  induction fuel with
  | zero => intro num st sig st' op _ h; simp [runQueueLoop] at h
  | succ f ih =>
    intro num st sig st' op hit h
    have stop : some (Signal.returned, st, (none : Option (Popped V))) = some (sig, st', op) →
        ∃ popped added,
          queueOf tid st lwl ++ added = popped ++ queueOf tid st' lwl ∧
          st'.tld.stat_iterations =
            (st.tld.stat_iterations + popped.length) % 18446744073709551616 ∧
          st'.tld.stat_conflicts = st.tld.stat_conflicts ∧
          (limit ≠ 0 → num ≤ limit → num + popped.length ≤ limit) ∧
          (∀ t, (lwl = WL.work ∨ t ≠ tid) → st'.aborted.queues t = st.aborted.queues t) ∧
          (lwl = WL.aborts → added = []) ∧
          ((op = none ∧ sig = Signal.returned) ∨
            ∃ p init, op = some p ∧ sig ≠ Signal.returned ∧ popped = init ++ [p]) := by
      intro e
      simp only [Option.some.injEq, Prod.mk.injEq] at e
      obtain ⟨rfl, rfl, rfl⟩ := e
      exact ⟨[], [], by simp, by simp [Nat.mod_eq_of_lt hit], rfl, fun _ hh => by simpa using hh,
        fun _ _ => rfl, fun _ => rfl, Or.inl ⟨rfl, rfl⟩⟩
    rw [runQueueLoop_succ] at h
    split at h
    · rename_i hcond
      cases hpop : pop tid st lwl with
      | none => rw [hpop] at h; exact stop h
      | some x =>
        obtain ⟨p, st1⟩ := x
        rw [hpop] at h
        simp only at h
        obtain ⟨e1, e2, _, e4, _, _⟩ := pop_frame tid st st1 lwl p hpop
        cases hdo : doProcess cfg function cfuel (AbortHandler.value p) st1 with
        | none => rw [hdo] at h; cases h
        | some r =>
          obtain ⟨sig2, st2⟩ := r
          rw [hdo] at h
          simp only at h
          obtain ⟨f1, f2, _⟩ := doProcess_frame cfg function cfuel _ st1 _ st2 hdo
          obtain ⟨x, hx, hx0⟩ := queueOf_frame tid lwl st1 st2 f1
          have hq1 : ∀ t, (lwl = WL.work ∨ t ≠ tid) →
              st2.aborted.queues t = st.aborted.queues t := by
            intro t ht
            rw [f1.2.2.1, e1]
            exact dropQueue_one_queues tid st lwl t ht
          rw [e4] at f2
          by_cases hs : sig2 = Signal.returned
          · rw [if_pos hs] at h
            have hit2 : st2.tld.stat_iterations < 18446744073709551616 := by
              rw [f2]; exact Nat.mod_lt _ (by norm_num)
            obtain ⟨popped, added, g1, g2, g3, g4, g5, g6, g7⟩ := ih _ st2 sig st' op hit2 h
            refine ⟨p :: popped, x ++ added, ?_, ?_, ?_, ?_, ?_, ?_, ?_⟩
            · rw [e2, List.cons_append, List.cons_append, ← g1, hx, List.append_assoc]
            · rw [g2, f2]
              simp only [List.length_cons]
              omega
            · rw [g3, f1.2.1, e4]
            · intro hl hn
              simp only [List.length_cons]
              have hlt : num < limit := by
                rcases hcond with h0 | h0
                · exact absurd h0 hl
                · exact h0
              have := g4 hl (by rw [if_neg hl]; omega)
              rw [if_neg hl] at this
              omega
            · intro t ht
              rw [g5 t ht, hq1 t ht]
            · intro hl
              rw [hx0 hl, g6 hl]
              rfl
            · rcases g7 with g7 | ⟨p0, init, a1, a2, a3⟩
              · exact Or.inl g7
              · exact Or.inr ⟨p0, p :: init, a1, a2, by rw [a3]; rfl⟩
          · rw [if_neg hs] at h
            simp only [Option.some.injEq, Prod.mk.injEq] at h
            obtain ⟨rfl, rfl, rfl⟩ := h
            refine ⟨[p], x, ?_, ?_, ?_, ?_, hq1, hx0, Or.inr ⟨p, [], rfl, hs, rfl⟩⟩
            · rw [e2, hx]; rfl
            · rw [f2]; rfl
            · rw [f1.2.1, e4]
            · intro hl hn
              have hlt : num < limit := by
                rcases hcond with h0 | h0
                · exact absurd h0 hl
                · exact h0
              simp only [List.length_singleton]
              omega
    · exact stop h

theorem basicPolicy_eq (tp : ThreadPool) (tid : Nat) (h : AbortHandler V) (item : Item V) :
    h.basicPolicy tp tid item = h.pushRemote (basicDest tp tid) item := rfl

theorem doublePolicy_eq (tp : ThreadPool) (tid : Nat) (h : AbortHandler V) (item : Item V) :
    h.doublePolicy tp tid item = h.pushRemote (doubleDest tp tid item.retries) item := by
  unfold AbortHandler.doublePolicy doubleDest packageStep
  simp only
  split
  · rfl
  · split <;> rfl

theorem boundedPolicy_eq (tp : ThreadPool) (tid : Nat) (h : AbortHandler V) (item : Item V) :
    h.boundedPolicy tp tid item = h.pushRemote (boundedDest tp tid item.retries) item := by
  unfold AbortHandler.boundedPolicy boundedDest boundedWithin packageStep
  simp only
  split
  · rfl
  · rename_i h1
    by_cases h2 : item.retries - 1 < 5 ∧
        tid ≠ tp.getLeaderForPackage (tp.getPackage tid)
    · simp [h1, h2]
    · simp [h1, h2]

theorem push_eq (tp : ThreadPool) (tid : Nat) (h : AbortHandler V) (item : Item V) :
    h.push tp tid item =
      h.pushRemote (pushDest tp h.useBasicPolicy tid item.retries)
        { val := item.val, retries := item.retries + 1 } := by
  unfold AbortHandler.push pushDest
  simp only
  split
  · rw [basicPolicy_eq]
  · rw [doublePolicy_eq]

theorem packageStep_bounds (leader tid : Nat) (hl : leader ≤ tid) (ht : tid < 4294967296) :
    packageStep leader tid = leader + (tid - leader) / 2 ∧ leader ≤ packageStep leader tid ∧
    packageStep leader tid ≤ tid ∧ (leader < tid → packageStep leader tid < tid) := by
  unfold packageStep
  omega

theorem pushRemote_queues (h : AbortHandler V) (d : Nat) (item : Item V) :
    (h.pushRemote d item).queues d = h.queues d ++ [item] ∧
    (∀ t, t ≠ d → (h.pushRemote d item).queues t = h.queues t) ∧
    (h.pushRemote d item).useBasicPolicy = h.useBasicPolicy := by
  refine ⟨by simp [AbortHandler.pushRemote], fun t ht => ?_, rfl⟩
  simp [AbortHandler.pushRemote, Function.update_noteq ht]

theorem totalQueued_pushRemote (h : AbortHandler V) (d : Nat) (item : Item V) :
    ∀ n, totalQueued (h.pushRemote d item) n =
      totalQueued h n + (if d < n then 1 else 0) := by
  intro n
  induction n with
  | zero => simp [totalQueued]
  | succ n ih =>
    simp only [totalQueued, ih]
    by_cases e : n = d
    · subst e
      simp [(pushRemote_queues h n item).1]
      omega
    · rw [(pushRemote_queues h d item).2.1 n e]
      by_cases hlt : d < n
      · have : d < n + 1 := by omega
        simp [hlt, this]
        omega
      · have : ¬ d < n + 1 := by omega
        simp [hlt, this]

/-- C12: push of an item that carries retry count r (below the largest int)
appends a copy with the same value and count r + 1 to exactly one queue, and
the policy chooses that queue from the incremented item: the destination of
the doubling policy is computed from count r + 1.  A plain value, aborted for
the first time, is appended with count 1 to the submitting thread's own
queue. -/
theorem push_increments_retries (tp : ThreadPool) (tid : Nat) (h : AbortHandler V)
    (item : Item V) (val : V) (_hr : item.retries < 2147483647) :
    (h.push tp tid item =
      if h.useBasicPolicy then
        h.basicPolicy tp tid { val := item.val, retries := item.retries + 1 }
      else h.doublePolicy tp tid { val := item.val, retries := item.retries + 1 }) ∧
    (∃ d, d = (if h.useBasicPolicy then basicDest tp tid
        else doubleDest tp tid (item.retries + 1)) ∧
      (h.push tp tid item).queues d =
        h.queues d ++ [{ val := item.val, retries := item.retries + 1 }] ∧
      ∀ t, t ≠ d → (h.push tp tid item).queues t = h.queues t) ∧
    ((h.pushPopped tp tid (Sum.inl val)).queues tid =
        h.queues tid ++ [{ val := val, retries := 1 }] ∧
      ∀ t, t ≠ tid → (h.pushPopped tp tid (Sum.inl val)).queues t = h.queues t) := by
  refine ⟨rfl, ⟨_, rfl, ?_, ?_⟩, ?_, ?_⟩
  · rw [push_eq]
    exact (pushRemote_queues _ _ _).1
  · intro t ht
    rw [push_eq]
    exact (pushRemote_queues _ _ _).2.1 t ht
  · exact (pushRemote_queues h tid _).1
  · intro t ht
    exact (pushRemote_queues h tid _).2.1 t ht

/-- Witness for C12: thread 7 of the 4 by 4 topology pushes an item with
count 1 under the doubling policy; the copy with count 2 lands on its own
queue. -/
theorem push_increments_retries_witness :
    ∃ d, d = (if ({ queues := fun _ => [], useBasicPolicy := false } :
          AbortHandler Nat).useBasicPolicy then basicDest fourByFour 7
        else doubleDest fourByFour 7 ((1 : Int) + 1)) ∧
      (({ queues := fun _ => [], useBasicPolicy := false } : AbortHandler Nat).push
        fourByFour 7 { val := 3, retries := 1 }).queues d =
        [] ++ [{ val := 3, retries := 1 + 1 }] ∧
      ∀ t, t ≠ d →
        (({ queues := fun _ => [], useBasicPolicy := false } : AbortHandler Nat).push
          fourByFour 7 { val := 3, retries := 1 }).queues t = [] :=
  (push_increments_retries fourByFour 7
    ({ queues := fun _ => [], useBasicPolicy := false } : AbortHandler Nat)
    { val := 3, retries := 1 } 0 (by decide)).2.1

/-- C13: on a topology with n thread ids (n within the unsigned range) in
which every thread's package leader is at most the thread's own id, every
thread's package is a package index (below getMaxPackages) and the leader of
every package index is a valid thread id, each of the four
policies appends the item to the queue of exactly one valid thread, the total
number of queued items grows by exactly 1, and the within-package step
leader + (tid - leader)/2 lies in [leader, tid) whenever tid > leader. -/
theorem policies_push_once (tp : ThreadPool) (n tid : Nat) (h : AbortHandler V)
    (item : Item V) (hn : n ≤ 4294967296) (ht : tid < n)
    (hlead : ∀ t, t < n → tp.getLeader t ≤ t ∧ tp.getLeaderForPackage (tp.getPackage t) ≤ t)
    (hpkg : ∀ t, t < n → tp.getPackage t < tp.getMaxPackages)
    (hpk : ∀ p, p < tp.getMaxPackages → tp.getLeaderForPackage p < n) :
    (∃ d, d < n ∧ h.basicPolicy tp tid item = h.pushRemote d item ∧
      totalQueued (h.basicPolicy tp tid item) n = totalQueued h n + 1) ∧
    (∃ d, d < n ∧ h.doublePolicy tp tid item = h.pushRemote d item ∧
      totalQueued (h.doublePolicy tp tid item) n = totalQueued h n + 1) ∧
    (∃ d, d < n ∧ h.boundedPolicy tp tid item = h.pushRemote d item ∧
      totalQueued (h.boundedPolicy tp tid item) n = totalQueued h n + 1) ∧
    (∃ d, d < n ∧ h.eagerPolicy tid item = h.pushRemote d item ∧
      totalQueued (h.eagerPolicy tid item) n = totalQueued h n + 1) ∧
    (∀ d, (h.pushRemote d item).queues d = h.queues d ++ [item] ∧
      ∀ t, t ≠ d → (h.pushRemote d item).queues t = h.queues t) ∧
    (∀ leader, leader < tid →
      packageStep leader tid = leader + (tid - leader) / 2 ∧
      leader ≤ packageStep leader tid ∧ packageStep leader tid < tid) := by
  have ht32 : tid < 4294967296 := by omega
  have up : tp.getLeaderForPackage (tp.getPackage tid / 2) < n := by
    refine hpk _ ?_
    have := hpkg tid ht
    omega
  have total : ∀ d, d < n → totalQueued (h.pushRemote d item) n = totalQueued h n + 1 := by
    intro d hd
    rw [totalQueued_pushRemote, if_pos hd]
  have step : ∀ leader, leader ≤ tid → packageStep leader tid < n := by
    intro leader hl
    have := (packageStep_bounds leader tid hl ht32).2.2.1
    omega
  refine ⟨⟨basicDest tp tid, up, basicPolicy_eq tp tid h item, ?_⟩,
    ⟨doubleDest tp tid item.retries, ?_, doublePolicy_eq tp tid h item, ?_⟩,
    ⟨boundedDest tp tid item.retries, ?_, boundedPolicy_eq tp tid h item, ?_⟩,
    ⟨tid, ht, rfl, total tid ht⟩, fun d => ⟨(pushRemote_queues h d item).1,
      (pushRemote_queues h d item).2.1⟩, fun leader hl => ?_⟩
  · rw [basicPolicy_eq]
    exact total _ up
  · unfold doubleDest
    split
    · exact ht
    · split
      · exact step _ (hlead tid ht).1
      · exact up
  · rw [doublePolicy_eq]
    refine total _ ?_
    unfold doubleDest
    split
    · exact ht
    · split
      · exact step _ (hlead tid ht).1
      · exact up
  · unfold boundedDest
    split
    · exact ht
    · split
      · exact step _ (hlead tid ht).2
      · exact up
  · rw [boundedPolicy_eq]
    refine total _ ?_
    unfold boundedDest
    split
    · exact ht
    · split
      · exact step _ (hlead tid ht).2
      · exact up
  · have b := packageStep_bounds leader tid (by omega) ht32
    exact ⟨b.1, b.2.1, b.2.2.2 hl⟩

/-- Witness for C13: thread 7 of the 4 by 4 topology (16 thread ids). -/
theorem policies_push_once_witness :
    ∃ d, d < 16 ∧
      ({ queues := fun _ => [], useBasicPolicy := false } : AbortHandler Nat).doublePolicy
        fourByFour 7 { val := 3, retries := 3 } =
      ({ queues := fun _ => [], useBasicPolicy := false } : AbortHandler Nat).pushRemote d
        { val := 3, retries := 3 } ∧
      totalQueued (({ queues := fun _ => [], useBasicPolicy := false } :
        AbortHandler Nat).doublePolicy fourByFour 7 { val := 3, retries := 3 }) 16 =
        totalQueued ({ queues := fun _ => [], useBasicPolicy := false } : AbortHandler Nat) 16
          + 1 :=
  (policies_push_once fourByFour 16 7
    ({ queues := fun _ => [], useBasicPolicy := false } : AbortHandler Nat)
    { val := 3, retries := 3 } (by decide) (by decide)
    (fun t _ => ⟨by simp only [fourByFour]; omega, by simp only [fourByFour]; omega⟩)
    (fun t ht => by simp only [fourByFour]; omega)
    (fun p hp => by simp only [fourByFour] at hp ⊢; omega)).2.1

theorem pushPopped_flag (tp : ThreadPool) (tid : Nat) (h : AbortHandler V) (p : Popped V) :
    (h.pushPopped tp tid p).useBasicPolicy = h.useBasicPolicy := by
  obtain ⟨d, it, _, he⟩ := pushPopped_dest tp tid h p
  rw [he]
  rfl

theorem foldl_pushPopped_flag (tp : ThreadPool) (events : List (Nat × Popped V)) :
    ∀ h : AbortHandler V,
      (events.foldl (fun h e => h.pushPopped tp e.1 e.2) h).useBasicPolicy =
        h.useBasicPolicy := by
  induction events with
  | nil => intro h; rfl
  | cons e rest ih =>
    intro h
    rw [List.foldl_cons, ih, pushPopped_flag]

/-- C14 (as the code has it): the constructor selects the Basic policy when
the machine has more than 2 packages and the Doubling policy when it has at
most 2; no push changes the choice, so after any sequence of pushes every
push(item) routes by the policy chosen at construction. -/
theorem policy_selection (tp : ThreadPool) :
    ((AbortHandler.new tp : AbortHandler V).useBasicPolicy = true ↔ 2 < tp.getMaxPackages) ∧
    (∀ (h : AbortHandler V) (tid : Nat) (p : Popped V),
      (h.pushPopped tp tid p).useBasicPolicy = h.useBasicPolicy) ∧
    (∀ (events : List (Nat × Popped V)) (tid : Nat) (item : Item V),
      (events.foldl (fun h e => h.pushPopped tp e.1 e.2) (AbortHandler.new tp)).push tp tid item =
        if 2 < tp.getMaxPackages then
          (events.foldl (fun h e => h.pushPopped tp e.1 e.2) (AbortHandler.new tp)).basicPolicy
            tp tid { val := item.val, retries := item.retries + 1 }
        else
          (events.foldl (fun h e => h.pushPopped tp e.1 e.2) (AbortHandler.new tp)).doublePolicy
            tp tid { val := item.val, retries := item.retries + 1 }) := by
  have hnew : (AbortHandler.new tp : AbortHandler V).useBasicPolicy = true ↔
      2 < tp.getMaxPackages := by
    simp [AbortHandler.new]
  refine ⟨hnew, fun h tid p => pushPopped_flag tp tid h p, fun events tid item => ?_⟩
  have hf := foldl_pushPopped_flag tp events (AbortHandler.new tp : AbortHandler V)
  unfold AbortHandler.push
  simp only
  by_cases hm : 2 < tp.getMaxPackages
  · rw [if_pos hm, hf, hnew.2 hm]
    rfl
  · rw [if_neg hm]
    have : (AbortHandler.new tp : AbortHandler V).useBasicPolicy = false := by
      simpa using fun hh => hm (hnew.1 hh)
    rw [hf, this]
    rfl

/-- Counterexample to C14 as stated: with one package (at most 2) the handler
does not use the Basic policy: thread 3 pushes an item and it stays on queue 3
instead of going to the leader, thread 0; with four packages (more than 2) it
does not use the Doubling policy: the item pushed by thread 7 leaves queue 7
at once. -/
theorem policy_selection_counterexample :
    (AbortHandler.new onePackage : AbortHandler Nat).useBasicPolicy = false ∧
    ((AbortHandler.new onePackage : AbortHandler Nat).push onePackage 3
      { val := 5, retries := 1 }).queues 3 = [{ val := 5, retries := 2 }] ∧
    ((AbortHandler.new onePackage : AbortHandler Nat).basicPolicy onePackage 3
      { val := 5, retries := 2 }).queues 3 = [] ∧
    (AbortHandler.new fourByFour : AbortHandler Nat).useBasicPolicy = true ∧
    ((AbortHandler.new fourByFour : AbortHandler Nat).push fourByFour 7
      { val := 5, retries := 1 }).queues 7 = [] ∧
    ((AbortHandler.new fourByFour : AbortHandler Nat).doublePolicy fourByFour 7
      { val := 5, retries := 2 }).queues 7 = [{ val := 5, retries := 2 }] := by
  refine ⟨by decide, by decide, by decide, by decide, by decide, by decide⟩

/-- C15 (as the code has it): push(item) routes by the Basic policy or by the
Doubling policy, whatever the handler's flag; the Eager and Bounded policies
are defined but nothing selects them.  Eager, where applied, appends to the
calling thread's own queue for every retry count. -/
theorem push_uses_basic_or_double (tp : ThreadPool) (tid : Nat) (h : AbortHandler V)
    (item : Item V) :
    (h.push tp tid item =
        h.basicPolicy tp tid { val := item.val, retries := item.retries + 1 } ∨
      h.push tp tid item =
        h.doublePolicy tp tid { val := item.val, retries := item.retries + 1 }) ∧
    ((h.eagerPolicy tid item).queues tid = h.queues tid ++ [item] ∧
      ∀ t, t ≠ tid → (h.eagerPolicy tid item).queues t = h.queues t) ∧
    h.boundedPolicy tp tid item = h.pushRemote (boundedDest tp tid item.retries) item := by
  refine ⟨?_, ⟨(pushRemote_queues h tid item).1, (pushRemote_queues h tid item).2.1⟩,
    boundedPolicy_eq tp tid h item⟩
  unfold AbortHandler.push
  simp only
  split
  · exact Or.inl rfl
  · exact Or.inr rfl

/-- Counterexample to C15 as stated: for neither value of the handler's flag
does push(item) route by the Eager policy, and for neither does it route by
the Bounded policy. -/
theorem overrides_counterexample :
    (¬ ∃ b : Bool, ∀ (tp : ThreadPool) (tid : Nat) (h : AbortHandler Nat) (item : Item Nat),
      h.useBasicPolicy = b →
      h.push tp tid item = h.eagerPolicy tid { val := item.val, retries := item.retries + 1 }) ∧
    (¬ ∃ b : Bool, ∀ (tp : ThreadPool) (tid : Nat) (h : AbortHandler Nat) (item : Item Nat),
      h.useBasicPolicy = b →
      h.push tp tid item =
        h.boundedPolicy tp tid { val := item.val, retries := item.retries + 1 }) := by
  constructor
  · rintro ⟨b, hb⟩
    cases b with
    | false =>
      have := congrArg (fun x => x.queues 7)
        (hb fourByFour 7 { queues := fun _ => [], useBasicPolicy := false }
          { val := 5, retries := 2 } rfl)
      revert this
      decide
    | true =>
      have := congrArg (fun x => x.queues 7)
        (hb fourByFour 7 { queues := fun _ => [], useBasicPolicy := true }
          { val := 5, retries := 2 } rfl)
      revert this
      decide
  · rintro ⟨b, hb⟩
    cases b with
    | false =>
      have := congrArg (fun x => x.queues 7)
        (hb fourByFour 7 { queues := fun _ => [], useBasicPolicy := false }
          { val := 5, retries := 3 } rfl)
      revert this
      decide
    | true =>
      have := congrArg (fun x => x.queues 7)
        (hb fourByFour 7 { queues := fun _ => [], useBasicPolicy := true }
          { val := 5, retries := 1 } rfl)
      revert this
      decide

/-- C16: under the Doubling policy (flag unset), with the thread's leader at
most its own id (ids unsigned), push of an item whose incremented retry count
is r puts it on the submitting thread's own queue when r is even; when r is
odd it escalates: from a non-leader thread tid to thread
leader + (tid - leader)/2 and from a package leader to the leader of package
floor(package/2).  Hence an item that reached thread t with an odd count r
stays on t's queue at the next abort (count r + 1) and is escalated from t
only at the one after (count r + 2): two consecutive attempts at t. -/
theorem doublePolicy_routes (tp : ThreadPool) (tid : Nat) (h : AbortHandler V) (v : V)
    (r : Int) (hflag : h.useBasicPolicy = false) (hl : tp.getLeader tid ≤ tid)
    (ht : tid < 4294967296) :
    (r % 2 = 0 → h.push tp tid { val := v, retries := r - 1 } =
      h.pushRemote tid { val := v, retries := r }) ∧
    (r % 2 = 1 → tid ≠ tp.getLeader tid →
      h.push tp tid { val := v, retries := r - 1 } =
        h.pushRemote (tp.getLeader tid + (tid - tp.getLeader tid) / 2)
          { val := v, retries := r }) ∧
    (r % 2 = 1 → tid = tp.getLeader tid →
      h.push tp tid { val := v, retries := r - 1 } =
        h.pushRemote (tp.getLeaderForPackage (tp.getPackage tid / 2))
          { val := v, retries := r }) ∧
    (r % 2 = 1 →
      h.push tp tid { val := v, retries := r } =
        h.pushRemote tid { val := v, retries := r + 1 } ∧
      h.push tp tid { val := v, retries := r + 1 } =
        h.pushRemote
          (if tid ≠ tp.getLeader tid then tp.getLeader tid + (tid - tp.getLeader tid) / 2
           else tp.getLeaderForPackage (tp.getPackage tid / 2))
          { val := v, retries := r + 2 }) := by
  have hs := (packageStep_bounds (tp.getLeader tid) tid hl ht).1
  have key : ∀ q : Int, h.push tp tid { val := v, retries := q - 1 } =
      h.pushRemote (doubleDest tp tid q) { val := v, retries := q } := by
    intro q
    rw [push_eq, hflag]
    simp [pushDest]
  have even : ∀ q : Int, q % 2 = 0 → doubleDest tp tid q = tid := by
    intro q hq
    have : (q - 1) % 2 = 1 := by omega
    simp [doubleDest, this]
  have odd : ∀ q : Int, q % 2 = 1 → doubleDest tp tid q =
      if tid ≠ tp.getLeader tid then tp.getLeader tid + (tid - tp.getLeader tid) / 2
      else tp.getLeaderForPackage (tp.getPackage tid / 2) := by
    intro q hq
    have : ¬ (q - 1) % 2 = 1 := by omega
    simp only [doubleDest, this, if_false, hs]
  refine ⟨fun hr => ?_, fun hr hne => ?_, fun hr he => ?_, fun hr => ⟨?_, ?_⟩⟩
  · rw [key, even r hr]
  · rw [key, odd r hr, if_pos hne]
  · rw [key, odd r hr, if_neg (by simpa using he)]
  · have := key (r + 1)
    rw [even (r + 1) (by omega)] at this
    simpa using this
  · have := key (r + 2)
    rw [odd (r + 2) (by omega)] at this
    have e : r + 2 - 1 = r + 1 := by omega
    rw [e] at this
    exact this

/-- Witness for C16: thread 7 of the 4 by 4 topology (leader 4) pushes an item
whose incremented count is 3; it goes to thread 4 + (7 - 4)/2 = 5. -/
theorem doublePolicy_routes_witness :
    ({ queues := fun _ => [], useBasicPolicy := false } : AbortHandler Nat).push fourByFour 7
      { val := 9, retries := 3 - 1 } =
    ({ queues := fun _ => [], useBasicPolicy := false } : AbortHandler Nat).pushRemote
      (fourByFour.getLeader 7 + (7 - fourByFour.getLeader 7) / 2) { val := 9, retries := 3 } :=
  (doublePolicy_routes fourByFour 7
    ({ queues := fun _ => [], useBasicPolicy := false } : AbortHandler Nat) 9 3 rfl
    (by decide) (by decide)).2.1 (by decide) (by decide)

theorem boundedWithin_range (tp : ThreadPool) (tid : Nat) (r : Int)
    (h : boundedWithin tp tid r = true) :
    3 ≤ r ∧ r ≤ 5 ∧ tid ≠ tp.getLeaderForPackage (tp.getPackage tid) := by
  simp only [boundedWithin, decide_eq_true_eq] at h
  omega

/-- At most three indices of a run of consecutive retry counts fall in 3..5. -/
theorem filter_window_length (p : Nat → Bool) (r0 : Int) (n : Nat)
    (hp : ∀ i, p i = true → 3 ≤ r0 + i ∧ r0 + i ≤ 5) :
    ((List.range n).filter p).length ≤ 3 := by
  have hnd : ((List.range n).filter p).Nodup := (List.nodup_range n).filter _
  rw [← List.toFinset_card_of_nodup hnd]
  have hsub : ((List.range n).filter p).toFinset ⊆
      ({(3 - r0).toNat, (3 - r0).toNat + 1, (3 - r0).toNat + 2} : Finset Nat) := by
    intro i hi
    simp only [List.mem_toFinset, List.mem_filter] at hi
    have := hp i hi.2
    simp only [Finset.mem_insert, Finset.mem_singleton]
    omega
  exact (Finset.card_le_card hsub).trans Finset.card_le_three

/-- C17: with the package leader at most the thread's own id (ids unsigned),
the Bounded policy puts an item with incremented retry count r on the
thread's own queue when r <= 2, on the queue of leader + (tid - leader)/2 when
r is in 3..5 and the thread is not its package leader, and on the queue of
the leader of package floor(package/2) when r >= 6 or the thread is the
leader (r >= 3).  Along any history of pushes of one item, whose counts
increase by one from push to push whatever threads make them, at most 3
pushes take the within-package branch. -/
theorem boundedPolicy_routes (tp : ThreadPool) (tid : Nat) (h : AbortHandler V) (v : V)
    (r : Int) (hl : tp.getLeaderForPackage (tp.getPackage tid) ≤ tid)
    (ht : tid < 4294967296) :
    (r ≤ 2 → h.boundedPolicy tp tid { val := v, retries := r } =
      h.pushRemote tid { val := v, retries := r }) ∧
    (3 ≤ r → r ≤ 5 → tid ≠ tp.getLeaderForPackage (tp.getPackage tid) →
      boundedWithin tp tid r = true ∧
      h.boundedPolicy tp tid { val := v, retries := r } =
        h.pushRemote (tp.getLeaderForPackage (tp.getPackage tid) +
          (tid - tp.getLeaderForPackage (tp.getPackage tid)) / 2) { val := v, retries := r }) ∧
    (3 ≤ r → (6 ≤ r ∨ tid = tp.getLeaderForPackage (tp.getPackage tid)) →
      boundedWithin tp tid r = false ∧
      h.boundedPolicy tp tid { val := v, retries := r } =
        h.pushRemote (tp.getLeaderForPackage (tp.getPackage tid / 2))
          { val := v, retries := r }) ∧
    (∀ (tids : Nat → Nat) (r0 : Int) (n : Nat),
      ((List.range n).filter (fun i => boundedWithin tp (tids i) (r0 + i))).length ≤ 3) := by
  have hs := (packageStep_bounds (tp.getLeaderForPackage (tp.getPackage tid)) tid hl ht).1
  refine ⟨fun h1 => ?_, fun h1 h2 h3 => ?_, fun h1 h2 => ?_, fun tids r0 n => ?_⟩
  · rw [boundedPolicy_eq]
    have : r - 1 < 2 := by omega
    simp [boundedDest, this]
  · have hw : boundedWithin tp tid r = true := by
      simp only [boundedWithin, decide_eq_true_eq]
      exact ⟨by omega, by omega, h3⟩
    refine ⟨hw, ?_⟩
    rw [boundedPolicy_eq]
    have : ¬ r - 1 < 2 := by omega
    simp only [boundedDest, this, if_false, hw, if_true, hs]
  · have hw : boundedWithin tp tid r = false := by
      simp only [boundedWithin, decide_eq_false_iff_not]
      rintro ⟨_, a, b⟩
      rcases h2 with h2 | h2
      · omega
      · exact b h2
    refine ⟨hw, ?_⟩
    rw [boundedPolicy_eq]
    have : ¬ r - 1 < 2 := by omega
    simp [boundedDest, this, hw]
  · exact filter_window_length _ r0 n
      (fun i hi => by
        have := boundedWithin_range tp (tids i) (r0 + i) hi
        exact ⟨this.1, this.2.1⟩)

/-- Witness for C17: thread 7 of the 4 by 4 topology (leader 4), incremented
count 4: the item goes to thread 4 + (7 - 4)/2 = 5. -/
theorem boundedPolicy_routes_witness :
    boundedWithin fourByFour 7 4 = true ∧
    ({ queues := fun _ => [], useBasicPolicy := false } : AbortHandler Nat).boundedPolicy
      fourByFour 7 { val := 9, retries := 4 } =
    ({ queues := fun _ => [], useBasicPolicy := false } : AbortHandler Nat).pushRemote
      (fourByFour.getLeaderForPackage (fourByFour.getPackage 7) +
        (7 - fourByFour.getLeaderForPackage (fourByFour.getPackage 7)) / 2)
      { val := 9, retries := 4 } :=
  (boundedPolicy_routes fourByFour 7
    ({ queues := fun _ => [], useBasicPolicy := false } : AbortHandler Nat) 9 4
    (by decide) (by decide)).2.1 (by decide) (by decide) (by decide)

/-- C18: the Basic policy appends the item to the queue of the leader of
package floor(p/2), p being the submitting thread's package, whatever the
item and its retry count; two threads of the same package get the same
destination; for p = 0 the destination is the leader of the thread's own
package; and with the Basic flag set push(item) goes there too. -/
theorem basicPolicy_destination (tp : ThreadPool) (tid : Nat) (h : AbortHandler V)
    (item : Item V) :
    h.basicPolicy tp tid item =
      h.pushRemote (tp.getLeaderForPackage (tp.getPackage tid / 2)) item ∧
    (∀ (tid2 : Nat) (item2 : Item V), tp.getPackage tid2 = tp.getPackage tid →
      h.basicPolicy tp tid2 item2 =
        h.pushRemote (tp.getLeaderForPackage (tp.getPackage tid / 2)) item2) ∧
    (tp.getPackage tid = 0 → h.basicPolicy tp tid item =
      h.pushRemote (tp.getLeaderForPackage (tp.getPackage tid)) item) ∧
    (h.useBasicPolicy = true → h.push tp tid item =
      h.pushRemote (tp.getLeaderForPackage (tp.getPackage tid / 2))
        { val := item.val, retries := item.retries + 1 }) := by
  refine ⟨rfl, fun tid2 item2 hp => ?_, fun hp => ?_, fun hb => ?_⟩
  · rw [basicPolicy_eq, basicDest, hp]
  · rw [basicPolicy_eq, basicDest, hp]
  · rw [push_eq, hb]
    rfl

/-- Witness for C18: threads 13 and 14 of package 3 in the 4 by 4 topology
both send to thread 4, the leader of package 1. -/
theorem basicPolicy_destination_witness :
    ({ queues := fun _ => [], useBasicPolicy := true } : AbortHandler Nat).basicPolicy
      fourByFour 14 { val := 1, retries := 6 } =
    ({ queues := fun _ => [], useBasicPolicy := true } : AbortHandler Nat).pushRemote
      (fourByFour.getLeaderForPackage (fourByFour.getPackage 13 / 2))
      { val := 1, retries := 6 } :=
  (basicPolicy_destination fourByFour 13
    ({ queues := fun _ => [], useBasicPolicy := true } : AbortHandler Nat)
    { val := 0, retries := 2 }).2.1 14 { val := 1, retries := 6 } (by decide)

theorem journey_push (tp : ThreadPool) (tid : Nat) (h : AbortHandler V) (v : V) (k : Nat) :
    h.push tp (journey tp h.useBasicPolicy tid k).1
        { val := v, retries := (journey tp h.useBasicPolicy tid k).2 } =
      h.pushRemote (journey tp h.useBasicPolicy tid (k + 1)).1
        { val := v, retries := (journey tp h.useBasicPolicy tid (k + 1)).2 } := by
  rw [push_eq]
  rfl

/-- C19: on the 4 by 4 topology the handler selects the Basic policy; for a
thread of package p >= 1 an item that keeps aborting, each retry run by the
thread whose queue received it, is placed by the second push in the queue of a
thread of package floor(p/2), a different package.  The same crossing happens
within 7 pushes under the Doubling policy.  The journey is the one the
handler's pushes make. -/
theorem escalation_crosses_packages (tid : Nat) (ht : tid < 16)
    (hp : 1 ≤ fourByFour.getPackage tid) :
    (AbortHandler.new fourByFour : AbortHandler V).useBasicPolicy = true ∧
    (∀ b : Bool, ∃ k, k ≤ 6 ∧
      fourByFour.getPackage (journey fourByFour b tid k).1 = fourByFour.getPackage tid / 2 ∧
      fourByFour.getPackage (journey fourByFour b tid k).1 ≠ fourByFour.getPackage tid) ∧
    (fourByFour.getPackage (journey fourByFour true tid 1).1 = fourByFour.getPackage tid / 2) ∧
    (∀ (h : AbortHandler V) (v : V),
      h.pushPopped fourByFour tid (Sum.inl v) =
        h.pushRemote (journey fourByFour h.useBasicPolicy tid 0).1
          { val := v, retries := (journey fourByFour h.useBasicPolicy tid 0).2 }) ∧
    (∀ (h : AbortHandler V) (v : V) (k : Nat),
      h.push fourByFour (journey fourByFour h.useBasicPolicy tid k).1
          { val := v, retries := (journey fourByFour h.useBasicPolicy tid k).2 } =
        h.pushRemote (journey fourByFour h.useBasicPolicy tid (k + 1)).1
          { val := v, retries := (journey fourByFour h.useBasicPolicy tid (k + 1)).2 }) := by
  have hp4 : 4 ≤ tid := by
    simp only [fourByFour] at hp
    omega
  refine ⟨by simp [AbortHandler.new, fourByFour], fun b => ?_, ?_, fun h v => rfl,
    fun h v k => journey_push fourByFour tid h v k⟩
  · cases b with
    | true =>
      refine ⟨1, by omega, ?_, ?_⟩
      · simp only [journey, pushDest, if_true, basicDest, fourByFour]
        omega
      · simp only [journey, pushDest, if_true, basicDest, fourByFour]
        omega
    | false =>
      interval_cases tid <;>
        first
          | exact ⟨2, by decide⟩
          | exact ⟨4, by decide⟩
          | exact ⟨6, by decide⟩
  · simp only [journey, pushDest, if_true, basicDest, fourByFour]
    omega

/-- Witness for C19: thread 7 (package 1); its item reaches package 0. -/
theorem escalation_crosses_packages_witness :
    fourByFour.getPackage (journey fourByFour true 7 1).1 = fourByFour.getPackage 7 / 2 :=
  (escalation_crosses_packages (V := Nat) 7 (by decide) (by decide)).2.2.1

/-! ## Containment of the conflict and order of the queues in a round -/

theorem runActions_no_cnx (script : List (UserAction V A)) :
    ∀ st : ExecState V A, st.thread_cnx = none →
      (runActions st script).1 = Signal.returned := by
  induction script with
  | nil => intro st _; rfl
  | cons a rest ih =>
    intro st hc
    have h1 : (userStep st a).1 = Signal.returned := by
      cases a with
      | acquire L => simp [userStep, hc, doAcquire]
      | push v =>
        simp only [userStep]
        split <;> rfl
      | breakLoop => rfl
      | update f => rfl
    rw [runActions_cons, if_pos h1]
    exact ih _ ((userStep_frame st a).2.2.2.2.2.1.trans hc)

theorem doProcess_no_cnx (cfg : Traits) (function : FunctionTy V A) (cfuel : Nat) (val : V)
    (st st' : ExecState V A) (sig : Signal) (hc : st.thread_cnx = none)
    (h : doProcess cfg function cfuel val st = some (sig, st')) :
    sig = Signal.returned ∧ st'.thread_cnx = none := by
  have hfr := (doProcess_frame cfg function cfuel val st sig st' h).1
  refine ⟨?_, hfr.2.2.2.1.trans hc⟩
  rw [doProcess_eq] at h
  have hb : (beginAttempt cfg st).thread_cnx = none :=
    (beginAttempt_frame cfg st).1.2.2.2.1.trans hc
  have hret := runActions_no_cnx (function val st.app) (beginAttempt cfg st) hb
  rw [if_pos hret] at h
  cases hcm : commitIteration cfg cfuel
      (runActions (beginAttempt cfg st) (function val st.app)).2 with
  | none => rw [hcm] at h; cases h
  | some x =>
    rw [hcm] at h
    simp only [Option.map_some', Option.some.injEq, Prod.mk.injEq] at h
    exact h.1.symm

theorem runQueueSimple_no_cnx (cfg : Traits) (function : FunctionTy V A) (tid cfuel : Nat) :
    ∀ (fuel : Nat) (st st' : ExecState V A) (sig : Signal), st.thread_cnx = none →
      runQueueSimple cfg function tid cfuel fuel st = some (sig, st') →
      sig = Signal.returned := by
  intro fuel
  induction fuel with
  | zero => intro st st' sig _ h; simp [runQueueSimple] at h
  | succ f ih =>
    intro st st' sig hc h
    rw [runQueueSimple] at h
    cases hpop : pop tid st WL.work with
    | none =>
      rw [hpop] at h
      simp only [Option.some.injEq, Prod.mk.injEq] at h
      exact h.1.symm
    | some x =>
      obtain ⟨p, st1⟩ := x
      rw [hpop] at h
      simp only at h
      have hc1 : st1.thread_cnx = none :=
        (pop_frame tid st st1 WL.work p hpop).2.2.2.2.2.trans hc
      cases hdo : doProcess cfg function cfuel (AbortHandler.value p) st1 with
      | none => rw [hdo] at h; cases h
      | some r =>
        obtain ⟨sig2, st2⟩ := r
        obtain ⟨hs, hc2⟩ := doProcess_no_cnx cfg function cfuel _ st1 st2 sig2 hc1 hdo
        subst hs
        rw [hdo] at h
        exact ih st2 st' sig hc2 h

/-- The loop of `runQueue` ends without a pending item only by returning, and
on the work list it leaves the abort handler alone. -/
theorem runQueueLoop_frame (cfg : Traits) (function : FunctionTy V A) (tid limit : Nat)
    (lwl : WL) (cfuel : Nat) :
    ∀ (fuel num : Nat) (st : ExecState V A) (sig : Signal) (st' : ExecState V A)
      (op : Option (Popped V)),
      runQueueLoop cfg function tid limit lwl cfuel fuel num st = some (sig, st', op) →
      (op = none → sig = Signal.returned) ∧ (lwl = WL.work → st'.aborted = st.aborted) := by
  intro fuel
  induction fuel with
  | zero => intro num st sig st' op h; simp [runQueueLoop] at h
  | succ f ih =>
    intro num st sig st' op h
    rw [runQueueLoop_succ] at h
    have stop : some (Signal.returned, st, (none : Option (Popped V))) = some (sig, st', op) →
        (op = none → sig = Signal.returned) ∧ (lwl = WL.work → st'.aborted = st.aborted) := by
      intro e
      simp only [Option.some.injEq, Prod.mk.injEq] at e
      obtain ⟨rfl, rfl, rfl⟩ := e
      exact ⟨fun _ => rfl, fun _ => rfl⟩
    split at h
    · cases hpop : pop tid st lwl with
      | none => rw [hpop] at h; exact stop h
      | some x =>
        obtain ⟨p, st1⟩ := x
        rw [hpop] at h
        simp only at h
        have e1 := (pop_frame tid st st1 lwl p hpop).1
        cases hdo : doProcess cfg function cfuel (AbortHandler.value p) st1 with
        | none => rw [hdo] at h; cases h
        | some r =>
          obtain ⟨sig2, st2⟩ := r
          rw [hdo] at h
          simp only at h
          have f1 := (doProcess_frame cfg function cfuel _ st1 _ st2 hdo).1
          have hab : lwl = WL.work → st2.aborted = st.aborted := by
            intro hl
            subst hl
            rw [f1.2.2.1, e1]
            rfl
          by_cases hs : sig2 = Signal.returned
          · rw [if_pos hs] at h
            obtain ⟨g1, g2⟩ := ih _ st2 sig st' op h
            exact ⟨g1, fun hl => (g2 hl).trans (hab hl)⟩
          · rw [if_neg hs] at h
            simp only [Option.some.injEq, Prod.mk.injEq] at h
            obtain ⟨rfl, rfl, rfl⟩ := h
            exact ⟨fun hn => Option.noConfusion hn, hab⟩
    · exact stop h

theorem abortIteration_signal (cfg : Traits) (tp : ThreadPool) (tid cfuel : Nat)
    (p : Popped V) (st st' : ExecState V A) (sig : Signal)
    (h : abortIteration cfg tp tid cfuel p st = some (sig, st')) : sig ≠ Signal.conflict := by
  unfold abortIteration at h
  split at h
  · simp only [Option.some.injEq, Prod.mk.injEq] at h
    rw [← h.1]
    simp
  · split at h
    · cases h
    · simp only [Option.some.injEq, Prod.mk.injEq] at h
      rw [← h.1]
      simp

theorem runQueue_no_conflict (cfg : Traits) (tp : ThreadPool) (function : FunctionTy V A)
    (tid limit : Nat) (lwl : WL) (cfuel fuel : Nat) (st st' : ExecState V A) (sig : Signal)
    (h : runQueue cfg tp function tid limit lwl cfuel fuel st = some (sig, st')) :
    sig ≠ Signal.conflict := by
  rw [runQueue_eq] at h
  cases hloop : runQueueLoop cfg function tid limit lwl cfuel fuel 0 st with
  | none => rw [hloop] at h; cases h
  | some r =>
    obtain ⟨sig1, st1, op⟩ := r
    rw [hloop] at h
    simp only at h
    have hfr := (runQueueLoop_frame cfg function tid limit lwl cfuel fuel 0 st sig1 st1 op
      hloop).1
    by_cases hc : sig1 = Signal.conflict
    · rw [if_pos hc] at h
      cases op with
      | none =>
        have := hfr rfl
        rw [hc] at this
        cases this
      | some p => exact abortIteration_signal cfg tp tid cfuel p st1 st' sig h
    · rw [if_neg hc] at h
      simp only [Option.some.injEq, Prod.mk.injEq] at h
      rw [← h.1]
      exact hc

/-- A returning `runQueue` on the work list takes nothing from the calling
thread's abort queue; it can only append the aborted item to it. -/
theorem runQueue_work_aborted (cfg : Traits) (tp : ThreadPool) (function : FunctionTy V A)
    (tid limit : Nat) (cfuel fuel : Nat) (st st' : ExecState V A) (sig : Signal)
    (h : runQueue cfg tp function tid limit WL.work cfuel fuel st = some (sig, st'))
    (hs : sig ≠ Signal.assertFailed) :
    ∃ extra, st'.aborted.queues tid = st.aborted.queues tid ++ extra := by
  rw [runQueue_eq] at h
  cases hloop : runQueueLoop cfg function tid limit WL.work cfuel fuel 0 st with
  | none => rw [hloop] at h; cases h
  | some r =>
    obtain ⟨sig1, st1, op⟩ := r
    rw [hloop] at h
    simp only at h
    have hfr := (runQueueLoop_frame cfg function tid limit WL.work cfuel fuel 0 st sig1 st1 op
      hloop).2 rfl
    have same : some (sig1, st1) = some (sig, st') →
        ∃ extra, st'.aborted.queues tid = st.aborted.queues tid ++ extra := by
      intro e
      simp only [Option.some.injEq, Prod.mk.injEq] at e
      rw [← e.2, hfr]
      exact ⟨[], by simp⟩
    by_cases hc : sig1 = Signal.conflict
    · rw [if_pos hc] at h
      cases op with
      | none => exact same h
      | some p =>
        simp only at h
        have haf := abortIteration_frame cfg tp tid cfuel p st1 st' sig h hs
        obtain ⟨d, it, _, hpush⟩ := pushPopped_dest tp tid st1.aborted p
        rw [haf.2.2.2.2.2.1, hpush, hfr]
        by_cases hd : tid = d
        · subst hd
          exact ⟨[it], (pushRemote_queues _ _ _).1⟩
        · exact ⟨[], by rw [(pushRemote_queues _ _ _).2.1 tid hd]; simp⟩
    · rw [if_neg hc] at h
      exact same h

/-- C11: a conflict thrown during a user operation never leaves runQueue: no
call of runQueue ends with the conflict signal; when the loop is left by a
conflict, there is an item p being processed and runQueue is exactly
abortIteration of p in the state of the throw; with aborts enabled that
abortIteration returns, having counted the conflict and handed p to the
abort handler.  Nor does a conflict leave a round of go: the rounds that
call runQueue catch it, and the round that calls runQueueSimple runs without
a thread context, where acquire is never reached. -/
theorem conflict_contained (cfg : Traits) (tp : ThreadPool) (function : FunctionTy V A)
    (tid : Nat) :
    (∀ (limit : Nat) (lwl : WL) (cfuel fuel : Nat) (st st' : ExecState V A) (sig : Signal),
      runQueue cfg tp function tid limit lwl cfuel fuel st = some (sig, st') →
      sig ≠ Signal.conflict) ∧
    (∀ (limit : Nat) (lwl : WL) (cfuel fuel : Nat) (st stc : ExecState V A)
      (op : Option (Popped V)),
      runQueueLoop cfg function tid limit lwl cfuel fuel 0 st = some (Signal.conflict, stc, op) →
      ∃ p, op = some p ∧
        runQueue cfg tp function tid limit lwl cfuel fuel st =
          abortIteration cfg tp tid cfuel p stc) ∧
    (∀ (cfuel : Nat) (p : Popped V) (stc st' : ExecState V A) (sig : Signal),
      cfg.needsAborts = true → abortIteration cfg tp tid cfuel p stc = some (sig, st') →
      sig = Signal.returned ∧ st'.aborted = stc.aborted.pushPopped tp tid p ∧
      st'.tld.stat_conflicts = (stc.tld.stat_conflicts + 1) % 18446744073709551616) ∧
    (∀ (couldAbort isLeader : Bool) (cfuel fuel : Nat) (st st' : ExecState V A) (sig : Signal),
      (couldAbort = false → st.thread_cnx = none) →
      goRound cfg tp function tid couldAbort isLeader cfuel fuel st = some (sig, st') →
      sig ≠ Signal.conflict) := by
  refine ⟨fun limit lwl cfuel fuel st st' sig h =>
      runQueue_no_conflict cfg tp function tid limit lwl cfuel fuel st st' sig h,
    fun limit lwl cfuel fuel st stc op h => ?_,
    fun cfuel p stc st' sig ha h => ?_,
    fun couldAbort isLeader cfuel fuel st st' sig hcx h => ?_⟩
  · have hfr := (runQueueLoop_frame cfg function tid limit lwl cfuel fuel 0 st _ stc op h).1
    cases op with
    | none =>
      have := hfr rfl
      cases this
    | some p =>
      refine ⟨p, rfl, ?_⟩
      rw [runQueue_eq, h]
      simp
  · have hne : sig ≠ Signal.assertFailed := by
      unfold abortIteration at h
      simp only [ha, Bool.true_eq_false, if_false] at h
      split at h
      · cases h
      · simp only [Option.some.injEq, Prod.mk.injEq] at h
        rw [← h.1]
        simp
    have haf := abortIteration_frame cfg tp tid cfuel p stc st' sig h hne
    exact ⟨haf.1, haf.2.2.2.2.2.1, haf.2.2.2.2.1⟩
  · unfold goRound at h
    split at h
    · simp only at h
      cases hq : runQueue cfg tp function tid (if cfg.needsBreak = true ∨ isLeader = true
          then 64 else 0) WL.work cfuel fuel st with
      | none => rw [hq] at h; cases h
      | some r =>
        obtain ⟨sig1, st1⟩ := r
        have h1 := runQueue_no_conflict cfg tp function tid _ WL.work cfuel fuel st st1 sig1 hq
        rw [hq] at h
        cases sig1 with
        | returned =>
          simp only at h
          split at h
          · exact runQueue_no_conflict cfg tp function tid 0 WL.aborts cfuel fuel st1 st' sig h
          · simp only [Option.some.injEq, Prod.mk.injEq] at h
            rw [← h.1]
            simp
        | conflict => exact absurd rfl h1
        | assertFailed =>
          simp only [Option.some.injEq, Prod.mk.injEq] at h
          rw [← h.1]
          simp
    · rename_i hno
      have hca : couldAbort = false := by
        cases couldAbort with
        | false => rfl
        | true => exact absurd (Or.inl rfl) hno
      have := runQueueSimple_no_cnx cfg function tid cfuel fuel st st' sig (hcx hca) h
      rw [this]
      simp

/-- Witness for C11 (scenario C): the loop is left by the conflict of item 10
and runQueue is the abort of that item. -/
theorem conflict_contained_witness :
    runQueueLoop defaultTraits pushThreeThenTouch 0 64 WL.work 5 1 0
      (sampleState (acquire initMemory 9 5).2) =
      some (Signal.conflict, sampleConflict, some (Sum.inl 10)) ∧
    ∃ p, some (Sum.inl 10) = some p ∧
      runQueue defaultTraits onePackage pushThreeThenTouch 0 64 WL.work 5 1
        (sampleState (acquire initMemory 9 5).2) =
        abortIteration defaultTraits onePackage 0 5 p sampleConflict :=
  ⟨rfl, (conflict_contained defaultTraits onePackage pushThreeThenTouch 0).2.1 64 WL.work 5 1
    (sampleState (acquire initMemory 9 5).2) sampleConflict (some (Sum.inl 10)) rfl⟩

/-- C20 (as the code has it): in a round of a thread that can abort, the
work list is run first (runQueue with batch limit 64 for a leader or with
break, without limit otherwise) and the thread's local abort queue only after
that call has returned (handleAborts): the first call takes nothing from the
abort queue, it can only append to it.  A thread that cannot abort runs the
work list only. -/
theorem work_list_before_aborts (cfg : Traits) (tp : ThreadPool) (function : FunctionTy V A)
    (tid : Nat) (isLeader : Bool) (cfuel fuel : Nat) (st : ExecState V A) :
    (∀ (st' : ExecState V A) (sig : Signal),
      goRound cfg tp function tid true isLeader cfuel fuel st = some (sig, st') →
      sig ≠ Signal.assertFailed →
      ∃ st1, runQueue cfg tp function tid (if cfg.needsBreak = true ∨ isLeader = true
            then 64 else 0) WL.work cfuel fuel st = some (Signal.returned, st1) ∧
        (∃ extra, st1.aborted.queues tid = st.aborted.queues tid ++ extra) ∧
        runQueue cfg tp function tid 0 WL.aborts cfuel fuel st1 = some (sig, st')) ∧
    (goRound cfg tp function tid false isLeader cfuel fuel st =
      if cfg.needsBreak = true then
        runQueue cfg tp function tid 64 WL.work cfuel fuel st
      else runQueueSimple cfg function tid cfuel fuel st) := by
  constructor
  · intro st' sig h hs
    unfold goRound at h
    simp only [true_or, if_true] at h
    cases hq : runQueue cfg tp function tid (if cfg.needsBreak = true ∨ isLeader = true
        then 64 else 0) WL.work cfuel fuel st with
    | none => rw [hq] at h; cases h
    | some r =>
      obtain ⟨sig1, st1⟩ := r
      have h1 := runQueue_no_conflict cfg tp function tid _ WL.work cfuel fuel st st1 sig1 hq
      rw [hq] at h
      cases sig1 with
      | returned =>
        simp only at h
        exact ⟨st1, rfl, runQueue_work_aborted cfg tp function tid _ cfuel fuel st st1 _ hq
          (by simp), h⟩
      | conflict => exact absurd rfl h1
      | assertFailed =>
        simp only [Option.some.injEq, Prod.mk.injEq] at h
        exact absurd h.1.symm hs
  · unfold goRound
    by_cases hb : cfg.needsBreak = true
    · simp only [hb, or_true, true_or, if_true, Bool.false_eq_true, if_false]
      cases runQueue cfg tp function tid 64 WL.work cfuel fuel st with
      | none => rfl
      | some r =>
        obtain ⟨sig1, st1⟩ := r
        cases sig1 <;> rfl
    · simp [hb]

/-- Witness for C20 as amended: a leader's round on the state with item 10 in
the work list and item 20 in the abort queue. -/
theorem work_list_before_aborts_witness :
    goRound defaultTraits onePackage logItem 0 true true 5 5 sampleRetry =
      some (Signal.returned, sampleRound) ∧
    ∃ st1, runQueue defaultTraits onePackage logItem 0 (if defaultTraits.needsBreak = true ∨
          true = true then 64 else 0) WL.work 5 5 sampleRetry = some (Signal.returned, st1) ∧
      (∃ extra, st1.aborted.queues 0 = sampleRetry.aborted.queues 0 ++ extra) ∧
      runQueue defaultTraits onePackage logItem 0 0 WL.aborts 5 5 st1 =
        some (Signal.returned, sampleRound) :=
  ⟨rfl, (work_list_before_aborts defaultTraits onePackage logItem 0 true 5 5 sampleRetry).1
    sampleRound Signal.returned rfl (by decide)⟩

/-- Counterexample to C20 as stated: with item 10 in the work list and the
previously aborted item 20 waiting in the abort queue, one round attempts 10
first and 20 after it. -/
theorem retry_priority_counterexample :
    sampleRetry.wl = [10] ∧ sampleRetry.aborted.queues 0 = [{ val := 20, retries := 1 }] ∧
    (goRound defaultTraits onePackage logItem 0 true true 5 5 sampleRetry).map
      (fun r => r.2.app) = some [10, 20] ∧
    (goRound defaultTraits onePackage logItem 0 true true 5 5 sampleRetry).map
      (fun r => r.2.app) ≠ some [20, 10] := by
  refine ⟨rfl, by decide, by decide, by decide⟩

/-! ## The rounds of `go` -/

/-- How many attempts the loop of `runQueue` makes: at most one for each unit
of fuel, none exactly when the first test or the first pop fails, and the
iteration counter grows by their number. -/
theorem runQueueLoop_count (cfg : Traits) (function : FunctionTy V A) (tid limit : Nat)
    (lwl : WL) (cfuel : Nat) :
    ∀ (fuel num : Nat) (st : ExecState V A) (sig : Signal) (st' : ExecState V A)
      (op : Option (Popped V)),
      st.tld.stat_iterations < 18446744073709551616 →
      runQueueLoop cfg function tid limit lwl cfuel fuel num st = some (sig, st', op) →
      ∃ k, st'.tld.stat_iterations = (st.tld.stat_iterations + k) % 18446744073709551616 ∧
        k ≤ fuel ∧
        (k = 0 ↔ (queueOf tid st lwl = [] ∨ ¬ (limit = 0 ∨ num < limit))) ∧
        (k = 0 → st' = st ∧ sig = Signal.returned ∧ op = none) := by
  intro fuel
  induction fuel with
  | zero => intro num st sig st' op _ h; simp [runQueueLoop] at h
  | succ f ih =>
    intro num st sig st' op hit h
    rw [runQueueLoop_succ] at h
    split at h
    · rename_i hcond
      cases hpop : pop tid st lwl with
      | none =>
        rw [hpop] at h
        have hq : queueOf tid st lwl = [] := by
          unfold pop at hpop
          split at hpop
          · assumption
          · cases hpop
        simp only [Option.some.injEq, Prod.mk.injEq] at h
        obtain ⟨rfl, rfl, rfl⟩ := h
        refine ⟨0, ?_, Nat.zero_le _, ?_, fun _ => ⟨rfl, rfl, rfl⟩⟩
        · simp only [Nat.add_zero]
          exact (Nat.mod_eq_of_lt hit).symm
        · simp [hq]
      | some x =>
        obtain ⟨p, st1⟩ := x
        rw [hpop] at h
        simp only at h
        have e1 := pop_frame tid st st1 lwl p hpop
        have hq : queueOf tid st lwl ≠ [] := by rw [e1.2.1]; simp
        cases hdo : doProcess cfg function cfuel (AbortHandler.value p) st1 with
        | none => rw [hdo] at h; cases h
        | some r =>
          obtain ⟨sig2, st2⟩ := r
          rw [hdo] at h
          simp only at h
          have f1 := (doProcess_frame cfg function cfuel _ st1 _ st2 hdo).2.1
          rw [e1.2.2.2.1] at f1
          have hit2 : st2.tld.stat_iterations < 18446744073709551616 := by
            rw [f1]; exact Nat.mod_lt _ (by decide)
          by_cases hs : sig2 = Signal.returned
          · rw [if_pos hs] at h
            obtain ⟨k, g1, g2, _, _⟩ := ih _ st2 sig st' op hit2 h
            refine ⟨k + 1, ?_, by omega, ?_, fun hk => absurd hk (by omega)⟩
            · rw [g1, f1]; omega
            · constructor
              · intro hk; omega
              · intro hk
                rcases hk with hk | hk
                · exact absurd hk hq
                · exact absurd hcond hk
          · rw [if_neg hs] at h
            simp only [Option.some.injEq, Prod.mk.injEq] at h
            obtain ⟨rfl, rfl, rfl⟩ := h
            refine ⟨1, f1, by omega, ?_, fun hk => absurd hk (by omega)⟩
            constructor
            · intro hk; omega
            · intro hk
              rcases hk with hk | hk
              · exact absurd hk hq
              · exact absurd hcond hk
    · rename_i hcond
      simp only [Option.some.injEq, Prod.mk.injEq] at h
      obtain ⟨rfl, rfl, rfl⟩ := h
      refine ⟨0, ?_, Nat.zero_le _, ?_, fun _ => ⟨rfl, rfl, rfl⟩⟩
      · simp only [Nat.add_zero]
        exact (Nat.mod_eq_of_lt hit).symm
      · simp [hcond]

/-- The attempts of one call of `runQueue`: `abortIteration` adds none. -/
theorem runQueue_count (cfg : Traits) (tp : ThreadPool) (function : FunctionTy V A)
    (tid limit : Nat) (lwl : WL) (cfuel fuel : Nat) (st st' : ExecState V A) (sig : Signal)
    (hit : st.tld.stat_iterations < 18446744073709551616)
    (h : runQueue cfg tp function tid limit lwl cfuel fuel st = some (sig, st')) :
    ∃ k, st'.tld.stat_iterations = (st.tld.stat_iterations + k) % 18446744073709551616 ∧
      k ≤ fuel ∧ (k = 0 ↔ (queueOf tid st lwl = [] ∨ (limit ≠ 0 ∧ limit ≤ 0))) ∧
      (k = 0 → st' = st ∧ sig = Signal.returned) := by
  rw [runQueue_eq] at h
  cases hloop : runQueueLoop cfg function tid limit lwl cfuel fuel 0 st with
  | none => rw [hloop] at h; cases h
  | some r =>
    obtain ⟨sig1, st1, op⟩ := r
    rw [hloop] at h
    simp only at h
    obtain ⟨k, g1, g2, g3, g4⟩ :=
      runQueueLoop_count cfg function tid limit lwl cfuel fuel 0 st sig1 st1 op hit hloop
    have g3' : k = 0 ↔ (queueOf tid st lwl = [] ∨ (limit ≠ 0 ∧ limit ≤ 0)) := by
      rw [g3]
      constructor
      · rintro (hq | hq)
        · exact Or.inl hq
        · exact Or.inr (by omega)
      · rintro (hq | hq)
        · exact Or.inl hq
        · exact Or.inr (by omega)
    have same : some (sig1, st1) = some (sig, st') →
        ∃ k, st'.tld.stat_iterations =
            (st.tld.stat_iterations + k) % 18446744073709551616 ∧
          k ≤ fuel ∧ (k = 0 ↔ (queueOf tid st lwl = [] ∨ (limit ≠ 0 ∧ limit ≤ 0))) ∧
          (k = 0 → st' = st ∧ sig = Signal.returned) := by
      intro e
      simp only [Option.some.injEq, Prod.mk.injEq] at e
      obtain ⟨rfl, rfl⟩ := e
      exact ⟨k, g1, g2, g3', fun hk => ⟨(g4 hk).1, (g4 hk).2.1⟩⟩
    by_cases hc : sig1 = Signal.conflict
    · rw [if_pos hc] at h
      cases op with
      | none => exact same h
      | some p =>
        simp only at h
        have hk : k ≠ 0 := fun hk => Option.noConfusion (g4 hk).2.2
        refine ⟨k, ?_, g2, g3', fun hk0 => absurd hk0 hk⟩
        rw [← g1]
        unfold abortIteration at h
        split at h
        · simp only [Option.some.injEq, Prod.mk.injEq] at h
          rw [← h.2]
        · split at h
          · cases h
          · simp only [Option.some.injEq, Prod.mk.injEq] at h
            rw [← h.2]
            split <;> rfl
    · rw [if_neg hc] at h
      exact same h

/-- The attempts of `runQueueSimple`, which returns only when a pop fails. -/
theorem runQueueSimple_count (cfg : Traits) (function : FunctionTy V A) (tid cfuel : Nat) :
    ∀ (fuel : Nat) (st : ExecState V A) (sig : Signal) (st' : ExecState V A),
      st.tld.stat_iterations < 18446744073709551616 →
      runQueueSimple cfg function tid cfuel fuel st = some (sig, st') →
      ∃ k, st'.tld.stat_iterations = (st.tld.stat_iterations + k) % 18446744073709551616 ∧
        k ≤ fuel ∧ (k = 0 ↔ st.wl = []) ∧ (k = 0 → st' = st ∧ sig = Signal.returned) := by
  intro fuel
  induction fuel with
  | zero => intro st sig st' _ h; simp [runQueueSimple] at h
  | succ f ih =>
    intro st sig st' hit h
    rw [runQueueSimple] at h
    cases hpop : pop tid st WL.work with
    | none =>
      rw [hpop] at h
      have hq : st.wl = [] := by
        unfold pop at hpop
        split at hpop
        · rename_i hq
          simpa [queueOf] using hq
        · cases hpop
      simp only [Option.some.injEq, Prod.mk.injEq] at h
      obtain ⟨rfl, rfl⟩ := h
      refine ⟨0, ?_, Nat.zero_le _, by simp [hq], fun _ => ⟨rfl, rfl⟩⟩
      simp only [Nat.add_zero]
      exact (Nat.mod_eq_of_lt hit).symm
    | some x =>
      obtain ⟨p, st1⟩ := x
      rw [hpop] at h
      simp only at h
      have e1 := pop_frame tid st st1 WL.work p hpop
      have hq : st.wl ≠ [] := by
        intro hw
        have := e1.2.1
        simp [queueOf, hw] at this
      cases hdo : doProcess cfg function cfuel (AbortHandler.value p) st1 with
      | none => rw [hdo] at h; cases h
      | some r =>
        obtain ⟨sig2, st2⟩ := r
        rw [hdo] at h
        have f1 := (doProcess_frame cfg function cfuel _ st1 _ st2 hdo).2.1
        rw [e1.2.2.2.1] at f1
        have hit2 : st2.tld.stat_iterations < 18446744073709551616 := by
          rw [f1]; exact Nat.mod_lt _ (by decide)
        cases sig2 with
        | returned =>
          simp only at h
          obtain ⟨k, g1, g2, _, _⟩ := ih st2 sig st' hit2 h
          refine ⟨k + 1, ?_, by omega, ?_, fun hk => absurd hk (by omega)⟩
          · rw [g1, f1]; omega
          · simp [hq]
        | conflict =>
          simp only [Option.some.injEq, Prod.mk.injEq] at h
          obtain ⟨rfl, rfl⟩ := h
          exact ⟨1, f1, by omega, by simp [hq], fun hk => absurd hk (by omega)⟩
        | assertFailed =>
          simp only [Option.some.injEq, Prod.mk.injEq] at h
          obtain ⟨rfl, rfl⟩ := h
          exact ⟨1, f1, by omega, by simp [hq], fun hk => absurd hk (by omega)⟩

/-- The attempts of one round of `go`: the iteration counter stands still
exactly when the work list and, for a thread that can abort, its abort queue
were empty at the start of the round, and then the round changes nothing. -/
theorem goRound_count (cfg : Traits) (tp : ThreadPool) (function : FunctionTy V A) (tid : Nat)
    (couldAbort isLeader : Bool) (cfuel fuel : Nat) (st st' : ExecState V A) (sig : Signal)
    (hit : st.tld.stat_iterations < 18446744073709551616)
    (h : goRound cfg tp function tid couldAbort isLeader cfuel fuel st = some (sig, st')) :
    ∃ k, st'.tld.stat_iterations = (st.tld.stat_iterations + k) % 18446744073709551616 ∧
      k ≤ 2 * fuel ∧
      (k = 0 ↔ (st.wl = [] ∧ (couldAbort = true → st.aborted.queues tid = []))) ∧
      (k = 0 → st' = st ∧ sig = Signal.returned) := by
  have hwq : ∀ s : ExecState V A, queueOf tid s WL.work = [] ↔ s.wl = [] := by
    intro s; simp [queueOf]
  have haq : ∀ s : ExecState V A, queueOf tid s WL.aborts = [] ↔ s.aborted.queues tid = [] := by
    intro s; simp [queueOf]
  unfold goRound at h
  split at h
  · rename_i hrun
    have hlim : ∀ NUM : Nat, NUM = (if cfg.needsBreak = true ∨ isLeader = true then 64 else 0) →
        ¬ (NUM ≠ 0 ∧ NUM ≤ 0) := by
      intro NUM _ hn; omega
    simp only at h
    cases h1 : runQueue cfg tp function tid
        (if cfg.needsBreak = true ∨ isLeader = true then 64 else 0) WL.work cfuel fuel st with
    | none => rw [h1] at h; cases h
    | some r =>
      obtain ⟨sig1, st1⟩ := r
      rw [h1] at h
      obtain ⟨k1, a1, a2, a3, a4⟩ := runQueue_count cfg tp function tid _ WL.work cfuel fuel
        st st1 sig1 hit h1
      rw [hwq] at a3
      have a3' : k1 = 0 ↔ st.wl = [] := by
        rw [a3]
        constructor
        · rintro (hq | hq)
          · exact hq
          · exact absurd hq (hlim _ rfl)
        · exact fun hq => Or.inl hq
      have same : some (sig1, st1) = some (sig, st') → couldAbort = false →
          ∃ k, st'.tld.stat_iterations =
              (st.tld.stat_iterations + k) % 18446744073709551616 ∧
            k ≤ 2 * fuel ∧
            (k = 0 ↔ (st.wl = [] ∧ (couldAbort = true → st.aborted.queues tid = []))) ∧
            (k = 0 → st' = st ∧ sig = Signal.returned) := by
        intro e hca
        simp only [Option.some.injEq, Prod.mk.injEq] at e
        obtain ⟨rfl, rfl⟩ := e
        refine ⟨k1, a1, by omega, ?_, a4⟩
        rw [a3', hca]
        simp
      have other : sig1 ≠ Signal.returned → some (sig1, st1) = some (sig, st') →
          ∃ k, st'.tld.stat_iterations =
              (st.tld.stat_iterations + k) % 18446744073709551616 ∧
            k ≤ 2 * fuel ∧
            (k = 0 ↔ (st.wl = [] ∧ (couldAbort = true → st.aborted.queues tid = []))) ∧
            (k = 0 → st' = st ∧ sig = Signal.returned) := by
        intro hne e
        simp only [Option.some.injEq, Prod.mk.injEq] at e
        obtain ⟨rfl, rfl⟩ := e
        have hk : k1 ≠ 0 := fun hk => hne (a4 hk).2
        refine ⟨k1, a1, by omega, ?_, fun hk0 => absurd hk0 hk⟩
        constructor
        · intro hk0; exact absurd hk0 hk
        · intro hq; exact absurd (a3'.2 hq.1) hk
      cases sig1 with
      | returned =>
        simp only at h
        cases hca : couldAbort with
        | false =>
          rw [hca] at h
          simp only [Bool.false_eq_true, if_false] at h
          have := same h hca
          rw [hca] at this
          exact this
        | true =>
          rw [hca] at h
          simp only [if_true] at h
          unfold handleAborts at h
          have hit1 : st1.tld.stat_iterations < 18446744073709551616 := by
            rw [a1]; exact Nat.mod_lt _ (by decide)
          obtain ⟨k2, b1, b2, b3, b4⟩ := runQueue_count cfg tp function tid 0 WL.aborts cfuel
            fuel st1 st' sig hit1 h
          rw [haq] at b3
          have b3' : k2 = 0 ↔ st1.aborted.queues tid = [] := by
            rw [b3]
            constructor
            · rintro (hq | hq)
              · exact hq
              · exact absurd hq.1 (by simp)
            · exact fun hq => Or.inl hq
          refine ⟨k1 + k2, ?_, by omega, ?_, ?_⟩
          · rw [b1, a1]; omega
          · constructor
            · intro hk
              have hk1 : k1 = 0 := by omega
              have hk2 : k2 = 0 := by omega
              have e := (a4 hk1).1
              subst e
              exact ⟨a3'.1 hk1, fun _ => b3'.1 hk2⟩
            · rintro ⟨hq1, hq2⟩
              have hk1 : k1 = 0 := a3'.2 hq1
              have e := (a4 hk1).1
              subst e
              have hk2 : k2 = 0 := b3'.2 (hq2 rfl)
              omega
          · intro hk
            have hk1 : k1 = 0 := by omega
            have hk2 : k2 = 0 := by omega
            have e := (a4 hk1).1
            subst e
            exact b4 hk2
      | conflict => exact other (by simp) h
      | assertFailed => exact other (by simp) h
  · rename_i hrun
    have hca : couldAbort = false := by
      cases couldAbort with
      | false => rfl
      | true => exact absurd (Or.inl rfl) hrun
    obtain ⟨k, a1, a2, a3, a4⟩ := runQueueSimple_count cfg function tid cfuel fuel st sig st'
      hit h
    refine ⟨k, a1, by omega, ?_, a4⟩
    rw [a3, hca]
    simp

/-- What one call of `runQueue` takes from its queue: the items popped, at
most `limit` of them when `limit` is not 0, each counted as an iteration. -/
theorem runQueue_popped (cfg : Traits) (tp : ThreadPool) (function : FunctionTy V A)
    (tid limit : Nat) (cfuel fuel : Nat) (st st' : ExecState V A) (sig : Signal)
    (hit : st.tld.stat_iterations < 18446744073709551616)
    (h : runQueue cfg tp function tid limit WL.work cfuel fuel st = some (sig, st')) :
    ∃ popped added,
      queueOf tid st WL.work ++ added = popped ++ queueOf tid st' WL.work ∧
      (limit ≠ 0 → popped.length ≤ limit) ∧
      st'.tld.stat_iterations =
        (st.tld.stat_iterations + popped.length) % 18446744073709551616 := by
  rw [runQueue_eq] at h
  cases hloop : runQueueLoop cfg function tid limit WL.work cfuel fuel 0 st with
  | none => rw [hloop] at h; cases h
  | some r =>
    obtain ⟨sig1, st1, op⟩ := r
    rw [hloop] at h
    simp only at h
    obtain ⟨popped, added, g1, g2, _, g4, _⟩ :=
      runQueueLoop_spec cfg function tid limit WL.work cfuel fuel 0 st sig1 st1 op hit hloop
    have hb : limit ≠ 0 → popped.length ≤ limit := by
      intro hl
      have := g4 hl (Nat.zero_le _)
      omega
    have same : some (sig1, st1) = some (sig, st') →
        ∃ popped added,
          queueOf tid st WL.work ++ added = popped ++ queueOf tid st' WL.work ∧
          (limit ≠ 0 → popped.length ≤ limit) ∧
          st'.tld.stat_iterations =
            (st.tld.stat_iterations + popped.length) % 18446744073709551616 := by
      intro e
      simp only [Option.some.injEq, Prod.mk.injEq] at e
      obtain ⟨rfl, rfl⟩ := e
      exact ⟨popped, added, g1, hb, g2⟩
    by_cases hc : sig1 = Signal.conflict
    · rw [if_pos hc] at h
      cases op with
      | none => exact same h
      | some p =>
        simp only at h
        have e : st'.wl = st1.wl ∧ st'.tld.stat_iterations = st1.tld.stat_iterations := by
          unfold abortIteration at h
          split at h
          · simp only [Option.some.injEq, Prod.mk.injEq] at h
            rw [← h.2]
            exact ⟨rfl, rfl⟩
          · split at h
            · cases h
            · simp only [Option.some.injEq, Prod.mk.injEq] at h
              rw [← h.2]
              split <;> exact ⟨rfl, rfl⟩
        refine ⟨popped, added, ?_, hb, ?_⟩
        · rw [g1]; simp [queueOf, e.1]
        · rw [e.2, g2]
    · rw [if_neg hc] at h
      exact same h

/-- The loop of `runQueue` on the abort queue takes nothing from the work
list. -/
theorem runQueueLoop_aborts_wl (cfg : Traits) (function : FunctionTy V A) (tid limit : Nat)
    (cfuel : Nat) :
    ∀ (fuel num : Nat) (st : ExecState V A) (sig : Signal) (st' : ExecState V A)
      (op : Option (Popped V)),
      runQueueLoop cfg function tid limit WL.aborts cfuel fuel num st = some (sig, st', op) →
      ∃ added, st'.wl = st.wl ++ added := by
  intro fuel
  induction fuel with
  | zero => intro num st sig st' op h; simp [runQueueLoop] at h
  | succ f ih =>
    intro num st sig st' op h
    rw [runQueueLoop_succ] at h
    have stop : some (Signal.returned, st, (none : Option (Popped V))) = some (sig, st', op) →
        ∃ added, st'.wl = st.wl ++ added := by
      intro e
      simp only [Option.some.injEq, Prod.mk.injEq] at e
      rw [← e.2.1]
      exact ⟨[], by simp⟩
    split at h
    · cases hpop : pop tid st WL.aborts with
      | none => rw [hpop] at h; exact stop h
      | some x =>
        obtain ⟨p, st1⟩ := x
        rw [hpop] at h
        simp only at h
        have e1 : st1.wl = st.wl := by
          rw [(pop_frame tid st st1 WL.aborts p hpop).1]
          rfl
        cases hdo : doProcess cfg function cfuel (AbortHandler.value p) st1 with
        | none => rw [hdo] at h; cases h
        | some r =>
          obtain ⟨sig2, st2⟩ := r
          rw [hdo] at h
          simp only at h
          obtain ⟨a2, ha2⟩ := (doProcess_frame cfg function cfuel _ st1 _ st2 hdo).1.2.2.2.2.2
          by_cases hs : sig2 = Signal.returned
          · rw [if_pos hs] at h
            obtain ⟨a3, ha3⟩ := ih _ st2 sig st' op h
            exact ⟨a2 ++ a3, by rw [ha3, ha2, e1, List.append_assoc]⟩
          · rw [if_neg hs] at h
            simp only [Option.some.injEq, Prod.mk.injEq] at h
            rw [← h.2.1]
            exact ⟨a2, by rw [ha2, e1]⟩
    · exact stop h

/-- The call `handleAborts` takes nothing from the work list. -/
theorem handleAborts_wl (cfg : Traits) (tp : ThreadPool) (function : FunctionTy V A)
    (tid cfuel fuel : Nat) (st st' : ExecState V A) (sig : Signal)
    (h : handleAborts cfg tp function tid cfuel fuel st = some (sig, st')) :
    ∃ added, st'.wl = st.wl ++ added := by
  unfold handleAborts at h
  rw [runQueue_eq] at h
  cases hloop : runQueueLoop cfg function tid 0 WL.aborts cfuel fuel 0 st with
  | none => rw [hloop] at h; cases h
  | some r =>
    obtain ⟨sig1, st1, op⟩ := r
    rw [hloop] at h
    simp only at h
    obtain ⟨a1, ha1⟩ := runQueueLoop_aborts_wl cfg function tid 0 cfuel fuel 0 st sig1 st1 op hloop
    have same : some (sig1, st1) = some (sig, st') → ∃ added, st'.wl = st.wl ++ added := by
      intro e
      simp only [Option.some.injEq, Prod.mk.injEq] at e
      rw [← e.2]
      exact ⟨a1, ha1⟩
    by_cases hc : sig1 = Signal.conflict
    · rw [if_pos hc] at h
      cases op with
      | none => exact same h
      | some p =>
        simp only at h
        have e : st'.wl = st1.wl := by
          unfold abortIteration at h
          split at h
          · simp only [Option.some.injEq, Prod.mk.injEq] at h
            rw [← h.2]
          · split at h
            · cases h
            · simp only [Option.some.injEq, Prod.mk.injEq] at h
              rw [← h.2]
              split <;> rfl
        exact ⟨a1, by rw [e, ha1]⟩
    · rw [if_neg hc] at h
      exact same h

/-- C21 (amended): in a round of go that calls runQueue with the batch limit
64, which is every round of a leader thread that can abort and every round
when the parallel break is compiled in, the call on the work list pops at
most 64 items before the next termination vote (the iteration counter being
in its 64-bit range), however long the work list is, and the call of
handleAborts that follows takes nothing more from the work list. -/
theorem batch_bounded_with_limit (cfg : Traits) (tp : ThreadPool) (function : FunctionTy V A)
    (tid : Nat) (couldAbort isLeader : Bool) (cfuel fuel : Nat) (st st' : ExecState V A)
    (sig : Signal)
    (hrun : couldAbort = true ∨ cfg.needsBreak = true)
    (hlim : cfg.needsBreak = true ∨ isLeader = true)
    (hit : st.tld.stat_iterations < 18446744073709551616)
    (h : goRound cfg tp function tid couldAbort isLeader cfuel fuel st = some (sig, st')) :
    ∃ sig1 st1 popped added later,
      runQueue cfg tp function tid 64 WL.work cfuel fuel st = some (sig1, st1) ∧
      queueOf tid st WL.work ++ added = popped ++ queueOf tid st1 WL.work ∧
      popped.length ≤ 64 ∧
      st1.tld.stat_iterations =
        (st.tld.stat_iterations + popped.length) % 18446744073709551616 ∧
      st'.wl = st1.wl ++ later := by
  unfold goRound at h
  rw [if_pos hrun] at h
  simp only [if_pos hlim] at h
  cases h1 : runQueue cfg tp function tid 64 WL.work cfuel fuel st with
  | none => rw [h1] at h; cases h
  | some r =>
    obtain ⟨sig1, st1⟩ := r
    rw [h1] at h
    obtain ⟨popped, added, g1, g2, g3⟩ :=
      runQueue_popped cfg tp function tid 64 cfuel fuel st st1 sig1 hit h1
    have same : some (sig1, st1) = some (sig, st') → ∃ later, st'.wl = st1.wl ++ later := by
      intro e
      simp only [Option.some.injEq, Prod.mk.injEq] at e
      rw [← e.2]
      exact ⟨[], by simp⟩
    have hl : ∃ later, st'.wl = st1.wl ++ later := by
      cases sig1 with
      | returned =>
        simp only at h
        split at h
        · exact handleAborts_wl cfg tp function tid cfuel fuel st1 st' sig h
        · exact same h
      | conflict => exact same h
      | assertFailed => exact same h
    obtain ⟨later, hlater⟩ := hl
    exact ⟨sig1, st1, popped, added, later, rfl, g1, g2 (by decide), g3, hlater⟩

/-- Witness for C21 as amended: a leader that can abort, with 65 items in its
work list, pops 64 of them in one round. -/
theorem batch_bounded_with_limit_witness :
    sampleCrowdRound.wl = [64] ∧
    ∃ sig1 st1 popped added later,
      runQueue defaultTraits onePackage logItem 0 64 WL.work 5 100 sampleCrowd =
        some (sig1, st1) ∧
      queueOf 0 sampleCrowd WL.work ++ added = popped ++ queueOf 0 st1 WL.work ∧
      popped.length ≤ 64 ∧
      st1.tld.stat_iterations =
        (sampleCrowd.tld.stat_iterations + popped.length) % 18446744073709551616 ∧
      sampleCrowdRound.wl = st1.wl ++ later :=
  ⟨by decide, batch_bounded_with_limit defaultTraits onePackage logItem 0 true true 5 100
    sampleCrowd sampleCrowdRound Signal.returned (Or.inl rfl) (Or.inr rfl) (by decide) rfl⟩

set_option maxRecDepth 100000 in
/-- Counterexample to C21 as stated: with 65 items in the work list, one round
of a thread that is not a leader (it calls runQueue with limit 0), and one
round of a leader that cannot abort (it calls runQueueSimple), each pop all
65 items before the next termination vote. -/
theorem batch_bound_counterexample :
    sampleCrowd.wl.length = 65 ∧
    (goRound defaultTraits onePackage logItem 1 true false 5 100 sampleCrowd).map
      (fun r => (r.2.wl, r.2.tld.stat_iterations, r.2.app.length)) = some ([], 65, 65) ∧
    (goRound defaultTraits onePackage logItem 0 false true 5 100 (sampleWork 65)).map
      (fun r => (r.2.wl, r.2.tld.stat_iterations, r.2.app.length)) = some ([], 65, 65) := by
  refine ⟨by decide, ?_, ?_⟩
  · rfl
  · rfl

/-! ## The passes of `go` -/

/-- A pass of `go` that ends without an exception, spelled out: the round
returned, the vote and the poll were made, and one of four things followed. -/
theorem goPass_cases {T : Type} (cfg : Traits) (tp : ThreadPool) (function : FunctionTy V A)
    (tid : Nat) (couldAbort isLeader wlHasEmpty : Bool) (td : TerminationDetection T)
    (cfuel qfuel : Nat) (s s1 : GoState V A T) (leave : Bool)
    (h : goPass cfg tp function tid couldAbort isLeader wlHasEmpty td cfuel qfuel s =
      some (Signal.returned, s1, leave)) :
    goRound cfg tp function tid couldAbort isLeader cfuel qfuel s.st =
      some (Signal.returned, s1.st) ∧
    s1.old_iterations = s1.st.tld.stat_iterations ∧
    ∃ didWork g,
      didWork = decide (s.old_iterations ≠ s1.st.tld.stat_iterations) ∧
      g = td.globalTermination (td.localTermination s.term didWork) ∧
      ((g.1 = false ∧ (cfg.needsBreak = false ∨ s1.st.broke = false) ∧ leave = false ∧
          s1.term = g.2 ∧
          s1.calls = s.calls ++
            [TermCall.localTermination didWork, TermCall.globalTermination g.1]) ∨
        (¬ (g.1 = false ∧ (cfg.needsBreak = false ∨ s1.st.broke = false)) ∧
          checkEmpty wlHasEmpty s1.st = true ∧ leave = true ∧ s1.term = g.2 ∧
          s1.calls = s.calls ++
            [TermCall.localTermination didWork, TermCall.globalTermination g.1]) ∨
        (¬ (g.1 = false ∧ (cfg.needsBreak = false ∨ s1.st.broke = false)) ∧
          checkEmpty wlHasEmpty s1.st = false ∧
          (cfg.needsBreak = true ∧ s1.st.broke = true) ∧ leave = true ∧ s1.term = g.2 ∧
          s1.calls = s.calls ++
            [TermCall.localTermination didWork, TermCall.globalTermination g.1]) ∨
        (¬ (g.1 = false ∧ (cfg.needsBreak = false ∨ s1.st.broke = false)) ∧
          checkEmpty wlHasEmpty s1.st = false ∧
          ¬ (cfg.needsBreak = true ∧ s1.st.broke = true) ∧ leave = false ∧
          s1.term = td.initializeThread g.2 ∧
          s1.calls = s.calls ++
            [TermCall.localTermination didWork, TermCall.globalTermination g.1,
              TermCall.initializeThread, TermCall.barrierWait])) := by
  unfold goPass at h
  cases hr : goRound cfg tp function tid couldAbort isLeader cfuel qfuel s.st with
  | none => rw [hr] at h; cases h
  | some r =>
    obtain ⟨sig1, st1⟩ := r
    rw [hr] at h
    cases sig1 with
    | returned =>
      simp only at h
      split at h
      · rename_i hc
        simp only [Option.some.injEq, Prod.mk.injEq, true_and] at h
        obtain ⟨rfl, rfl⟩ := h
        exact ⟨rfl, rfl, _, _, rfl, rfl, Or.inl ⟨hc.1, hc.2, rfl, rfl, rfl⟩⟩
      · rename_i hc
        split at h
        · rename_i he
          simp only [Option.some.injEq, Prod.mk.injEq, true_and] at h
          obtain ⟨rfl, rfl⟩ := h
          exact ⟨rfl, rfl, _, _, rfl, rfl, Or.inr (Or.inl ⟨hc, he, rfl, rfl, rfl⟩)⟩
        · rename_i he
          have he' : checkEmpty wlHasEmpty st1 = false := by
            cases hce : checkEmpty wlHasEmpty st1 with
            | false => rfl
            | true => exact absurd hce he
          split at h
          · rename_i hb
            simp only [Option.some.injEq, Prod.mk.injEq, true_and] at h
            obtain ⟨rfl, rfl⟩ := h
            exact ⟨rfl, rfl, _, _, rfl, rfl,
              Or.inr (Or.inr (Or.inl ⟨hc, he', hb, rfl, rfl, rfl⟩))⟩
          · rename_i hb
            simp only [Option.some.injEq, Prod.mk.injEq, true_and] at h
            obtain ⟨rfl, rfl⟩ := h
            refine ⟨rfl, rfl, _, _, rfl, rfl,
              Or.inr (Or.inr (Or.inr ⟨hc, he', hb, rfl, rfl, ?_⟩))⟩
            simp
    | conflict => simp at h
    | assertFailed => simp at h

/-- C23: go enters its loops with old_iterations equal to the iteration
counter, and in every pass that starts so (the counter being in its 64-bit
range and the round making fewer than 2^64 attempts, which the fuel bounds)
and reaches the vote, the value passed to localTermination is true exactly
when the iteration counter changed during the round, which is exactly when
the round attempted an item, committed or not: when the work list, or for a
thread that can abort its abort queue, was not empty at the start of the
round.  The pass ends with old_iterations again equal to the counter. -/
theorem vote_tells_attempts {T : Type} (cfg : Traits) (tp : ThreadPool)
    (function : FunctionTy V A) (tid : Nat) (couldAbort isLeader wlHasEmpty : Bool)
    (td : TerminationDetection T) (cfuel qfuel : Nat) (s s1 : GoState V A T) (leave : Bool)
    (hold : s.old_iterations = s.st.tld.stat_iterations)
    (hit : s.st.tld.stat_iterations < 18446744073709551616)
    (hfuel : 2 * qfuel < 18446744073709551616)
    (h : goPass cfg tp function tid couldAbort isLeader wlHasEmpty td cfuel qfuel s =
      some (Signal.returned, s1, leave)) :
    (∀ (ctx : Nat) (st0 : ExecState V A) (t0 : T),
      (goEnter cfg couldAbort ctx st0 t0).old_iterations =
        (goEnter cfg couldAbort ctx st0 t0).st.tld.stat_iterations) ∧
    ∃ didWork g rest,
      s1.calls = s.calls ++
        TermCall.localTermination didWork :: TermCall.globalTermination g :: rest ∧
      (didWork = true ↔ s1.st.tld.stat_iterations ≠ s.st.tld.stat_iterations) ∧
      (didWork = true ↔
        ¬ (s.st.wl = [] ∧ (couldAbort = true → s.st.aborted.queues tid = []))) ∧
      s1.old_iterations = s1.st.tld.stat_iterations ∧
      s1.st.tld.stat_iterations < 18446744073709551616 := by
  constructor
  · intro ctx st0 t0
    unfold goEnter
    simp only
    split <;> rfl
  · obtain ⟨hr, ho, didWork, g, hd, _, hcases⟩ :=
      goPass_cases cfg tp function tid couldAbort isLeader wlHasEmpty td cfuel qfuel s s1
        leave h
    obtain ⟨k, a1, a2, a3, _⟩ :=
      goRound_count cfg tp function tid couldAbort isLeader cfuel qfuel s.st s1.st _ hit hr
    have hk : s1.st.tld.stat_iterations ≠ s.st.tld.stat_iterations ↔ k ≠ 0 := by
      rw [a1]
      constructor
      · intro hne hk0
        apply hne
        rw [hk0, Nat.add_zero]
        exact Nat.mod_eq_of_lt hit
      · intro hk0
        omega
    have hw : didWork = true ↔ s1.st.tld.stat_iterations ≠ s.st.tld.stat_iterations := by
      rw [hd, hold]
      simp only [decide_eq_true_eq]
      exact ⟨fun hne e => hne e.symm, fun hne e => hne e.symm⟩
    have hlt : s1.st.tld.stat_iterations < 18446744073709551616 := by
      rw [a1]; exact Nat.mod_lt _ (by decide)
    have hq : didWork = true ↔
        ¬ (s.st.wl = [] ∧ (couldAbort = true → s.st.aborted.queues tid = [])) := by
      rw [hw, hk, ← a3]
    rcases hcases with c | c | c | c
    · exact ⟨didWork, g.1, [], by rw [c.2.2.2.2], hw, hq, ho, hlt⟩
    · exact ⟨didWork, g.1, [], by rw [c.2.2.2.2], hw, hq, ho, hlt⟩
    · exact ⟨didWork, g.1, [], by rw [c.2.2.2.2.2], hw, hq, ho, hlt⟩
    · exact ⟨didWork, g.1, [TermCall.initializeThread, TermCall.barrierWait],
        by rw [c.2.2.2.2.2], hw, hq, ho, hlt⟩

/-- Witness for C23: the first pass of a leader that can abort, with item 10
in its work list and item 20 in its abort queue, votes that it did work. -/
theorem vote_tells_attempts_witness :
    samplePassEnd.calls =
      [TermCall.localTermination true, TermCall.globalTermination false] ∧
    (∀ (ctx : Nat) (st0 : ExecState Nat (List Nat)) (t0 : Bool),
      (goEnter defaultTraits true ctx st0 t0).old_iterations =
        (goEnter defaultTraits true ctx st0 t0).st.tld.stat_iterations) ∧
    ∃ didWork g rest,
      samplePassEnd.calls = samplePassStart.calls ++
        TermCall.localTermination didWork :: TermCall.globalTermination g :: rest ∧
      (didWork = true ↔
        samplePassEnd.st.tld.stat_iterations ≠ samplePassStart.st.tld.stat_iterations) ∧
      (didWork = true ↔
        ¬ (samplePassStart.st.wl = [] ∧
          (true = true → samplePassStart.st.aborted.queues 0 = []))) ∧
      samplePassEnd.old_iterations = samplePassEnd.st.tld.stat_iterations ∧
      samplePassEnd.st.tld.stat_iterations < 18446744073709551616 :=
  ⟨by decide, vote_tells_attempts defaultTraits onePackage logItem 0 true true true
    soloDetection 5 5 samplePassStart samplePassEnd false rfl (by decide) (by decide) rfl⟩

/-- C22 (amended): a pass of go after which the thread leaves the worker loop
without a parallel break ended with globalTermination answering true and
checkEmpty(wl) holding, so with the work list empty when its type has
empty().  A pass after which the thread stays either ended with
globalTermination answering false, and then the thread goes into the next
round having called neither initializeThread nor the barrier, or with the
answer true and checkEmpty(wl) failing, and then the thread called
initializeThread and waited at the barrier.  When the detector keeps its
contract, never answering true right after a vote "did work" (and
old_iterations and the counters are as go keeps them), the round before the
exit attempted nothing, so the work list and, for a thread that can abort, the
abort queue were empty and are still so at the exit. -/
theorem leaves_after_poll_and_checkEmpty {T : Type} (cfg : Traits) (tp : ThreadPool)
    (function : FunctionTy V A) (tid : Nat) (couldAbort isLeader wlHasEmpty : Bool)
    (td : TerminationDetection T) (cfuel qfuel : Nat) (s s1 : GoState V A T) (leave : Bool)
    (h : goPass cfg tp function tid couldAbort isLeader wlHasEmpty td cfuel qfuel s =
      some (Signal.returned, s1, leave))
    (hnb : ¬ (cfg.needsBreak = true ∧ s1.st.broke = true)) :
    (leave = true →
      (∃ didWork, s1.calls = s.calls ++
        [TermCall.localTermination didWork, TermCall.globalTermination true]) ∧
      checkEmpty wlHasEmpty s1.st = true ∧ (wlHasEmpty = true → s1.st.wl = [])) ∧
    (leave = false →
      (∃ didWork, s1.calls = s.calls ++
        [TermCall.localTermination didWork, TermCall.globalTermination false]) ∨
      ((∃ didWork, s1.calls = s.calls ++
          [TermCall.localTermination didWork, TermCall.globalTermination true,
            TermCall.initializeThread, TermCall.barrierWait]) ∧
        checkEmpty wlHasEmpty s1.st = false)) ∧
    (leave = true →
      (∀ t, (td.globalTermination (td.localTermination t true)).1 = false) →
      s.old_iterations = s.st.tld.stat_iterations →
      s.st.tld.stat_iterations < 18446744073709551616 →
      2 * qfuel < 18446744073709551616 →
      s1.st = s.st ∧ s1.st.wl = [] ∧ (couldAbort = true → s1.st.aborted.queues tid = [])) := by
  obtain ⟨hr, ho, didWork, g, hd, hg, hcases⟩ :=
    goPass_cases cfg tp function tid couldAbort isLeader wlHasEmpty td cfuel qfuel s s1
      leave h
  have hpoll : ¬ (g.1 = false ∧ (cfg.needsBreak = false ∨ s1.st.broke = false)) →
      g.1 = true := by
    intro hc
    cases hg1 : g.1 with
    | true => rfl
    | false =>
      exfalso
      apply hc
      refine ⟨hg1, ?_⟩
      cases hb : cfg.needsBreak with
      | false => exact Or.inl rfl
      | true =>
        cases hbr : s1.st.broke with
        | false => exact Or.inr rfl
        | true => exact absurd ⟨hb, hbr⟩ hnb
  refine ⟨?_, ?_, ?_⟩
  · intro hl
    rcases hcases with c | c | c | c
    · rw [hl] at c; exact absurd c.2.2.1 (by simp)
    · refine ⟨⟨didWork, ?_⟩, c.2.1, ?_⟩
      · rw [c.2.2.2.2, hpoll c.1]
      · intro hw
        have := c.2.1
        simpa [checkEmpty, hw] using this
    · exact absurd c.2.2.1 hnb
    · rw [hl] at c; exact absurd c.2.2.2.1 (by simp)
  · intro hl
    rcases hcases with c | c | c | c
    · exact Or.inl ⟨didWork, by rw [c.2.2.2.2, c.1]⟩
    · rw [hl] at c; exact absurd c.2.2.1 (by simp)
    · exact absurd c.2.2.1 hnb
    · exact Or.inr ⟨⟨didWork, by rw [c.2.2.2.2.2, hpoll c.1]⟩, c.2.1⟩
  · intro hl hsafe hold hit hfuel
    have hg1 : g.1 = true := by
      rcases hcases with c | c | c | c
      · rw [hl] at c; exact absurd c.2.2.1 (by simp)
      · exact hpoll c.1
      · exact absurd c.2.2.1 hnb
      · rw [hl] at c; exact absurd c.2.2.2.1 (by simp)
    have hdw : didWork = false := by
      cases hdw : didWork with
      | false => rfl
      | true =>
        rw [hg, hdw, hsafe] at hg1
        cases hg1
    obtain ⟨k, a1, _, a3, a4⟩ :=
      goRound_count cfg tp function tid couldAbort isLeader cfuel qfuel s.st s1.st _ hit hr
    have hk : k = 0 := by
      rw [hd, hold] at hdw
      simp only [ne_eq, decide_not, Bool.not_eq_false', decide_eq_true_eq] at hdw
      rw [a1] at hdw
      omega
    have e := (a4 hk).1
    refine ⟨e, ?_, ?_⟩
    · rw [e]; exact (a3.1 hk).1
    · rw [e]; exact (a3.1 hk).2

/-- Witness for C22 as amended: a thread with nothing to do leaves after its
first pass. -/
theorem leaves_after_poll_and_checkEmpty_witness :
    sampleIdleEnd.calls =
      [TermCall.localTermination false, TermCall.globalTermination true] ∧
    ((true = true →
      (∃ didWork, sampleIdleEnd.calls = sampleIdleStart.calls ++
        [TermCall.localTermination didWork, TermCall.globalTermination true]) ∧
      checkEmpty true sampleIdleEnd.st = true ∧ (true = true → sampleIdleEnd.st.wl = [])) ∧
    (true = false →
      (∃ didWork, sampleIdleEnd.calls = sampleIdleStart.calls ++
        [TermCall.localTermination didWork, TermCall.globalTermination false]) ∨
      ((∃ didWork, sampleIdleEnd.calls = sampleIdleStart.calls ++
          [TermCall.localTermination didWork, TermCall.globalTermination true,
            TermCall.initializeThread, TermCall.barrierWait]) ∧
        checkEmpty true sampleIdleEnd.st = false)) ∧
    (true = true →
      (∀ t, (soloDetection.globalTermination (soloDetection.localTermination t true)).1 =
        false) →
      sampleIdleStart.old_iterations = sampleIdleStart.st.tld.stat_iterations →
      sampleIdleStart.st.tld.stat_iterations < 18446744073709551616 →
      2 * 5 < 18446744073709551616 →
      sampleIdleEnd.st = sampleIdleStart.st ∧ sampleIdleEnd.st.wl = [] ∧
        (false = true → sampleIdleEnd.st.aborted.queues 0 = []))) :=
  ⟨by decide, leaves_after_poll_and_checkEmpty defaultTraits onePackage logItem 0 false true
    true soloDetection 5 5 sampleIdleStart sampleIdleEnd true rfl (by decide)⟩

/-- Counterexample to C22 as stated: the only thread of the engine with the
single item 0 and the detector of a single voter.  After the first pass
globalTermination has answered false, so the thread is not in the state in
which it may leave, and it stays in the loop; but it has called neither
initializeThread nor the barrier, it goes straight into the next round.  The
whole run makes four calls, none of them initializeThread or barrier.wait(). -/
theorem false_poll_skips_barrier :
    (goPass defaultTraits onePackage logItem 0 false true true soloDetection 5 5
      (goEnter defaultTraits false 1 (sampleWork 1) false)).map
      (fun r => (r.1, r.2.1.calls, r.2.2)) =
    some (Signal.returned,
      [TermCall.localTermination true, TermCall.globalTermination false], false) ∧
    (go defaultTraits onePackage logItem 0 false true true soloDetection 1 5 5 5
      (sampleWork 1) false).map (fun r => (r.1, r.2.calls, r.2.st.wl, r.2.st.app)) =
    some (Signal.returned,
      [TermCall.localTermination true, TermCall.globalTermination false,
        TermCall.localTermination false, TermCall.globalTermination true], [], [0]) := by
  constructor <;> rfl

/-! ## Runs without a thread context -/

/-- Without a thread context the loop of `runQueue` is never left by an
exception, installs no context and counts no conflict. -/
theorem runQueueLoop_no_cnx (cfg : Traits) (function : FunctionTy V A) (tid limit : Nat)
    (lwl : WL) (cfuel : Nat) :
    ∀ (fuel num : Nat) (st : ExecState V A) (sig : Signal) (st' : ExecState V A)
      (op : Option (Popped V)), st.thread_cnx = none →
      runQueueLoop cfg function tid limit lwl cfuel fuel num st = some (sig, st', op) →
      sig = Signal.returned ∧ op = none ∧ st'.thread_cnx = none ∧
      st'.tld.stat_conflicts = st.tld.stat_conflicts := by
  intro fuel
  induction fuel with
  | zero => intro num st sig st' op _ h; simp [runQueueLoop] at h
  | succ f ih =>
    intro num st sig st' op hc h
    rw [runQueueLoop_succ] at h
    have stop : some (Signal.returned, st, (none : Option (Popped V))) = some (sig, st', op) →
        sig = Signal.returned ∧ op = none ∧ st'.thread_cnx = none ∧
        st'.tld.stat_conflicts = st.tld.stat_conflicts := by
      intro e
      simp only [Option.some.injEq, Prod.mk.injEq] at e
      obtain ⟨e1, e2, e3⟩ := e
      rw [← e1, ← e2, ← e3]
      exact ⟨rfl, rfl, hc, rfl⟩
    split at h
    · cases hpop : pop tid st lwl with
      | none => rw [hpop] at h; exact stop h
      | some x =>
        obtain ⟨p, st1⟩ := x
        rw [hpop] at h
        simp only at h
        have e1 := pop_frame tid st st1 lwl p hpop
        have hc1 : st1.thread_cnx = none := e1.2.2.2.2.2.trans hc
        cases hdo : doProcess cfg function cfuel (AbortHandler.value p) st1 with
        | none => rw [hdo] at h; cases h
        | some r =>
          obtain ⟨sig2, st2⟩ := r
          rw [hdo] at h
          simp only at h
          obtain ⟨hs, hc2⟩ := doProcess_no_cnx cfg function cfuel _ st1 st2 sig2 hc1 hdo
          have f1 := (doProcess_frame cfg function cfuel _ st1 _ st2 hdo).1.2.1
          rw [e1.2.2.2.1] at f1
          rw [if_pos hs] at h
          obtain ⟨g1, g2, g3, g4⟩ := ih _ st2 sig st' op hc2 h
          exact ⟨g1, g2, g3, g4.trans f1⟩
    · exact stop h

/-- Without a thread context `runQueue` returns, never calls
`abortIteration`, installs no context and counts no conflict; on the work list
it leaves the abort handler alone. -/
theorem runQueue_no_cnx (cfg : Traits) (tp : ThreadPool) (function : FunctionTy V A)
    (tid limit : Nat) (lwl : WL) (cfuel fuel : Nat) (st st' : ExecState V A) (sig : Signal)
    (hc : st.thread_cnx = none)
    (h : runQueue cfg tp function tid limit lwl cfuel fuel st = some (sig, st')) :
    sig = Signal.returned ∧ st'.thread_cnx = none ∧
    st'.tld.stat_conflicts = st.tld.stat_conflicts ∧
    (lwl = WL.work → st'.aborted = st.aborted) := by
  rw [runQueue_eq] at h
  cases hloop : runQueueLoop cfg function tid limit lwl cfuel fuel 0 st with
  | none => rw [hloop] at h; cases h
  | some r =>
    obtain ⟨sig1, st1, op⟩ := r
    rw [hloop] at h
    simp only at h
    obtain ⟨g1, g2, g3, g4⟩ :=
      runQueueLoop_no_cnx cfg function tid limit lwl cfuel fuel 0 st sig1 st1 op hc hloop
    have g5 := (runQueueLoop_frame cfg function tid limit lwl cfuel fuel 0 st sig1 st1 op
      hloop).2
    subst g1
    rw [if_neg (by simp)] at h
    simp only [Option.some.injEq, Prod.mk.injEq] at h
    obtain ⟨rfl, rfl⟩ := h
    exact ⟨rfl, g3, g4, g5⟩

/-- Without a thread context `runQueueSimple` returns, installs no context,
counts no conflict and leaves the abort handler alone. -/
theorem runQueueSimple_quiet (cfg : Traits) (function : FunctionTy V A) (tid cfuel : Nat) :
    ∀ (fuel : Nat) (st st' : ExecState V A) (sig : Signal), st.thread_cnx = none →
      runQueueSimple cfg function tid cfuel fuel st = some (sig, st') →
      sig = Signal.returned ∧ st'.thread_cnx = none ∧
      st'.tld.stat_conflicts = st.tld.stat_conflicts ∧ st'.aborted = st.aborted := by
  intro fuel
  induction fuel with
  | zero => intro st st' sig _ h; simp [runQueueSimple] at h
  | succ f ih =>
    intro st st' sig hc h
    rw [runQueueSimple] at h
    cases hpop : pop tid st WL.work with
    | none =>
      rw [hpop] at h
      simp only [Option.some.injEq, Prod.mk.injEq] at h
      rw [← h.1, ← h.2]
      exact ⟨rfl, hc, rfl, rfl⟩
    | some x =>
      obtain ⟨p, st1⟩ := x
      rw [hpop] at h
      simp only at h
      have e1 := pop_frame tid st st1 WL.work p hpop
      have hc1 : st1.thread_cnx = none := e1.2.2.2.2.2.trans hc
      have ea : st1.aborted = st.aborted := by rw [e1.1]; rfl
      cases hdo : doProcess cfg function cfuel (AbortHandler.value p) st1 with
      | none => rw [hdo] at h; cases h
      | some r =>
        obtain ⟨sig2, st2⟩ := r
        obtain ⟨hs, hc2⟩ := doProcess_no_cnx cfg function cfuel _ st1 st2 sig2 hc1 hdo
        have f1 := (doProcess_frame cfg function cfuel _ st1 _ st2 hdo).1
        subst hs
        rw [hdo] at h
        obtain ⟨g1, g2, g3, g4⟩ := ih st2 st' sig hc2 h
        refine ⟨g1, g2, ?_, ?_⟩
        · rw [g3, f1.2.1, e1.2.2.2.1]
        · rw [g4, f1.2.2.1, ea]

/-- A round of `go` without a thread context returns, installs no context and
counts no conflict. -/
theorem goRound_no_cnx (cfg : Traits) (tp : ThreadPool) (function : FunctionTy V A) (tid : Nat)
    (couldAbort isLeader : Bool) (cfuel fuel : Nat) (st st' : ExecState V A) (sig : Signal)
    (hc : st.thread_cnx = none)
    (h : goRound cfg tp function tid couldAbort isLeader cfuel fuel st = some (sig, st')) :
    sig = Signal.returned ∧ st'.thread_cnx = none ∧
    st'.tld.stat_conflicts = st.tld.stat_conflicts ∧
    (couldAbort = false → st'.aborted = st.aborted) := by
  unfold goRound at h
  split at h
  · simp only at h
    cases h1 : runQueue cfg tp function tid
        (if cfg.needsBreak = true ∨ isLeader = true then 64 else 0) WL.work cfuel fuel st with
    | none => rw [h1] at h; cases h
    | some r =>
      obtain ⟨sig1, st1⟩ := r
      rw [h1] at h
      obtain ⟨a1, a2, a3, a4⟩ :=
        runQueue_no_cnx cfg tp function tid _ WL.work cfuel fuel st st1 sig1 hc h1
      subst a1
      simp only at h
      split at h
      · rename_i hca
        unfold handleAborts at h
        obtain ⟨b1, b2, b3, _⟩ :=
          runQueue_no_cnx cfg tp function tid 0 WL.aborts cfuel fuel st1 st' sig a2 h
        exact ⟨b1, b2, b3.trans a3, fun hf => by rw [hf] at hca; cases hca⟩
      · simp only [Option.some.injEq, Prod.mk.injEq] at h
        obtain ⟨rfl, rfl⟩ := h
        exact ⟨rfl, a2, a3, fun _ => a4 rfl⟩
  · obtain ⟨a1, a2, a3, a4⟩ := runQueueSimple_quiet cfg function tid cfuel fuel st st' sig hc h
    exact ⟨a1, a2, a3, fun _ => a4⟩

/-- The loops of `go` without a thread context: no pass installs one, no
pass counts a conflict, and no exception leaves them. -/
theorem goLoop_no_cnx {T : Type} (cfg : Traits) (tp : ThreadPool) (function : FunctionTy V A)
    (tid : Nat) (couldAbort isLeader wlHasEmpty : Bool) (td : TerminationDetection T)
    (cfuel qfuel : Nat) :
    ∀ (fuel : Nat) (s s' : GoState V A T) (sig : Signal), s.st.thread_cnx = none →
      goLoop cfg tp function tid couldAbort isLeader wlHasEmpty td cfuel qfuel fuel s =
        some (sig, s') →
      sig = Signal.returned ∧ s'.st.thread_cnx = none ∧
      s'.st.tld.stat_conflicts = s.st.tld.stat_conflicts ∧
      (couldAbort = false → s'.st.aborted = s.st.aborted) := by
  intro fuel
  induction fuel with
  | zero => intro s s' sig _ h; simp [goLoop] at h
  | succ f ih =>
    intro s s' sig hc h
    rw [goLoop] at h
    cases hp : goPass cfg tp function tid couldAbort isLeader wlHasEmpty td cfuel qfuel s with
    | none => rw [hp] at h; cases h
    | some r =>
      obtain ⟨sig1, s1, leave⟩ := r
      have hsig : sig1 = Signal.returned := by
        unfold goPass at hp
        cases hr : goRound cfg tp function tid couldAbort isLeader cfuel qfuel s.st with
        | none => rw [hr] at hp; cases hp
        | some r2 =>
          obtain ⟨sig2, st2⟩ := r2
          have := (goRound_no_cnx cfg tp function tid couldAbort isLeader cfuel qfuel s.st st2
            sig2 hc hr).1
          subst this
          rw [hr] at hp
          simp only at hp
          split at hp
          · simp only [Option.some.injEq, Prod.mk.injEq] at hp; exact hp.1.symm
          · split at hp
            · simp only [Option.some.injEq, Prod.mk.injEq] at hp; exact hp.1.symm
            · split at hp
              · simp only [Option.some.injEq, Prod.mk.injEq] at hp; exact hp.1.symm
              · simp only [Option.some.injEq, Prod.mk.injEq] at hp; exact hp.1.symm
      subst hsig
      rw [hp] at h
      have hr := (goPass_cases cfg tp function tid couldAbort isLeader wlHasEmpty td cfuel
        qfuel s s1 leave hp).1
      obtain ⟨_, a2, a3, a4⟩ :=
        goRound_no_cnx cfg tp function tid couldAbort isLeader cfuel qfuel s.st s1.st _ hc hr
      cases leave with
      | false =>
        simp only at h
        obtain ⟨b1, b2, b3, b4⟩ := ih s1 s' sig a2 h
        exact ⟨b1, b2, b3.trans a3, fun hf => (b4 hf).trans (a4 hf)⟩
      | true =>
        simp only [Option.some.injEq, Prod.mk.injEq] at h
        obtain ⟨rfl, rfl⟩ := h
        exact ⟨rfl, a2, a3, a4⟩

/-- C24: when the engine has one active thread, operator() runs go with
couldAbort false, which installs no thread context: started without one, the
run ends, if it ends, by returning, still without a thread context, with the
conflict counter at 0 and the abort handler as it was; and without a thread
context doAcquire returns on every handle of every memory, whoever owns the
handle, having changed nothing. -/
theorem single_thread_never_conflicts {T : Type} (cfg : Traits) (tp : ThreadPool)
    (function : FunctionTy V A) (tid : Nat) (isLeader wlHasEmpty : Bool)
    (td : TerminationDetection T) (ctx cfuel qfuel fuel : Nat) (st0 : ExecState V A) (t0 : T)
    (sig : Signal) (s : GoState V A T)
    (hc : st0.thread_cnx = none)
    (h : operatorCall cfg tp function tid 1 isLeader wlHasEmpty td ctx cfuel qfuel fuel st0 t0 =
      some (sig, s)) :
    (cfg.needsAborts && decide (1 > 1)) = false ∧
    (goEnter cfg false ctx st0 t0).st.thread_cnx = none ∧
    sig = Signal.returned ∧ s.st.thread_cnx = none ∧ s.st.tld.stat_conflicts = 0 ∧
    s.st.aborted = st0.aborted ∧
    ∀ (m : Memory) (C : Nat), doAcquire m s.st.thread_cnx C = (Signal.returned, m) := by
  have hca : (cfg.needsAborts && decide (1 > 1)) = false := by simp
  unfold operatorCall at h
  simp only [hca] at h
  have he : (goEnter cfg false ctx st0 t0 : GoState V A T).st.thread_cnx = none := by
    unfold goEnter
    simpa using hc
  have hz : (goEnter cfg false ctx st0 t0 : GoState V A T).st.tld.stat_conflicts = 0 := by
    unfold goEnter
    simp only
    split <;> rfl
  have ha : (goEnter cfg false ctx st0 t0 : GoState V A T).st.aborted = st0.aborted := rfl
  unfold go at h
  cases hl : goLoop cfg tp function tid false isLeader wlHasEmpty td cfuel qfuel fuel
      (goEnter cfg false ctx st0 t0) with
  | none => rw [hl] at h; cases h
  | some r =>
    obtain ⟨sig1, s1⟩ := r
    obtain ⟨a1, a2, a3, a4⟩ := goLoop_no_cnx cfg tp function tid false isLeader wlHasEmpty td
      cfuel qfuel fuel _ s1 sig1 he hl
    subst a1
    rw [hl] at h
    simp only [Bool.false_eq_true, if_false, Option.some.injEq, Prod.mk.injEq] at h
    obtain ⟨rfl, rfl⟩ := h
    refine ⟨hca, he, rfl, a2, a3.trans hz, (a4 rfl).trans ha, ?_⟩
    intro m C
    rw [a2]
    rfl

/-- Witness for C24: the only thread of the engine attempts an item whose
operation touches handle 5 while context 9 owns that handle; the attempt
commits and no conflict is counted. -/
theorem single_thread_never_conflicts_witness :
    sampleSoloRun.st.tld.stat_iterations = 1 ∧ sampleSoloRun.st.heap.owner 5 = some 9 ∧
    ((defaultTraits.needsAborts && decide (1 > 1)) = false ∧
    (goEnter defaultTraits false 1 sampleOwned false).st.thread_cnx = none ∧
    Signal.returned = Signal.returned ∧ sampleSoloRun.st.thread_cnx = none ∧
    sampleSoloRun.st.tld.stat_conflicts = 0 ∧
    sampleSoloRun.st.aborted = sampleOwned.aborted ∧
    ∀ (m : Memory) (C : Nat), doAcquire m sampleSoloRun.st.thread_cnx C =
      (Signal.returned, m)) :=
  ⟨by decide, by decide, single_thread_never_conflicts defaultTraits onePackage touchFive 0
    true true soloDetection 1 5 5 5 sampleOwned false Signal.returned sampleSoloRun rfl rfl⟩

/-- What the user operation does to a worker without a thread context: the
memory stays as it is, the writes are applied in order, a break is recorded,
and with `fastPushBack` installed the pushed items go straight to the tail of
the work list. -/
theorem runActions_solo (script : List (UserAction V A)) :
    ∀ st : ExecState V A, st.thread_cnx = none →
      (runActions st script).2.heap = st.heap ∧
      (runActions st script).2.app = appAfter script st.app ∧
      (runActions st script).2.broke = (st.broke || breaksOf script) ∧
      (st.tld.facing.fastPushBack = true → st.tld.facing.pushBuffer = [] →
        (runActions st script).2.wl = st.wl ++ pushesOf script ∧
        (runActions st script).2.tld.facing.pushBuffer = []) := by
  induction script with
  | nil =>
    intro st _
    exact ⟨rfl, rfl, by simp [runActions, breaksOf], fun _ hb => ⟨by simp [runActions, pushesOf], hb⟩⟩
  | cons a rest ih =>
    intro st hc
    have h1 : (userStep st a).1 = Signal.returned := by
      cases a with
      | acquire L => simp [userStep, hc, doAcquire]
      | push v =>
        simp only [userStep]
        split <;> rfl
      | breakLoop => rfl
      | update f => rfl
    have hfr := userStep_frame st a
    have hc1 : (userStep st a).2.thread_cnx = none := hfr.2.2.2.2.2.1.trans hc
    obtain ⟨i1, i2, i3, i4⟩ := ih _ hc1
    rw [runActions_cons, if_pos h1, i1, i2, i3]
    cases a with
    | acquire L =>
      refine ⟨by simp [userStep, hc, doAcquire], by simp [userStep, appAfter],
        by simp [userStep, breaksOf], ?_⟩
      intro hf hb
      have := i4 hf hb
      simpa [userStep, pushesOf] using this
    | push v =>
      refine ⟨?_, ?_, ?_, ?_⟩
      · simp only [userStep]; split <;> rfl
      · simp only [userStep, appAfter]; split <;> rfl
      · simp only [userStep, breaksOf]; split <;> rfl
      · intro hf hb
        have e : userStep st (UserAction.push v) =
            (Signal.returned, { st with wl := st.wl ++ [v] }) := by
          cases st with
          | mk heap cnx app aborted wl broke tld =>
            cases tld with
            | mk facing ctx c1 c2 c3 =>
              cases facing with
              | mk pb fp =>
                simp only at hb hf
                subst hb
                subst hf
                simp [userStep, fastPushBack]
        have := i4 (by rw [e]; exact hf) (by rw [e]; exact hb)
        rw [e] at this ⊢
        simpa [pushesOf] using this
    | breakLoop =>
      refine ⟨rfl, by simp [userStep, appAfter], by simp [userStep, breaksOf], ?_⟩
      intro hf hb
      have := i4 hf hb
      simpa [userStep, pushesOf] using this
    | update f =>
      refine ⟨rfl, by simp [userStep, appAfter], by simp [userStep, breaksOf], ?_⟩
      intro hf hb
      have := i4 hf hb
      simpa [userStep, pushesOf] using this

theorem flushPushes_fields (cfg : Traits) (st : ExecState V A) :
    (flushPushes cfg st).app = st.app ∧ (flushPushes cfg st).broke = st.broke ∧
    ((st.tld.facing.pushBuffer = [] ∨ cfg.needsPush = false) → flushPushes cfg st = st) := by
  unfold flushPushes
  refine ⟨?_, ?_, ?_⟩
  · split
    · split <;> rfl
    · rfl
  · split
    · split <;> rfl
    · rfl
  · intro h
    split
    · rename_i hp
      rcases h with h | h
      · rw [if_neg (by simp [h])]
      · rw [hp] at h; cases h
    · rfl

/-- One attempt of a worker without a thread context: it commits, whatever
handle its operation touches. -/
theorem doProcess_solo (cfg : Traits) (function : FunctionTy V A) (cfuel : Nat) (v : V)
    (st : ExecState V A) (hc : st.thread_cnx = none) (hcf : 0 < cfuel) :
    ∃ st', doProcess cfg function cfuel v st = some (Signal.returned, st') ∧
      st'.thread_cnx = none ∧ st'.app = appAfter (function v st.app) st.app ∧
      st'.broke = (st.broke || breaksOf (function v st.app)) ∧
      st'.aborted = st.aborted ∧
      st'.tld.stat_iterations = (st.tld.stat_iterations + 1) % 18446744073709551616 ∧
      st'.tld.stat_conflicts = st.tld.stat_conflicts ∧
      st'.tld.facing.fastPushBack = st.tld.facing.fastPushBack ∧
      (st.tld.facing.fastPushBack = true → st.tld.facing.pushBuffer = [] →
        st'.wl = st.wl ++ pushesOf (function v st.app) ∧ st'.tld.facing.pushBuffer = []) ∧
      (st.tld.facing.fastPushBack = false → cfg.needsPush = false → st'.wl = st.wl) := by
  obtain ⟨b1, _, _, b4, b5, b6⟩ := beginAttempt_frame cfg st
  have hcb : (beginAttempt cfg st).thread_cnx = none := b1.2.2.2.1.trans hc
  have hret := runActions_no_cnx (function v st.app) (beginAttempt cfg st) hcb
  obtain ⟨s1, s2, s3, s4⟩ := runActions_solo (function v st.app) (beginAttempt cfg st) hcb
  have hfr := runActions_frame (function v st.app) (beginAttempt cfg st)
  obtain ⟨f1, f2, f3⟩ := flushPushes_fields cfg
    (runActions (beginAttempt cfg st) (function v st.app)).2
  obtain ⟨fh, fc⟩ := flushPushes_heap cfg
    (runActions (beginAttempt cfg st) (function v st.app)).2
  have hcommit : ∃ heap', commitIteration cfg cfuel
      (runActions (beginAttempt cfg st) (function v st.app)).2 =
      some { flushPushes cfg (runActions (beginAttempt cfg st) (function v st.app)).2 with
        heap := heap' } := by
    rw [commitIteration_eq]
    by_cases hna : cfg.needsAborts = true
    · rw [if_pos hna]
      have hl : ((flushPushes cfg
          (runActions (beginAttempt cfg st) (function v st.app)).2).heap).locks
          (flushPushes cfg (runActions (beginAttempt cfg st) (function v st.app)).2).tld.ctx =
          none := by
        rw [fh, fc, s1, hfr.1, b1.1]
        simp [beginAttempt, hna, startIteration, Memory.setLocks]
      rw [commit_iteration_eq _ _ cfuel [] ((isList_nil_iff _ _).2 hl) List.nodup_nil]
      simp only [List.length_nil, if_pos hcf]
      exact ⟨_, rfl⟩
    · rw [if_neg hna]
      exact ⟨_, rfl⟩
  obtain ⟨heap', hcm⟩ := hcommit
  refine ⟨{ flushPushes cfg (runActions (beginAttempt cfg st) (function v st.app)).2 with
    heap := heap' }, ?_, ?_⟩
  · rw [doProcess_eq, if_pos hret, hcm]
    rfl
  · have hd : doProcess cfg function cfuel v st = some (Signal.returned,
        { flushPushes cfg (runActions (beginAttempt cfg st) (function v st.app)).2 with
          heap := heap' }) := by
      rw [doProcess_eq, if_pos hret, hcm]
      rfl
    obtain ⟨d1, d2, _⟩ := doProcess_frame cfg function cfuel v st _ _ hd
    refine ⟨d1.2.2.2.1.trans hc, ?_, ?_, d1.2.2.1, d2, d1.2.1, d1.2.2.2.2.1, ?_, ?_⟩
    · show (flushPushes cfg _).app = _
      rw [f1, s2, b6]
    · show (flushPushes cfg _).broke = _
      rw [f2, s3]
      have : (beginAttempt cfg st).broke = st.broke := by
        unfold beginAttempt
        split <;> rfl
      rw [this]
    · intro hf hb
      have hf' : (beginAttempt cfg st).tld.facing.fastPushBack = true := by rw [b5]; exact hf
      have hb' : (beginAttempt cfg st).tld.facing.pushBuffer = [] := by rw [b5]; exact hb
      obtain ⟨w1, w2⟩ := s4 hf' hb'
      have e := f3 (Or.inl w2)
      constructor
      · show (flushPushes cfg _).wl = _
        rw [e, w1, b4]
      · show (flushPushes cfg _).tld.facing.pushBuffer = _
        rw [e, w2]
    · intro hf hp
      have hf' : (beginAttempt cfg st).tld.facing.fastPushBack = false := by rw [b5]; exact hf
      have e := f3 (Or.inr hp)
      show (flushPushes cfg _).wl = _
      rw [e, (hfr.2.2.2.2.2.2.2.2 hf').1, b4]

/-! ## Progress of `go` when every attempt commits -/

theorem pop_none_wl (tid : Nat) (st : ExecState V A) (h : pop tid st WL.work = none) :
    st.wl = [] := by
  unfold pop at h
  split at h
  · rename_i hq
    simpa [queueOf] using hq
  · cases h

theorem pop_some_wl (tid : Nat) (st st1 : ExecState V A) (p : Popped V)
    (h : pop tid st WL.work = some (p, st1)) :
    ∃ v rest, st.wl = v :: rest ∧ p = Sum.inl v ∧ st1 = { st with wl := rest } := by
  unfold pop at h
  split at h
  · cases h
  · rename_i q rest hq
    simp only [Option.some.injEq, Prod.mk.injEq] at h
    obtain ⟨rfl, rfl⟩ := h
    cases hw : st.wl with
    | nil => simp [queueOf, hw] at hq
    | cons v r =>
      simp only [queueOf, hw, List.map_cons, List.cons.injEq] at hq
      exact ⟨v, r, rfl, hq.1.symm, by simp [dropQueue, hw]⟩

/-- The loop of `runQueue` on the work list, when every attempt from a good
state commits, leads to a good state and lowers the measure `μ`: with more
fuel than the measure the loop returns. -/
theorem runQueueLoop_progress (cfg : Traits) (function : FunctionTy V A) (tid limit : Nat)
    (cfuel : Nat) (Good : ExecState V A → Prop) (μ : ExecState V A → Nat)
    (hstep : ∀ st p st1, Good st → pop tid st WL.work = some (p, st1) →
      ∃ st', doProcess cfg function cfuel (AbortHandler.value p) st1 =
        some (Signal.returned, st') ∧ Good st' ∧ μ st' < μ st) :
    ∀ (fuel num : Nat) (st : ExecState V A), Good st → μ st < fuel →
      ∃ st', runQueueLoop cfg function tid limit WL.work cfuel fuel num st =
          some (Signal.returned, st', none) ∧
        Good st' ∧ μ st' ≤ μ st ∧ (limit = 0 → st'.wl = []) ∧ (st.wl = [] → st' = st) ∧
        (st.wl ≠ [] → (limit = 0 ∨ num < limit) → μ st' < μ st) := by
  intro fuel
  induction fuel with
  | zero => intro num st _ h; omega
  | succ f ih =>
    intro num st hg hm
    rw [runQueueLoop_succ]
    split
    · rename_i hcond
      cases hpop : pop tid st WL.work with
      | none =>
        have hw := pop_none_wl tid st hpop
        exact ⟨st, rfl, hg, Nat.le_refl _, fun _ => hw, fun _ => rfl, fun hne => absurd hw hne⟩
      | some x =>
        obtain ⟨p, st1⟩ := x
        obtain ⟨st2, hdo, hg2, hm2⟩ := hstep st p st1 hg hpop
        obtain ⟨v, rest, hw, _, _⟩ := pop_some_wl tid st st1 p hpop
        simp only [hdo, if_true]
        obtain ⟨st', e, g1, g2, g3, _, _⟩ := ih (if limit = 0 then num else num + 1) st2 hg2
          (by omega)
        refine ⟨st', e, g1, by omega, g3, ?_, fun _ _ => by omega⟩
        intro hnil
        rw [hw] at hnil
        cases hnil
    · rename_i hcond
      refine ⟨st, rfl, hg, Nat.le_refl _, ?_, fun _ => rfl, ?_⟩
      · intro hl; exact absurd (Or.inl hl) hcond
      · intro _ hc; exact absurd hc hcond

/-- The same for `runQueueSimple`, which returns with the work list empty. -/
theorem runQueueSimple_progress (cfg : Traits) (function : FunctionTy V A) (tid : Nat)
    (cfuel : Nat) (Good : ExecState V A → Prop) (μ : ExecState V A → Nat)
    (hstep : ∀ st p st1, Good st → pop tid st WL.work = some (p, st1) →
      ∃ st', doProcess cfg function cfuel (AbortHandler.value p) st1 =
        some (Signal.returned, st') ∧ Good st' ∧ μ st' < μ st) :
    ∀ (fuel : Nat) (st : ExecState V A), Good st → μ st < fuel →
      ∃ st', runQueueSimple cfg function tid cfuel fuel st = some (Signal.returned, st') ∧
        Good st' ∧ μ st' ≤ μ st ∧ st'.wl = [] ∧ (st.wl = [] → st' = st) ∧
        (st.wl ≠ [] → μ st' < μ st) := by
  intro fuel
  induction fuel with
  | zero => intro st _ h; omega
  | succ f ih =>
    intro st hg hm
    rw [runQueueSimple]
    cases hpop : pop tid st WL.work with
    | none =>
      have hw := pop_none_wl tid st hpop
      exact ⟨st, rfl, hg, Nat.le_refl _, hw, fun _ => rfl, fun hne => absurd hw hne⟩
    | some x =>
      obtain ⟨p, st1⟩ := x
      obtain ⟨st2, hdo, hg2, hm2⟩ := hstep st p st1 hg hpop
      obtain ⟨v, rest, hw, _, _⟩ := pop_some_wl tid st st1 p hpop
      simp only [hdo]
      obtain ⟨st', e, g1, g2, g3, _, _⟩ := ih st2 hg2 (by omega)
      refine ⟨st', e, g1, by omega, g3, ?_, fun _ => by omega⟩
      intro hnil
      rw [hw] at hnil
      cases hnil

/-- One round of `go` under the same conditions, the abort queue of a good
state being empty for a thread that can abort. -/
theorem goRound_progress (cfg : Traits) (tp : ThreadPool) (function : FunctionTy V A) (tid : Nat)
    (couldAbort isLeader : Bool) (cfuel fuel : Nat)
    (Good : ExecState V A → Prop) (μ : ExecState V A → Nat)
    (hstep : ∀ st p st1, Good st → pop tid st WL.work = some (p, st1) →
      ∃ st', doProcess cfg function cfuel (AbortHandler.value p) st1 =
        some (Signal.returned, st') ∧ Good st' ∧ μ st' < μ st)
    (hq : ∀ st, Good st → couldAbort = true → st.aborted.queues tid = [])
    (st : ExecState V A) (hg : Good st) (hm : μ st < fuel) :
    ∃ st', goRound cfg tp function tid couldAbort isLeader cfuel fuel st =
        some (Signal.returned, st') ∧
      Good st' ∧ μ st' ≤ μ st ∧ (st.wl = [] → st' = st) ∧ (st.wl ≠ [] → μ st' < μ st) := by
  unfold goRound
  split
  · simp only
    obtain ⟨st1, e, g1, g2, _, g4, g5⟩ := runQueueLoop_progress cfg function tid
      (if cfg.needsBreak = true ∨ isLeader = true then 64 else 0) cfuel Good μ hstep fuel 0 st
      hg hm
    have e1 : runQueue cfg tp function tid
        (if cfg.needsBreak = true ∨ isLeader = true then 64 else 0) WL.work cfuel fuel st =
        some (Signal.returned, st1) := by
      rw [runQueue, e]
    rw [e1]
    simp only
    have g5' : st.wl ≠ [] → μ st1 < μ st := by
      intro hne
      apply g5 hne
      split
      · exact Or.inr (by decide)
      · exact Or.inl rfl
    split
    · rename_i hca
      have hempty := hq st1 g1 hca
      have e2 : handleAborts cfg tp function tid cfuel fuel st1 =
          some (Signal.returned, st1) := by
        unfold handleAborts
        rw [runQueue]
        obtain ⟨f, hf⟩ : ∃ f, fuel = f + 1 := ⟨fuel - 1, by omega⟩
        rw [hf, runQueueLoop_succ, if_pos (Or.inl rfl)]
        have hpop : pop tid st1 WL.aborts = none := by
          simp [pop, queueOf, hempty]
        rw [hpop]
      exact ⟨st1, e2, g1, g2, g4, g5'⟩
    · exact ⟨st1, rfl, g1, g2, g4, g5'⟩
  · obtain ⟨st1, e, g1, g2, _, g4, g5⟩ :=
      runQueueSimple_progress cfg function tid cfuel Good μ hstep fuel st hg hm
    exact ⟨st1, e, g1, g2, g4, g5⟩

/-- The loops of `go` under the same conditions, with a detector that
answers a poll with "true" exactly after a vote "no work", and no break
pending in a good state: a pass that finds work lowers the measure and is
followed by another pass, a pass that finds none leaves; so with more passes
allowed than the measure, `go` leaves its loops, in a good state with the
work list empty. -/
theorem goLoop_progress {T : Type} (cfg : Traits) (tp : ThreadPool)
    (function : FunctionTy V A) (tid : Nat) (couldAbort isLeader wlHasEmpty : Bool)
    (td : TerminationDetection T) (cfuel qfuel : Nat)
    (Good : ExecState V A → Prop) (μ : ExecState V A → Nat)
    (hstep : ∀ st p st1, Good st → pop tid st WL.work = some (p, st1) →
      ∃ st', doProcess cfg function cfuel (AbortHandler.value p) st1 =
        some (Signal.returned, st') ∧ Good st' ∧ μ st' < μ st)
    (hq : ∀ st, Good st → couldAbort = true → st.aborted.queues tid = [])
    (hb : ∀ st, Good st → cfg.needsBreak = true → st.broke = false)
    (hvote : ∀ t b, (td.globalTermination (td.localTermination t b)).1 = !b)
    (hfuel : 2 * qfuel < 18446744073709551616) :
    ∀ (n : Nat) (s : GoState V A T), Good s.st → μ s.st ≤ n → μ s.st < qfuel →
      s.old_iterations = s.st.tld.stat_iterations →
      s.st.tld.stat_iterations < 18446744073709551616 →
      ∀ fuel, n < fuel →
      ∃ s', goLoop cfg tp function tid couldAbort isLeader wlHasEmpty td cfuel qfuel fuel s =
          some (Signal.returned, s') ∧
        Good s'.st ∧ s'.st.wl = [] ∧ μ s'.st ≤ μ s.st := by
  intro n
  induction n with
  | zero =>
    intro s hg hn hm hold hit fuel hf
    obtain ⟨f, rfl⟩ : ∃ f, fuel = f + 1 := ⟨fuel - 1, by omega⟩
    obtain ⟨st1, hr, g1, g2, g3, g4⟩ := goRound_progress cfg tp function tid couldAbort isLeader
      cfuel qfuel Good μ hstep hq s.st hg hm
    have hw : s.st.wl = [] := by
      by_contra hne
      have := g4 hne
      omega
    have e := g3 hw
    subst e
    refine ⟨(GoState.mk s.st (td.globalTermination (td.localTermination s.term false)).2
        s.st.tld.stat_iterations
        (s.calls ++ [TermCall.localTermination false, TermCall.globalTermination true])), ?_, hg, hw, Nat.le_refl _⟩
    rw [goLoop]
    have hp : goPass cfg tp function tid couldAbort isLeader wlHasEmpty td cfuel qfuel s =
        some (Signal.returned, (GoState.mk s.st (td.globalTermination (td.localTermination s.term false)).2
        s.st.tld.stat_iterations
        (s.calls ++ [TermCall.localTermination false, TermCall.globalTermination true])), true) := by
      unfold goPass
      rw [hr]
      simp only [hold, ne_eq, not_true_eq_false, decide_False, hvote, Bool.not_false,
        Bool.true_eq_false, false_and, if_false]
      have hce : checkEmpty wlHasEmpty s.st = true := by
        unfold checkEmpty
        split
        · simp [hw]
        · rfl
      rw [if_pos hce]
    rw [hp]
  | succ m ih =>
    intro s hg hn hm hold hit fuel hf
    obtain ⟨f, rfl⟩ : ∃ f, fuel = f + 1 := ⟨fuel - 1, by omega⟩
    obtain ⟨st1, hr, g1, g2, g3, g4⟩ := goRound_progress cfg tp function tid couldAbort isLeader
      cfuel qfuel Good μ hstep hq s.st hg hm
    by_cases hw : s.st.wl = []
    · have e := g3 hw
      subst e
      refine ⟨(GoState.mk s.st (td.globalTermination (td.localTermination s.term false)).2
        s.st.tld.stat_iterations
        (s.calls ++ [TermCall.localTermination false, TermCall.globalTermination true])), ?_, hg, hw, Nat.le_refl _⟩
      rw [goLoop]
      have hp : goPass cfg tp function tid couldAbort isLeader wlHasEmpty td cfuel qfuel s =
          some (Signal.returned, (GoState.mk s.st (td.globalTermination (td.localTermination s.term false)).2
        s.st.tld.stat_iterations
        (s.calls ++ [TermCall.localTermination false, TermCall.globalTermination true])), true) := by
        unfold goPass
        rw [hr]
        simp only [hold, ne_eq, not_true_eq_false, decide_False, hvote, Bool.not_false,
          Bool.true_eq_false, false_and, if_false]
        have hce : checkEmpty wlHasEmpty s.st = true := by
          unfold checkEmpty
          split
          · simp [hw]
          · rfl
        rw [if_pos hce]
      rw [hp]
    · have hlt := g4 hw
      obtain ⟨k, a1, a2, a3, _⟩ := goRound_count cfg tp function tid couldAbort isLeader cfuel
        qfuel s.st st1 _ hit hr
      have hk : k ≠ 0 := fun hk0 => hw (a3.1 hk0).1
      have hne : s.st.tld.stat_iterations ≠ st1.tld.stat_iterations := by
        rw [a1]; omega
      have hit1 : st1.tld.stat_iterations < 18446744073709551616 := by
        rw [a1]; exact Nat.mod_lt _ (by decide)
      have hbr : cfg.needsBreak = false ∨ st1.broke = false := by
        cases hnb : cfg.needsBreak with
        | false => exact Or.inl rfl
        | true => exact Or.inr (hb st1 g1 hnb)
      have hp : goPass cfg tp function tid couldAbort isLeader wlHasEmpty td cfuel qfuel s =
          some (Signal.returned, (GoState.mk st1 (td.globalTermination (td.localTermination s.term true)).2
        st1.tld.stat_iterations
        (s.calls ++ [TermCall.localTermination true, TermCall.globalTermination false])), false) := by
        unfold goPass
        rw [hr]
        simp only [hold, ne_eq, hne, not_false_eq_true, decide_True, hvote, Bool.not_true,
          true_and]
        rw [if_pos hbr]
      obtain ⟨s', e, b1, b2, b3⟩ := ih (GoState.mk st1 (td.globalTermination (td.localTermination s.term true)).2
        st1.tld.stat_iterations
        (s.calls ++ [TermCall.localTermination true, TermCall.globalTermination false])) g1 (by simp only; omega)
        (by simp only; omega) rfl hit1 f (by omega)
      refine ⟨s', ?_, b1, b2, by simp only at b3; omega⟩
      rw [goLoop, hp]
      exact e

/-- An attempt of the only thread of the engine on the head of its work
list. -/
theorem solo_step (cfg : Traits) (function : FunctionTy V A) (tid cfuel : Nat)
    (hcf : 0 < cfuel)
    (hnobreak : cfg.needsBreak = true → ∀ v a, breaksOf (function v a) = false)
    (st st1 : ExecState V A) (p : Popped V) (hg : GoodSolo cfg st)
    (hpop : pop tid st WL.work = some (p, st1)) :
    ∃ v rest st', st.wl = v :: rest ∧ p = Sum.inl v ∧
      doProcess cfg function cfuel (AbortHandler.value p) st1 = some (Signal.returned, st') ∧
      GoodSolo cfg st' ∧
      st'.wl = rest ++ (if cfg.needsPush then pushesOf (function v st.app) else []) ∧
      st'.app = appAfter (function v st.app) st.app ∧
      st'.tld.stat_iterations = (st.tld.stat_iterations + 1) % 18446744073709551616 ∧
      st'.tld.stat_conflicts = st.tld.stat_conflicts ∧ st'.aborted = st.aborted := by
  obtain ⟨v, rest, hw, hp, hst1⟩ := pop_some_wl tid st st1 p hpop
  obtain ⟨g1, g2, g3, g4⟩ := hg
  subst hst1
  subst hp
  obtain ⟨st', hdo, d1, d2, d3, d4, d5, d6, d7, d8, d9⟩ :=
    doProcess_solo cfg function cfuel v { st with wl := rest } g1 hcf
  refine ⟨v, rest, st', hw, rfl, hdo, ⟨d1, d7.trans g2, ?_, ?_⟩, ?_, d2, d5, d6, d4⟩
  · intro hp
    exact (d8 (g2.trans hp) (g3 hp)).2
  · intro hb
    rw [d3]
    show (st.broke || breaksOf (function v st.app)) = false
    rw [g4 hb, hnobreak hb]
    rfl
  · cases hp : cfg.needsPush with
    | true =>
      rw [if_pos rfl]
      exact (d8 (g2.trans hp) (g3 hp)).1
    | false =>
      simp only [Bool.false_eq_true, if_false, List.append_nil]
      exact d9 (g2.trans hp) hp

theorem goEnter_solo {T : Type} (cfg : Traits) (ctx : Nat) (st0 : ExecState V A) (t0 : T)
    (hc : st0.thread_cnx = none) (hb : cfg.needsBreak = true → st0.broke = false) :
    GoodSolo cfg (goEnter cfg false ctx st0 t0).st ∧
    (goEnter cfg false ctx st0 t0).st.wl = st0.wl ∧
    (goEnter cfg false ctx st0 t0).st.app = st0.app ∧
    (goEnter cfg false ctx st0 t0).st.tld.stat_iterations = 0 ∧
    (goEnter cfg false ctx st0 t0).st.tld.stat_conflicts = 0 ∧
    (goEnter cfg false ctx st0 t0).old_iterations = 0 := by
  unfold goEnter GoodSolo
  cases hp : cfg.needsPush <;> simp [ThreadLocalData.new, hc] <;> exact hb

/-- C25: the only thread of the engine, started without a thread context on a
work list of N items (N below the fuel and below 2^63) with an operation
that pushes nothing and asks for no break, and a detector that answers a
poll with "true" exactly after a vote "no work": operator() returns, having
attempted exactly N iterations with 0 conflicts, so that "Commits" is
reported as N; the application data is what results from applying the
operation to each item once, in the order of the work list, and the work
list is empty. -/
theorem scenario_single_thread {T : Type} (cfg : Traits) (tp : ThreadPool)
    (function : FunctionTy V A) (tid : Nat) (isLeader wlHasEmpty : Bool)
    (td : TerminationDetection T) (ctx cfuel qfuel fuel : Nat) (st0 : ExecState V A) (t0 : T)
    (hpush : ∀ v a, pushesOf (function v a) = [])
    (hnobreak : cfg.needsBreak = true →
      st0.broke = false ∧ ∀ v a, breaksOf (function v a) = false)
    (hvote : ∀ t b, (td.globalTermination (td.localTermination t b)).1 = !b)
    (hc : st0.thread_cnx = none) (hcf : 0 < cfuel) (hq : st0.wl.length < qfuel)
    (hfuel : 2 * qfuel < 18446744073709551616) (hf : st0.wl.length < fuel) :
    ∃ s, operatorCall cfg tp function tid 1 isLeader wlHasEmpty td ctx cfuel qfuel fuel st0 t0 =
        some (Signal.returned, s) ∧
      s.st.tld.stat_iterations = st0.wl.length ∧ s.st.tld.stat_conflicts = 0 ∧
      s.st.tld.reportedCommits = st0.wl.length ∧
      s.st.app = st0.wl.foldl (fun a v => appAfter (function v a) a) st0.app ∧
      s.st.wl = [] := by
  have hca : (cfg.needsAborts && decide (1 > 1)) = false := by simp
  obtain ⟨e1, e2, e3, e4, e5, e6⟩ := goEnter_solo cfg ctx st0 t0 hc
    (fun hb => (hnobreak hb).1)
  obtain ⟨s, hs, ⟨_, g2, g3, g4⟩, hw, _⟩ := goLoop_progress cfg tp function tid false isLeader
    wlHasEmpty td cfuel qfuel
    (fun st => GoodSolo cfg st ∧ st.tld.stat_conflicts = 0 ∧
      st.tld.stat_iterations + st.wl.length = st0.wl.length ∧
      st.wl.foldl (fun a v => appAfter (function v a) a) st.app =
        st0.wl.foldl (fun a v => appAfter (function v a) a) st0.app)
    (fun st => st.wl.length)
    (by
      intro st p st1 hg hpop
      obtain ⟨hgs, h2, h3, h4⟩ := hg
      obtain ⟨v, rest, st', hwl, _, hdo, hg', w1, w2, w3, w4, _⟩ := solo_step cfg function tid
        cfuel hcf (fun hb => (hnobreak hb).2) st st1 p hgs hpop
      have hwl' : st'.wl = rest := by
        rw [w1, hpush]
        split <;> simp
      refine ⟨st', hdo, ⟨hg', w4.trans h2, ?_, ?_⟩, ?_⟩
      · rw [w3, hwl']
        rw [hwl] at h3
        simp only [List.length_cons] at h3
        omega
      · rw [hwl', w2, ← h4, hwl]
        rfl
      · show st'.wl.length < st.wl.length
        rw [hwl', hwl]
        simp)
    (fun _ _ hca' => Bool.noConfusion hca')
    (fun st hg hb => hg.1.2.2.2 hb)
    hvote hfuel st0.wl.length (goEnter cfg false ctx st0 t0)
    ⟨e1, e5, by rw [e4, e2]; omega, by rw [e2, e3]⟩
    (by simp [e2]) (by simp only [e2]; exact hq) (by rw [e6, e4]) (by rw [e4]; decide) fuel hf
  refine ⟨s, ?_, ?_, g2, ?_, ?_, hw⟩
  · unfold operatorCall
    simp only [hca]
    unfold go
    rw [hs]
    simp
  · rw [hw] at g3
    simpa using g3
  · rw [hw] at g3
    simp only [List.length_nil, Nat.add_zero] at g3
    unfold ThreadLocalData.reportedCommits
    rw [g2, g3]
    omega
  · rw [hw] at g4
    simpa using g4

/-- Witness for C25: the only thread of the engine with three items and the
operation that adds one to a counter: three iterations, no conflict, and the
counter ends at 3. -/
theorem scenario_single_thread_witness :
    (operatorCall defaultTraits onePackage countItem 0 1 true true soloDetection 1 5 5 5
      sampleCount false).map (fun r => (r.2.st.tld.stat_iterations, r.2.st.app)) =
      some (3, 3) ∧
    ∃ s, operatorCall defaultTraits onePackage countItem 0 1 true true soloDetection 1 5 5 5
        sampleCount false = some (Signal.returned, s) ∧
      s.st.tld.stat_iterations = sampleCount.wl.length ∧ s.st.tld.stat_conflicts = 0 ∧
      s.st.tld.reportedCommits = sampleCount.wl.length ∧
      s.st.app = sampleCount.wl.foldl (fun a v => appAfter (countItem v a) a) sampleCount.app ∧
      s.st.wl = [] :=
  ⟨by decide, scenario_single_thread defaultTraits onePackage countItem 0 true true
    soloDetection 1 5 5 5 sampleCount false (fun _ _ => rfl) (fun h => Bool.noConfusion h)
    (fun _ b => by cases b <;> rfl) rfl (by decide) (by decide) (by decide) (by decide)⟩

/-! ## Progress of `go` when no other context blocks the worker -/

end galois.runtime

namespace galois.graphs

/-! ## Thread ranges -/

theorem Vec.set_data_same (v : Vec) (i x : Nat) : (v.set i x).data i = x := by
  simp [Vec.set]

theorem Vec.set_data_ne (v : Vec) (i j x : Nat) (h : j ≠ i) : (v.set i x).data j = v.data j := by
  simp [Vec.set, Function.update_noteq h]

theorem Vec.set_size (v : Vec) (i x : Nat) : (v.set i x).size = v.size := rfl

theorem forLoop_succ {σ : Type} (lo k : Nat) (f : Nat → σ → σ) (s : σ) :
    forLoop lo (lo + (k + 1)) f s = forLoop (lo + 1) (lo + 1 + k) f (f lo s) := by
  unfold forLoop
  have e1 : lo + (k + 1) - lo = k + 1 := by omega
  have e2 : lo + 1 + k - (lo + 1) = k := by omega
  rw [e1, e2]
  rfl

theorem forLoop_zero {σ : Type} (lo : Nat) (f : Nat → σ → σ) (s : σ) :
    forLoop lo (lo + 0) f s = s := by
  unfold forLoop
  simp

/-- A `for` loop that assigns `v[i + 1] = val i` for `i` from `lo` to
`lo + k - 1` sets exactly the entries `lo + 1 .. lo + k`. -/
theorem forLoop_set (val : Nat → Nat) :
    ∀ (k lo : Nat) (r : Vec),
      (forLoop lo (lo + k) (fun i r => r.set (i + 1) (val i)) r).size = r.size ∧
      ∀ j, (forLoop lo (lo + k) (fun i r => r.set (i + 1) (val i)) r).data j =
        if lo < j ∧ j ≤ lo + k then val (j - 1) else r.data j := by
  intro k
  induction k with
  | zero =>
    intro lo r
    rw [forLoop_zero]
    refine ⟨rfl, fun j => ?_⟩
    rw [if_neg (by omega)]
  | succ k ih =>
    intro lo r
    rw [forLoop_succ]
    obtain ⟨h1, h2⟩ := ih (lo + 1) (r.set (lo + 1) (val lo))
    refine ⟨h1, fun j => ?_⟩
    rw [h2 j]
    by_cases hj : lo + 1 < j ∧ j ≤ lo + 1 + k
    · rw [if_pos hj, if_pos (by omega)]
    · rw [if_neg hj]
      by_cases hj2 : j = lo + 1
      · subst hj2
        rw [Vec.set_data_same, if_pos (by omega)]
        simp
      · rw [Vec.set_data_ne _ _ _ _ hj2, if_neg (by omega)]

/-- The inner loop that gives each remaining thread one node. -/
theorem assignOneEach_spec (first : Nat) :
    ∀ (n : Nat) (r : Vec) (ct ce : Nat), RangesInv r first ct ce →
      (assignOneEach n r ct ce).2.1 = ct + n ∧ (assignOneEach n r ct ce).2.2 = ce + n ∧
      (assignOneEach n r ct ce).1.size = r.size ∧
      RangesInv (assignOneEach n r ct ce).1 first (ct + n) (ce + n) ∧
      (0 < n → (assignOneEach n r ct ce).1.data (ct + n) = ce + n) := by
  intro n
  induction n with
  | zero =>
    intro r ct ce hi
    exact ⟨rfl, rfl, rfl, hi, fun h => absurd h (by omega)⟩
  | succ n ih =>
    intro r ct ce hi
    obtain ⟨i1, i2, i3⟩ := hi
    have hi' : RangesInv (r.set (ct + 1) (ce + 1)) first (ct + 1) (ce + 1) := by
      refine ⟨?_, ?_, ?_⟩
      · rw [Vec.set_data_ne _ _ _ _ (by omega)]; exact i1
      · intro i hlt
        by_cases hic : i = ct
        · subst hic
          rw [Vec.set_data_same, Vec.set_data_ne _ _ _ _ (by omega)]
          omega
        · rw [Vec.set_data_ne _ _ _ _ (by omega), Vec.set_data_ne _ _ _ _ (by omega)]
          exact i2 i (by omega)
      · rw [Vec.set_data_same]
    obtain ⟨a1, a2, a3, a4, a5⟩ := ih (r.set (ct + 1) (ce + 1)) (ct + 1) (ce + 1) hi'
    rw [assignOneEach]
    refine ⟨by rw [a1]; omega, by rw [a2]; omega, a3, ?_, ?_⟩
    · have e1 : ct + (n + 1) = ct + 1 + n := by omega
      have e2 : ce + (n + 1) = ce + 1 + n := by omega
      rw [e1, e2]
      exact a4
    · intro _
      have e1 : ct + (n + 1) = ct + 1 + n := by omega
      have e2 : ce + (n + 1) = ce + 1 + n := by omega
      rw [e1, e2]
      by_cases hn : 0 < n
      · exact a5 hn
      · have hn0 : n = 0 := by omega
        subst hn0
        simp only [assignOneEach, Nat.add_zero]
        rw [Vec.set_data_same]

/-- The assertions at the end pass on a vector that is as wanted. -/
theorem checkRanges_ok (r : Vec) (T first last : Nat) (h : RangesOk r T first last) :
    checkRanges r T first last = Outcome.done r := by
  unfold checkRanges
  rw [if_neg (by simp [h.2.1]), if_neg (by simp [h.2.2.1])]

theorem rangesInv_set_next (r : Vec) (first ct ce x : Nat) (hi : RangesInv r first ct ce)
    (hx : ce ≤ x) : RangesInv (r.set (ct + 1) x) first (ct + 1) x := by
  obtain ⟨i1, i2, i3⟩ := hi
  refine ⟨?_, ?_, ?_⟩
  · rw [Vec.set_data_ne _ _ _ _ (by omega)]; exact i1
  · intro i hlt
    by_cases hic : i = ct
    · subst hic
      rw [Vec.set_data_same, Vec.set_data_ne _ _ _ _ (by omega)]
      omega
    · rw [Vec.set_data_ne _ _ _ _ (by omega), Vec.set_data_ne _ _ _ _ (by omega)]
      exact i2 i (by omega)
  · rw [Vec.set_data_same]

theorem rangesOk_last (r : Vec) (T first last ct ce : Nat) (hs : r.size = T + 1)
    (hi : RangesInv r first ct ce) (hct : ct + 1 = T) (hce : ce ≤ last) :
    RangesOk (r.set (ct + 1) last) T first last := by
  obtain ⟨i1, i2, i3⟩ := rangesInv_set_next r first ct ce last hi hce
  refine ⟨hs, i1, ?_, ?_⟩
  · rw [← hct, Vec.set_data_same]
  · intro i hlt
    exact i2 i (by omega)

/-- The `while` loop of the prefix-sum variant: started where the vector is
good up to `current_thread`, with at least as many nodes left as threads, it
ends after at most one pass per thread and node left, no assertion fails, and
the vector is as wanted. -/
theorem prefixRangesLoop_spec (totalNodes : Nat) (eps : Nat → Nat) (T nodeAlpha ups : Nat) :
    ∀ (fuel : Nat) (r : Vec) (ct ce ae ael : Nat), r.size = T + 1 → RangesInv r 0 ct ce →
      ct < T → T - ct ≤ totalNodes - ce → ael ≤ ce → (T - ct) + (totalNodes - ce) < fuel →
      ∃ r', prefixRangesLoop totalNodes eps T nodeAlpha ups fuel r ct ce ae ael =
          some (Outcome.done r') ∧ RangesOk r' T 0 totalNodes := by
  intro fuel
  induction fuel with
  | zero => intro r ct ce ae ael _ _ _ _ _ h; omega
  | succ f ih =>
    intro r ct ce ae ael hs hi hct hrem hael hf
    rw [prefixRangesLoop]
    have hguard : ce < totalNodes ∧ ct < T := ⟨by omega, hct⟩
    rw [if_pos hguard]
    dsimp only
    rw [if_neg (by omega)]
    by_cases h1 : T - ct = 1
    · rw [if_pos h1, if_neg (by omega)]
      have hok := rangesOk_last r T 0 totalNodes ct ce hs hi (by omega) (by omega)
      exact ⟨_, by rw [checkRanges_ok _ _ _ _ hok], hok⟩
    · rw [if_neg h1]
      by_cases h2 : totalNodes - ce = T - ct
      · rw [if_pos h2]
        obtain ⟨a1, a2, a3, a4, a5⟩ := assignOneEach_spec 0 (T - ct) r ct ce hi
        rw [a1, a2, if_neg (by omega), if_neg (by omega)]
        have e1 : ct + (T - ct) = T := by omega
        have e2 : ce + (T - ct) = totalNodes := by omega
        have hok : RangesOk (assignOneEach (T - ct) r ct ce).1 T 0 totalNodes := by
          refine ⟨a3.trans hs, a4.1, ?_, ?_⟩
          · have := a5 (by omega)
            rw [e1, e2] at this
            exact this
          · intro i hlt
            exact a4.2.1 i (by omega)
        exact ⟨_, by rw [checkRanges_ok _ _ _ _ hok], hok⟩
      · rw [if_neg h2]
        have hA := ih (r.set (ct + 1) ce) (ct + 1) ce (eps (ce - 1)) ce hs
          (rangesInv_set_next r 0 ct ce ce hi (Nat.le_refl _)) (by omega)
          (by omega) (Nat.le_refl _) (by omega)
        have hB := ih (r.set (ct + 1) (ce + 1)) (ct + 1) (ce + 1) (eps ce) (ce + 1) hs
          (rangesInv_set_next r 0 ct ce (ce + 1) hi (by omega))
          (by omega) (by omega) (Nat.le_refl _) (by omega)
        have hC := ih r ct (ce + 1) ae ael hs
          ⟨hi.1, hi.2.1, by have := hi.2.2; omega⟩ hct (by omega) (by omega) (by omega)
        by_cases hpos : ce > 0
        · simp only [hpos, if_true]
          have hce0 : ce ≠ 0 := by omega
          simp only [if_neg hce0]
          split
          · exact hA
          · split
            · exact hB
            · exact hC
        · have h0 : ce = 0 := by omega
          have h1 : ael = 0 := by omega
          subst h0
          subst h1
          simp only [gt_iff_lt, Nat.lt_irrefl, if_false, Nat.zero_add, Nat.sub_zero,
            Nat.mod_self, Nat.zero_mul, Nat.zero_mod, Nat.not_lt_zero, and_false]
          split
          · exact hB
          · exact hC

/-- The branch "more threads than nodes" when the range starts at node 0: one
node for each of the first threads, nothing for the others. -/
theorem moreThreads_ok (ranges : Vec) (T n : Nat) (hs : ranges.size = T + 1) (hn : n < T)
    (hn32 : n < 4294967296) :
    RangesOk
      (forLoop n T (fun i r => r.set (i + 1) n)
        (forLoop 0 n (fun i r => r.set (i + 1) ((i + 1) % 4294967296)) (ranges.set 0 0)))
      T 0 n := by
  have e1 : T = n + (T - n) := by omega
  have e2 : n = 0 + n := by omega
  obtain ⟨a1, a2⟩ := forLoop_set (fun i => (i + 1) % 4294967296) n 0 (ranges.set 0 0)
  rw [← e2] at a1 a2
  obtain ⟨b1, b2⟩ := forLoop_set (fun _ => n) (T - n) n
    (forLoop 0 n (fun i r => r.set (i + 1) ((i + 1) % 4294967296)) (ranges.set 0 0))
  rw [← e1] at b1 b2
  have hd : ∀ j, j ≤ T →
      (forLoop n T (fun i r => r.set (i + 1) n)
        (forLoop 0 n (fun i r => r.set (i + 1) ((i + 1) % 4294967296))
          (ranges.set 0 0))).data j = min j n := by
    intro j hj
    rw [b2 j]
    by_cases h1 : n < j ∧ j ≤ T
    · rw [if_pos h1]; omega
    · rw [if_neg h1, a2 j]
      by_cases h2 : 0 < j ∧ j ≤ n
      · rw [if_pos h2]
        have : j - 1 + 1 = j := by omega
        rw [this, Nat.mod_eq_of_lt (by omega)]
        omega
      · rw [if_neg h2]
        have : j = 0 := by omega
        subst this
        rw [Vec.set_data_same]
        omega
  refine ⟨?_, ?_, ?_, ?_⟩
  · rw [b1, a1]; exact hs
  · rw [hd 0 (by omega)]; omega
  · rw [hd T (Nat.le_refl _)]; omega
  · intro i hi
    rw [hd i (by omega), hd (i + 1) (by omega)]
    omega

/-- C29: determineThreadRanges(totalNodes, edgePrefixSum, nodeAlpha) with T
active threads (1 ≤ T, T + 1 and totalNodes in the range of uint32_t),
called with a prefix sum of totalNodes entries while threadRanges is empty,
ends for every fuel above T + totalNodes, so after at most that many passes
of its loop, without any assertion failing, and leaves in threadRanges T + 1
entries that do not decrease, the first 0 and the last totalNodes, whatever
the prefix sum and nodeAlpha are; called while threadRanges is not empty it
returns threadRanges as it was. -/
theorem prefix_ranges_cover (g : LC_CSR_Graph E) (T totalNodes prefixSize : Nat)
    (edgePrefixSum : Nat → Nat) (nodeAlpha fuel : Nat)
    (hT1 : 1 ≤ T) (hT : T + 1 < 4294967296) (hn : totalNodes < 4294967296)
    (hsize : prefixSize = totalNodes) (hfuel : T + totalNodes < fuel) :
    (g.threadRanges.size = 0 →
      ∃ r, determineThreadRangesPrefix g T totalNodes prefixSize edgePrefixSum nodeAlpha fuel =
          some (Outcome.done r) ∧ RangesOk r T 0 totalNodes) ∧
    (g.threadRanges.size ≠ 0 →
      determineThreadRangesPrefix g T totalNodes prefixSize edgePrefixSum nodeAlpha fuel =
        some (Outcome.done g.threadRanges)) := by
  constructor
  · intro h0
    unfold determineThreadRangesPrefix
    rw [if_neg (by simp [h0]), if_neg (by simp [hsize])]
    dsimp only
    have hmod : (T + 1) % 4294967296 = T + 1 := Nat.mod_eq_of_lt hT
    rw [hmod]
    have hs : (g.threadRanges.resize (T + 1)).size = T + 1 := rfl
    by_cases h1 : T = 1
    · rw [if_pos h1]
      refine ⟨_, rfl, ?_⟩
      subst h1
      refine ⟨rfl, ?_, ?_, ?_⟩
      · rw [Vec.set_data_ne _ _ _ _ (by omega), Vec.set_data_same]
      · rw [Vec.set_data_same]
      · intro i hi
        have : i = 0 := by omega
        subst this
        rw [Vec.set_data_same, Vec.set_data_ne _ _ _ _ (by omega), Vec.set_data_same]
        omega
    · rw [if_neg h1]
      by_cases h2 : T > totalNodes
      · rw [if_pos h2]
        exact ⟨_, rfl, moreThreads_ok _ T totalNodes hs h2 hn⟩
      · rw [if_neg h2]
        exact prefixRangesLoop_spec totalNodes edgePrefixSum T nodeAlpha _ fuel
          ((g.threadRanges.resize (T + 1)).set 0 0) 0 0 0 0 hs
          ⟨Vec.set_data_same _ _ _, fun i hi => absurd hi (by omega),
            by rw [Vec.set_data_same]⟩
          (by omega) (by omega) (Nat.le_refl _) (by omega)
  · intro h0
    unfold determineThreadRangesPrefix
    rw [if_pos h0]

/-- Witness for C29: three threads on the prefix sum of a graph of 8 nodes
with one edge each. -/
theorem prefix_ranges_cover_witness :
    rangesOf (determineThreadRangesPrefix ring8 3 8 8 (fun n => n + 1) 0 20) =
      some [0, 2, 4, 8] ∧
    ((ring8.threadRanges.size = 0 →
      ∃ r, determineThreadRangesPrefix ring8 3 8 8 (fun n => n + 1) 0 20 =
          some (Outcome.done r) ∧ RangesOk r 3 0 8) ∧
    (ring8.threadRanges.size ≠ 0 →
      determineThreadRangesPrefix ring8 3 8 8 (fun n => n + 1) 0 20 =
        some (Outcome.done ring8.threadRanges))) :=
  ⟨by decide, prefix_ranges_cover ring8 3 8 8 (fun n => n + 1) 0 20 (by decide) (by decide)
    (by decide) rfl (by decide)⟩

/-- The `while` loop of the node-range variant: started where the vector is
good up to `current_thread`, with at least as many nodes left as threads and
no units counted at `beginNode`, it ends after at most one pass per thread and
node left, no assertion fails, and the vector is as wanted. -/
theorem rangesLoop_spec (g : LC_CSR_Graph E) (T beginNode endNode nodeAlpha ups : Nat) :
    ∀ (fuel : Nat) (r : Vec) (ct ce cuc : Nat), r.size = T + 1 →
      RangesInv r beginNode ct ce → ct < T → T - ct ≤ endNode - ce →
      (ce = beginNode → cuc = 0) → beginNode ≤ ce → (T - ct) + (endNode - ce) < fuel →
      ∃ r', rangesLoop g T beginNode endNode nodeAlpha ups fuel r ct ce cuc =
          some (Outcome.done r') ∧ RangesOk r' T beginNode endNode := by
  intro fuel
  induction fuel with
  | zero => intro r ct ce cuc _ _ _ _ _ _ h; omega
  | succ f ih =>
    intro r ct ce cuc hs hi hct hrem hcuc hbe hf
    rw [rangesLoop]
    have hguard : ce < endNode ∧ ct < T := ⟨by omega, hct⟩
    rw [if_pos hguard]
    dsimp only
    rw [if_neg (by omega)]
    by_cases h1 : T - ct = 1
    · rw [if_pos h1]
      have hok := rangesOk_last r T beginNode endNode ct ce hs hi (by omega) (by omega)
      exact ⟨_, by rw [checkRanges_ok _ _ _ _ hok], hok⟩
    · rw [if_neg h1]
      by_cases h2 : endNode - ce = T - ct
      · rw [if_pos h2]
        obtain ⟨a1, a2, a3, a4, a5⟩ := assignOneEach_spec beginNode (T - ct) r ct ce hi
        rw [a1, a2, if_neg (by omega), if_neg (by omega)]
        have e1 : ct + (T - ct) = T := by omega
        have e2 : ce + (T - ct) = endNode := by omega
        have hok : RangesOk (assignOneEach (T - ct) r ct ce).1 T beginNode endNode := by
          refine ⟨a3.trans hs, a4.1, ?_, ?_⟩
          · have := a5 (by omega)
            rw [e1, e2] at this
            exact this
          · intro i hlt
            exact a4.2.1 i (by omega)
        exact ⟨_, by rw [checkRanges_ok _ _ _ _ hok], hok⟩
      · rw [if_neg h2]
        have hB := ih (r.set (ct + 1) (ce + 1)) (ct + 1) (ce + 1) 0 hs
          (rangesInv_set_next r beginNode ct ce (ce + 1) hi (by omega))
          (by omega) (by omega) (fun _ => rfl) (by omega) (by omega)
        split
        · rename_i hbig
          have hne : ce ≠ beginNode := by
            intro h0
            have := hcuc h0
            rw [this] at hbig
            exact absurd hbig.2 (by omega)
          rw [if_neg hne]
          exact ih (r.set (ct + 1) ce) (ct + 1) ce 0 hs
            (rangesInv_set_next r beginNode ct ce ce hi (Nat.le_refl _)) (by omega)
            (by omega) (fun _ => rfl) hbe (by omega)
        · split
          · exact hB
          · exact ih r ct (ce + 1) _ hs
              ⟨hi.1, hi.2.1, by have := hi.2.2; omega⟩ hct (by omega)
              (fun h => absurd h (by omega)) (by omega) (by omega)

/-- Outside the branch "more threads than nodes" of a range that does not
start at node 0, `determineThreadRanges(beginNode, endNode, ...)` does what
is wanted of it: for `beginNode ≤ endNode` in the range of `uint32_t` and
`1 ≤ T`, it ends for every fuel above `T + (endNode - beginNode)` without a
failing assertion, with `T + 1` entries that do not decrease, from
`beginNode` to `endNode`. -/
theorem determineThreadRanges_otherwise (g : LC_CSR_Graph E) (T beginNode endNode : Nat)
    (returnRanges : Vec) (nodeAlpha fuel : Nat)
    (hT1 : 1 ≤ T) (hT : T + 1 < 4294967296) (hbe : beginNode ≤ endNode)
    (hn : endNode < 4294967296)
    (hcase : T ≤ endNode - beginNode ∨ beginNode = 0 ∨ beginNode = endNode ∨ T = 1)
    (hfuel : T + (endNode - beginNode) < fuel) :
    ∃ r, determineThreadRanges g T beginNode endNode returnRanges nodeAlpha fuel =
        some (Outcome.done r) ∧ RangesOk r T beginNode endNode := by
  unfold determineThreadRanges
  dsimp only
  have hmod : (T + 1) % 4294967296 = T + 1 := Nat.mod_eq_of_lt hT
  have htot : (endNode + 4294967296 - beginNode) % 4294967296 = endNode - beginNode := by
    omega
  rw [hmod, htot]
  have hs : (returnRanges.resize (T + 1)).size = T + 1 := rfl
  by_cases h0 : beginNode = endNode
  · rw [if_pos h0]
    refine ⟨_, rfl, ?_⟩
    obtain ⟨a1, a2⟩ := forLoop_set (fun _ => beginNode) T 0
      ((returnRanges.resize (T + 1)).set 0 beginNode)
    have e : 0 + T = T := by omega
    rw [e] at a1 a2
    have hd : ∀ j, (forLoop 0 T (fun i r => r.set (i + 1) beginNode)
        ((returnRanges.resize (T + 1)).set 0 beginNode)).data j = beginNode ∨ T < j := by
      intro j
      rw [a2 j]
      by_cases hj : 0 < j ∧ j ≤ T
      · rw [if_pos hj]; exact Or.inl rfl
      · rw [if_neg hj]
        by_cases hj0 : j = 0
        · subst hj0
          rw [Vec.set_data_same]
          exact Or.inl rfl
        · exact Or.inr (by omega)
    have hd' : ∀ j, j ≤ T → (forLoop 0 T (fun i r => r.set (i + 1) beginNode)
        ((returnRanges.resize (T + 1)).set 0 beginNode)).data j = beginNode := by
      intro j hj
      rcases hd j with h | h
      · exact h
      · omega
    refine ⟨by rw [a1]; exact hs, hd' 0 (by omega), by rw [hd' T (Nat.le_refl _)]; exact h0, ?_⟩
    intro i hi
    rw [hd' i (by omega), hd' (i + 1) (by omega)]
  · rw [if_neg h0]
    by_cases h1 : T = 1
    · rw [if_pos h1]
      refine ⟨_, rfl, ?_⟩
      subst h1
      refine ⟨rfl, ?_, ?_, ?_⟩
      · rw [Vec.set_data_ne _ _ _ _ (by omega), Vec.set_data_same]
      · rw [Vec.set_data_same]
      · intro i hi
        have : i = 0 := by omega
        subst this
        rw [Vec.set_data_same, Vec.set_data_ne _ _ _ _ (by omega), Vec.set_data_same]
        exact hbe
    · rw [if_neg h1]
      by_cases h2 : T > endNode - beginNode
      · rw [if_pos h2]
        have hb0 : beginNode = 0 := by omega
        subst hb0
        simp only [Nat.zero_add, Nat.sub_zero]
        exact ⟨_, rfl, moreThreads_ok _ T endNode hs (by omega) hn⟩
      · rw [if_neg h2]
        exact rangesLoop_spec g T beginNode endNode nodeAlpha _ fuel
          ((returnRanges.resize (T + 1)).set 0 beginNode) 0 beginNode 0 hs
          ⟨Vec.set_data_same _ _ _, fun i hi => absurd hi (by omega),
            by rw [Vec.set_data_same]⟩
          (by omega) (by omega) (fun _ => rfl) (Nat.le_refl _) (by omega)

/-- C28 (failing input): for the range of nodes 5 .. 6 and 4 active threads,
determineThreadRanges takes its branch "more threads than nodes" and returns
the entries 5, 6, 7, 2, 2: the remainder threads get total_nodes = 2 where
endNode = 7 is wanted, so the entries decrease and the last one is not
endNode. -/
theorem ranges_remainder_off_range :
    rangesOf (determineThreadRanges ring8 4 5 7 Vec.empty 0 10) = some [5, 6, 7, 2, 2] ∧
    ∀ (fuel : Nat) (r : Vec),
      determineThreadRanges ring8 4 5 7 Vec.empty 0 fuel = some (Outcome.done r) →
      ¬ RangesOk r 4 5 7 := by
  refine ⟨by decide, ?_⟩
  intro fuel r h hok
  have h4 := hok.2.2.1
  simp only [determineThreadRanges] at h
  simp only [Nat.reduceMod, Nat.reduceAdd, Nat.reduceSub, Nat.reduceEqDiff, if_false,
    Nat.reduceGT, if_true, Option.some.injEq, Outcome.done.injEq, OfNat.ofNat_ne_one,
    gt_iff_lt, Nat.reduceLT] at h
  rw [← h] at h4
  revert h4
  decide

/-! ## findEdgeSortedByDst -/

/-- The binary search on a range sorted by destination: it returns the first
place of the range whose destination is not below `N2` (the end of the range
when there is none), and reads `edgeDst` only inside the range. -/
theorem lowerBoundLoop_spec (edgeDst : Nat → Nat) (N2 : Nat) :
    ∀ (fuel first len : Nat) (reads : List Nat), len ≤ fuel →
      (∀ i j, first ≤ i → i ≤ j → j < first + len → edgeDst i ≤ edgeDst j) →
      ∃ p more, lowerBoundLoop edgeDst N2 fuel first len reads = (p, reads ++ more) ∧
        first ≤ p ∧ p ≤ first + len ∧
        (∀ i, first ≤ i → i < p → edgeDst i < N2) ∧
        (∀ i, p ≤ i → i < first + len → N2 ≤ edgeDst i) ∧
        (∀ x, x ∈ more → first ≤ x ∧ x < first + len) := by
  intro fuel
  induction fuel with
  | zero =>
    intro first len reads hl _
    refine ⟨first, [], by simp [lowerBoundLoop], Nat.le_refl _, by omega, ?_, ?_, ?_⟩
    · intro i h1 h2; omega
    · intro i h1 h2; omega
    · intro x hx; cases hx
  | succ f ih =>
    intro first len reads hl hsorted
    rw [lowerBoundLoop]
    by_cases hlen : len > 0
    · rw [if_pos hlen]
      dsimp only
      have hhalf : len / 2 < len := Nat.div_lt_self hlen (by decide)
      by_cases hcmp : edgeDst (first + len / 2) < N2
      · rw [if_pos hcmp]
        obtain ⟨p, more, e, a1, a2, a3, a4, a5⟩ := ih (first + len / 2 + 1)
          (len - len / 2 - 1) (reads ++ [first + len / 2]) (by omega)
          (fun i j h1 h2 h3 => hsorted i j (by omega) h2 (by omega))
        refine ⟨p, (first + len / 2) :: more, ?_, by omega, by omega, ?_, ?_, ?_⟩
        · rw [e]; simp
        · intro i h1 h2
          by_cases hi : i ≤ first + len / 2
          · have := hsorted i (first + len / 2) h1 hi (by omega)
            omega
          · exact a3 i (by omega) h2
        · intro i h1 h2
          exact a4 i h1 (by omega)
        · intro x hx
          rcases List.mem_cons.1 hx with hx | hx
          · omega
          · have := a5 x hx
            omega
      · rw [if_neg hcmp]
        obtain ⟨p, more, e, a1, a2, a3, a4, a5⟩ := ih first (len / 2)
          (reads ++ [first + len / 2]) (by omega)
          (fun i j h1 h2 h3 => hsorted i j h1 h2 (by omega))
        refine ⟨p, (first + len / 2) :: more, ?_, a1, by omega, a3, ?_, ?_⟩
        · rw [e]; simp
        · intro i h1 h2
          by_cases hi : i < first + len / 2
          · exact a4 i h1 hi
          · have := hsorted (first + len / 2) i (by omega) (by omega) h2
            omega
        · intro x hx
          rcases List.mem_cons.1 hx with hx | hx
          · omega
          · have := a5 x hx
            omega
    · rw [if_neg hlen]
      have h0 : len = 0 := by omega
      subst h0
      refine ⟨first, [], by simp, Nat.le_refl _, by omega, ?_, ?_, ?_⟩
      · intro i h1 h2; omega
      · intro i h1 h2; omega
      · intro x hx; cases hx

/-- What `findEdgeSortedByDst(N1, N2)` does on a node whose edges lie inside
the edge array and are sorted by destination: it returns an edge of `N1` with
destination `N2`, the first one, when there is one, and `edge_end(N1)`
otherwise; every read of `edgeDst` but the last is at an edge of `N1`, and the last one,
the read of `getEdgeDst(e)` after the search, is at `numEdges`, past the end
of the array, exactly when the edges of `N1` reach the end of the array and
all have destinations below `N2`. -/
theorem findEdgeSortedByDst_spec (g : LC_CSR_Graph E) (N1 N2 : Nat)
    (hb : g.raw_begin N1 ≤ g.raw_end N1) (he : g.raw_end N1 ≤ g.numEdges)
    (hsorted : ∀ i j, g.raw_begin N1 ≤ i → i ≤ j → j < g.raw_end N1 →
      g.edgeDst i ≤ g.edgeDst j) :
    ((∃ i, g.raw_begin N1 ≤ i ∧ i < g.raw_end N1 ∧ g.edgeDst i = N2) →
      g.raw_begin N1 ≤ (findEdgeSortedByDst g N1 N2).1 ∧
      (findEdgeSortedByDst g N1 N2).1 < g.raw_end N1 ∧
      g.edgeDst (findEdgeSortedByDst g N1 N2).1 = N2 ∧
      ∀ i, g.raw_begin N1 ≤ i → i < (findEdgeSortedByDst g N1 N2).1 → g.edgeDst i < N2) ∧
    ((¬ ∃ i, g.raw_begin N1 ≤ i ∧ i < g.raw_end N1 ∧ g.edgeDst i = N2) →
      (findEdgeSortedByDst g N1 N2).1 = g.edge_end N1) ∧
    ∃ inside last, (findEdgeSortedByDst g N1 N2).2 = inside ++ [last] ∧
      (∀ x, x ∈ inside → g.raw_begin N1 ≤ x ∧ x < g.raw_end N1) ∧
      last ≤ g.numEdges ∧
      (last = g.numEdges ↔ (g.raw_end N1 = g.numEdges ∧
        ∀ i, g.raw_begin N1 ≤ i → i < g.raw_end N1 → g.edgeDst i < N2)) := by
  obtain ⟨p, more, e, a1, a2, a3, a4, a5⟩ := lowerBoundLoop_spec g.edgeDst N2
    (g.raw_end N1 - g.raw_begin N1) (g.raw_begin N1) (g.raw_end N1 - g.raw_begin N1) []
    (Nat.le_refl _) (fun i j h1 h2 h3 => hsorted i j h1 h2 (by omega))
  have hend : g.raw_begin N1 + (g.raw_end N1 - g.raw_begin N1) = g.raw_end N1 := by omega
  rw [hend] at a2 a4 a5
  have hr : findEdgeSortedByDst g N1 N2 =
      (if g.edgeDst p = N2 then p else g.raw_end N1,
        List.range' (g.raw_begin N1) (g.raw_end N1 - g.raw_begin N1) ++ more ++ [p]) := by
    unfold findEdgeSortedByDst lower_bound LC_CSR_Graph.edge_begin LC_CSR_Graph.edge_end
    simp only [e, List.nil_append]
  rw [hr]
  refine ⟨?_, ?_, ?_⟩
  · rintro ⟨i, h1, h2, h3⟩
    have hpi : p ≤ i := by
      by_contra hlt
      have := a3 i h1 (by omega)
      omega
    have hle : g.edgeDst p ≤ g.edgeDst i := hsorted p i a1 hpi h2
    have hge : N2 ≤ g.edgeDst p := a4 p (Nat.le_refl _) (by omega)
    have heq : g.edgeDst p = N2 := by omega
    simp only [heq, if_true]
    exact ⟨a1, by omega, trivial, a3⟩
  · intro hno
    simp only [LC_CSR_Graph.edge_end]
    by_cases heq : g.edgeDst p = N2
    · rw [if_pos heq]
      by_contra hne
      exact hno ⟨p, a1, by omega, heq⟩
    · rw [if_neg heq]
  · refine ⟨List.range' (g.raw_begin N1) (g.raw_end N1 - g.raw_begin N1) ++ more, p, rfl,
      ?_, by omega, ?_⟩
    · intro x hx
      rcases List.mem_append.1 hx with hx | hx
      · rw [List.mem_range'_1] at hx
        omega
      · exact a5 x hx
    · constructor
      · intro hp
        refine ⟨by omega, fun i h1 h2 => a3 i h1 (by omega)⟩
      · rintro ⟨h1, h2⟩
        by_contra hne
        have hlt : p < g.raw_end N1 := by omega
        have := a4 p (Nat.le_refl _) hlt
        have := h2 p a1 hlt
        omega

/-- C30 (failing input): in the graph of 3 edges whose node 0 has the edges to
0, 0, 1 and whose node 1 has none, findEdgeSortedByDst(0, 2), where every
destination of node 0 is below 2, and findEdgeSortedByDst(1, 0), where node 1
has no edge, both return edge_end, and both end by reading edgeDst at index
3, which is numEdges: one past the last entry of the array. -/
theorem findEdgeSortedByDst_reads_past_end :
    fan3.numEdges = 3 ∧
    findEdgeSortedByDst fan3 0 2 = (3, [0, 1, 2, 1, 2, 3]) ∧
    findEdgeSortedByDst fan3 1 0 = (3, [3]) ∧
    (∃ x, x ∈ (findEdgeSortedByDst fan3 0 2).2 ∧ fan3.numEdges ≤ x) ∧
    (∃ x, x ∈ (findEdgeSortedByDst fan3 1 0).2 ∧ fan3.numEdges ≤ x) := by
  refine ⟨rfl, by decide, by decide, ⟨3, by decide, by decide⟩, ⟨3, by decide, by decide⟩⟩

/-! ## transpose -/

/-- An invariant of a `for` loop holds at its end. -/
theorem forLoop_invariant {σ : Type} (P : Nat → σ → Prop) (f : Nat → σ → σ) :
    ∀ (k lo : Nat) (s : σ), P lo s →
      (∀ i s, lo ≤ i → i < lo + k → P i s → P (i + 1) (f i s)) →
      P (lo + k) (forLoop lo (lo + k) f s) := by
  intro k
  induction k with
  | zero =>
    intro lo s h0 _
    rw [forLoop_zero]
    exact h0
  | succ k ih =>
    intro lo s h0 hstep
    rw [forLoop_succ]
    have e : lo + (k + 1) = lo + 1 + k := by omega
    rw [e]
    exact ih (lo + 1) (f lo s) (hstep lo s (Nat.le_refl _) (by omega) h0)
      (fun i s h1 h2 h3 => hstep i s (by omega) (by omega) h3)

/-- The same with the bounds as they stand in the source. -/
theorem forLoop_inv {σ : Type} (P : Nat → σ → Prop) (f : Nat → σ → σ) (lo hi : Nat) (s : σ)
    (hle : lo ≤ hi) (h0 : P lo s)
    (hstep : ∀ i s, lo ≤ i → i < hi → P i s → P (i + 1) (f i s)) :
    P hi (forLoop lo hi f s) := by
  have e : hi = lo + (hi - lo) := by omega
  rw [e]
  exact forLoop_invariant P f (hi - lo) lo s h0 (fun i s h1 h2 h3 => hstep i s h1 (by omega) h3)

theorem inDegree_le (dst : Nat → Nat) (d : Nat) : ∀ k, inDegree dst d k ≤ k := by
  intro k
  induction k with
  | zero => exact Nat.le_refl _
  | succ k ih =>
    rw [inDegree]
    split <;> omega

theorem edgesBelow_le (dst : Nat → Nat) (n : Nat) : ∀ k, edgesBelow dst n k ≤ k := by
  intro k
  induction k with
  | zero => exact Nat.le_refl _
  | succ k ih =>
    rw [edgesBelow]
    split <;> omega

theorem edgesBelow_zero (dst : Nat → Nat) : ∀ k, edgesBelow dst 0 k = 0 := by
  intro k
  induction k with
  | zero => rfl
  | succ k ih => rw [edgesBelow, ih]; simp

theorem edgesBelow_succ (dst : Nat → Nat) (n : Nat) :
    ∀ k, edgesBelow dst (n + 1) k = edgesBelow dst n k + inDegree dst n k := by
  intro k
  induction k with
  | zero => rfl
  | succ k ih =>
    rw [edgesBelow, edgesBelow, inDegree, ih]
    by_cases h1 : dst k < n
    · rw [if_pos h1, if_pos (by omega), if_neg (by omega)]
      omega
    · by_cases h2 : dst k = n
      · rw [if_neg h1, if_pos (by omega), if_pos h2]
        omega
      · rw [if_neg h1, if_neg (by omega), if_neg h2]
        omega

theorem edgesBelow_mono (dst : Nat → Nat) (k : Nat) :
    ∀ n m, n ≤ m → edgesBelow dst n k ≤ edgesBelow dst m k := by
  intro n m h
  induction h with
  | refl => exact Nat.le_refl _
  | step _ ih =>
    rw [edgesBelow_succ]
    omega

theorem edgesBelow_all (dst : Nat → Nat) (n : Nat) :
    ∀ k, (∀ e, e < k → dst e < n) → edgesBelow dst n k = k := by
  intro k
  induction k with
  | zero => intro _; rfl
  | succ k ih =>
    intro h
    rw [edgesBelow, ih (fun e he => h e (by omega)), if_pos (h k (by omega))]

theorem inDegree_mono (dst : Nat → Nat) (d : Nat) :
    ∀ k j, j ≤ k → inDegree dst d j ≤ inDegree dst d k := by
  intro k j h
  induction h with
  | refl => exact Nat.le_refl _
  | step _ ih =>
    rw [inDegree]
    omega

theorem inDegree_lt (dst : Nat → Nat) (d e k : Nat) (he : e < k) (hd : dst e = d) :
    inDegree dst d e < inDegree dst d k := by
  have h1 : inDegree dst d (e + 1) = inDegree dst d e + 1 := by
    rw [inDegree, if_pos hd]
  have h2 := inDegree_mono dst d k (e + 1) (by omega)
  omega

/-- The new place of an edge lies among the places of its destination. -/
theorem transposedIndex_range (g : LC_CSR_Graph E) (e : Nat) (he : e < g.numEdges) :
    edgesBelow g.edgeDst (g.edgeDst e) g.numEdges ≤ transposedIndex g e ∧
    transposedIndex g e < edgesBelow g.edgeDst (g.edgeDst e + 1) g.numEdges ∧
    transposedIndex g e < g.numEdges := by
  unfold transposedIndex
  have h1 := inDegree_lt g.edgeDst (g.edgeDst e) e g.numEdges he rfl
  have h2 := edgesBelow_succ g.edgeDst (g.edgeDst e) g.numEdges
  have h3 := edgesBelow_le g.edgeDst (g.edgeDst e + 1) g.numEdges
  omega

/-- Two edges do not get the same new place, and edges into the same node
keep their order. -/
theorem transposedIndex_lt (g : LC_CSR_Graph E) (e e' : Nat) (h : e < e')
    (he : e' < g.numEdges) :
    transposedIndex g e ≠ transposedIndex g e' ∧
    (g.edgeDst e = g.edgeDst e' → transposedIndex g e < transposedIndex g e') := by
  have r1 := transposedIndex_range g e (by omega)
  have r2 := transposedIndex_range g e' he
  by_cases hd : g.edgeDst e = g.edgeDst e'
  · have hlt : transposedIndex g e < transposedIndex g e' := by
      unfold transposedIndex
      rw [hd]
      have := inDegree_lt g.edgeDst (g.edgeDst e') e e' h hd
      omega
    exact ⟨by omega, fun _ => hlt⟩
  · refine ⟨?_, fun h' => absurd h' hd⟩
    rcases Nat.lt_or_gt_of_ne hd with h1 | h1
    · have := edgesBelow_mono g.edgeDst g.numEdges (g.edgeDst e + 1) (g.edgeDst e') (by omega)
      omega
    · have := edgesBelow_mono g.edgeDst g.numEdges (g.edgeDst e' + 1) (g.edgeDst e) (by omega)
      omega

theorem validCSR_mono (g : LC_CSR_Graph E) (hv : ValidCSR g) :
    ∀ b a, a ≤ b → b < g.numNodes → g.edgeIndData a ≤ g.edgeIndData b := by
  intro b
  induction b with
  | zero =>
    intro a ha _
    have : a = 0 := by omega
    subst this
    exact Nat.le_refl _
  | succ b ih =>
    intro a ha hb
    by_cases hab : a = b + 1
    · subst hab
      exact Nat.le_refl _
    · exact Nat.le_trans (ih a (by omega) (by omega)) (hv.1 b hb)

theorem validCSR_raw (g : LC_CSR_Graph E) (hv : ValidCSR g) (src : Nat)
    (hs : src < g.numNodes) :
    g.raw_begin src ≤ g.raw_end src ∧ g.raw_end src ≤ g.numEdges ∧
    g.raw_begin (src + 1) = g.raw_end src := by
  unfold LC_CSR_Graph.raw_begin LC_CSR_Graph.raw_end
  refine ⟨?_, ?_, by simp⟩
  · split
    · exact Nat.zero_le _
    · exact validCSR_mono g hv src (src - 1) (by omega) hs
  · rw [← hv.2.1 (by omega)]
    exact validCSR_mono g hv (g.numNodes - 1) src (by omega) (by omega)

/-- Moving one edge. -/
theorem moveEdge_step (g : LC_CSR_Graph E) (hv : ValidCSR g)
    (hM : g.numEdges < 18446744073709551616) (ind : Nat → Nat) (src e : Nat)
    (s : TransposeVars E) (hs : src < g.numNodes) (h1 : g.raw_begin src ≤ e)
    (h2 : e < g.raw_end src) (hq : Moved g ind e s) :
    Moved g ind (e + 1) (moveEdge src e s) := by
  obtain ⟨q1, q2, q3, q4, q5, q6, q7⟩ := hq
  have heM : e < g.numEdges := by
    have := (validCSR_raw g hv src hs).2.1
    omega
  have hd : g.edgeDst e < g.numNodes := hv.2.2.2 e heM
  have hnew : s.edgeIndData_temp (s.edgeDst_old e) = transposedIndex g e := by
    rw [q4 e heM, q5 _ hd]
    rfl
  have hpos := transposedIndex_range g e heM
  refine ⟨q1, q2, q3, q4, ?_, ?_, ?_⟩
  · intro d hdN
    show Function.update s.edgeIndData_temp (s.edgeDst_old e)
      ((s.edgeIndData_temp (s.edgeDst_old e) + 1) % 18446744073709551616) d = _
    by_cases hdd : d = g.edgeDst e
    · subst hdd
      rw [q4 e heM, Function.update_same, q5 _ hd, inDegree, if_pos rfl,
        Nat.mod_eq_of_lt]
      · omega
      · unfold transposedIndex at hpos
        omega
    · rw [q4 e heM, Function.update_noteq hdd, q5 d hdN, inDegree,
        if_neg (fun h => hdd h.symm)]
      rfl
  · intro e' he'
    by_cases hee : e' = e
    · subst hee
      refine ⟨src, hs, h1, h2, ?_⟩
      show Function.update s.edgeDst (s.edgeIndData_temp (s.edgeDst_old e')) src _ = src
      rw [hnew, Function.update_same]
    · obtain ⟨src', a1, a2, a3, a4⟩ := q6 e' (by omega)
      refine ⟨src', a1, a2, a3, ?_⟩
      show Function.update s.edgeDst (s.edgeIndData_temp (s.edgeDst_old e)) src _ = src'
      rw [hnew, Function.update_noteq (transposedIndex_lt g e' e (by omega) heM).1]
      exact a4
  · intro e' he'
    show Function.update s.edgeData_new (s.edgeIndData_temp (s.edgeDst_old e))
      (s.edgeData e) _ = _
    by_cases hee : e' = e
    · subst hee
      rw [hnew, Function.update_same, q2]
    · rw [hnew, Function.update_noteq (transposedIndex_lt g e' e (by omega) heM).1]
      exact q7 e' (by omega)

/-- Moving the edges of one node. -/
theorem moveEdgesOf_step (g : LC_CSR_Graph E) (hv : ValidCSR g)
    (hM : g.numEdges < 18446744073709551616) (ind : Nat → Nat) (src : Nat)
    (s : TransposeVars E) (hs : src < g.numNodes) (hq : Moved g ind (g.raw_begin src) s) :
    Moved g ind (g.raw_begin (src + 1)) (moveEdgesOf src s) := by
  obtain ⟨r1, r2, r3⟩ := validCSR_raw g hv src hs
  have hstart : (if src = 0 then 0 else s.edgeIndData_old (src - 1)) = g.raw_begin src := by
    unfold LC_CSR_Graph.raw_begin
    split
    · rfl
    · rw [hq.2.2.1 (src - 1) (by omega)]
  have hend : s.edgeIndData_old src = g.raw_end src := hq.2.2.1 src hs
  unfold moveEdgesOf
  rw [hstart, hend, r3]
  exact forLoop_inv (Moved g ind) (moveEdge src) (g.raw_begin src) (g.raw_end src) s r1 hq
    (fun e s' h1 h2 h3 => moveEdge_step g hv hM ind src e s' hs h1 h2 h3)

/-- The loop over all nodes moves all edges. -/
theorem moveAll_spec (g : LC_CSR_Graph E) (hv : ValidCSR g)
    (hM : g.numEdges < 18446744073709551616) (ind : Nat → Nat) (s : TransposeVars E)
    (hpos : 0 < g.numNodes) (hq : Moved g ind 0 s) :
    Moved g ind g.numEdges (forLoop 0 g.numNodes moveEdgesOf s) := by
  have h := forLoop_inv (fun src s => Moved g ind (g.raw_begin src) s) moveEdgesOf 0 g.numNodes
    s (Nat.zero_le _) hq
    (fun src s' _ h2 h3 => moveEdgesOf_step g hv hM ind src s' h2 h3)
  have e : g.raw_begin g.numNodes = g.numEdges := by
    unfold LC_CSR_Graph.raw_begin
    rw [if_neg (by omega)]
    exact hv.2.1 hpos
  simp only [e] at h
  exact h

/-- The loops of `transpose` before the final copy of the edge data, on a
valid graph with at least one node: all edges are moved, and the new index
array holds the prefix sums of the in-degrees. -/
theorem transposeVars_moved (g : LC_CSR_Graph E) (fresh : TransposeVars E) (hv : ValidCSR g)
    (hpos : 0 < g.numNodes) (hN : g.numNodes < 4294967296)
    (hM : g.numEdges < 18446744073709551616) :
    ∃ s6 ind, transposeVars g fresh = forLoop 0 (g.numEdges % 4294967296) copyData s6 ∧
      Moved g ind g.numEdges s6 ∧
      ∀ j, j < g.numNodes → ind j = edgesBelow g.edgeDst (j + 1) g.numEdges := by
  have hmod : g.numNodes % 4294967296 = g.numNodes := Nat.mod_eq_of_lt hN
  obtain ⟨s0, hs0⟩ : ∃ s0 : TransposeVars E, s0 =
      { fresh with edgeIndData := g.edgeIndData, edgeDst := g.edgeDst,
                   edgeData := g.edgeData } := ⟨_, rfl⟩
  obtain ⟨s1, hs1⟩ : ∃ s1, s1 = forLoop 0 g.numNodes copyIndex s0 := ⟨_, rfl⟩
  obtain ⟨s2, hs2⟩ : ∃ s2, s2 = forLoop 0 g.numEdges countIncoming s1 := ⟨_, rfl⟩
  obtain ⟨s3, hs3⟩ : ∃ s3, s3 = forLoop 1 g.numNodes addPrevious s2 := ⟨_, rfl⟩
  obtain ⟨s4, hs4⟩ : ∃ s4, s4 = forLoop 0 g.numNodes setIndex s3 := ⟨_, rfl⟩
  obtain ⟨t4, ht4⟩ : ∃ t4 : TransposeVars E, t4 =
      { s4 with edgeIndData_temp := Function.update s4.edgeIndData_temp 0 0 } := ⟨_, rfl⟩
  obtain ⟨s5, hs5⟩ : ∃ s5, s5 = forLoop 1 g.numNodes shiftTemp t4 := ⟨_, rfl⟩
  have hall : transposeVars g fresh =
      forLoop 0 (g.numEdges % 4294967296) copyData (forLoop 0 g.numNodes moveEdgesOf s5) := by
    unfold transposeVars
    simp only [hmod, ge_iff_le, Nat.succ_le_of_lt hpos, if_true]
    rw [hs5, ht4, hs4, hs3, hs2, hs1, hs0]
  -- the copy of the index array
  have A1 : s1.edgeIndData = g.edgeIndData ∧ s1.edgeDst = g.edgeDst ∧
      s1.edgeData = g.edgeData ∧
      ∀ j, j < g.numNodes → s1.edgeIndData_old j = g.edgeIndData j ∧
        s1.edgeIndData_temp j = 0 := by
    rw [hs1]
    refine forLoop_inv
      (fun n (s : TransposeVars E) => s.edgeIndData = g.edgeIndData ∧
        s.edgeDst = g.edgeDst ∧ s.edgeData = g.edgeData ∧
        ∀ j, j < n → s.edgeIndData_old j = g.edgeIndData j ∧ s.edgeIndData_temp j = 0)
      copyIndex 0 g.numNodes s0 (Nat.zero_le _) ?_ ?_
    · rw [hs0]
      exact ⟨rfl, rfl, rfl, fun j hj => absurd hj (by omega)⟩
    · rintro n s _ _ ⟨p1, p2, p3, p4⟩
      refine ⟨p1, p2, p3, ?_⟩
      intro j hj
      by_cases hjn : j = n
      · subst hjn
        simp [copyIndex, p1]
      · have := p4 j (by omega)
        simp [copyIndex, Function.update_noteq hjn, this]
  -- the count of the incoming edges
  have A2 : s2.edgeIndData = g.edgeIndData ∧ s2.edgeDst = g.edgeDst ∧
      s2.edgeData = g.edgeData ∧
      (∀ j, j < g.numNodes → s2.edgeIndData_old j = g.edgeIndData j) ∧
      (∀ e, e < g.numEdges → s2.edgeDst_old e = g.edgeDst e) ∧
      (∀ d, d < g.numNodes → s2.edgeIndData_temp d = inDegree g.edgeDst d g.numEdges) := by
    rw [hs2]
    refine forLoop_inv
      (fun k (s : TransposeVars E) => s.edgeIndData = g.edgeIndData ∧
        s.edgeDst = g.edgeDst ∧ s.edgeData = g.edgeData ∧
        (∀ j, j < g.numNodes → s.edgeIndData_old j = g.edgeIndData j) ∧
        (∀ e, e < k → s.edgeDst_old e = g.edgeDst e) ∧
        (∀ d, d < g.numNodes → s.edgeIndData_temp d = inDegree g.edgeDst d k))
      countIncoming 0 g.numEdges s1 (Nat.zero_le _) ?_ ?_
    · exact ⟨A1.1, A1.2.1, A1.2.2.1, fun j hj => (A1.2.2.2 j hj).1,
        fun e he => absurd he (by omega), fun d hd => (A1.2.2.2 d hd).2⟩
    · rintro k s _ hk ⟨p1, p2, p3, p4, p5, p6⟩
      have hd := hv.2.2.2 k hk
      refine ⟨p1, p2, p3, p4, ?_, ?_⟩
      · intro e he
        by_cases hek : e = k
        · subst hek
          simp [countIncoming, p2]
        · have := p5 e (by omega)
          simp [countIncoming, Function.update_noteq hek, this]
      · intro d hdN
        show Function.update s.edgeIndData_temp (s.edgeDst k)
          ((s.edgeIndData_temp (s.edgeDst k) + 1) % 18446744073709551616) d = _
        rw [p2, inDegree]
        by_cases hdd : d = g.edgeDst k
        · subst hdd
          rw [Function.update_same, p6 _ hd, if_pos rfl, Nat.mod_eq_of_lt]
          have := inDegree_le g.edgeDst (g.edgeDst k) k
          omega
        · rw [Function.update_noteq hdd, p6 d hdN, if_neg (fun h => hdd h.symm)]
          rfl
  -- the prefix sums
  have A3 : s3.edgeIndData = g.edgeIndData ∧ s3.edgeData = g.edgeData ∧
      (∀ j, j < g.numNodes → s3.edgeIndData_old j = g.edgeIndData j) ∧
      (∀ e, e < g.numEdges → s3.edgeDst_old e = g.edgeDst e) ∧
      (∀ j, j < g.numNodes →
        s3.edgeIndData_temp j = edgesBelow g.edgeDst (j + 1) g.numEdges) := by
    have h := forLoop_inv
      (fun n (s : TransposeVars E) => s.edgeIndData = g.edgeIndData ∧
        s.edgeData = g.edgeData ∧
        (∀ j, j < g.numNodes → s.edgeIndData_old j = g.edgeIndData j) ∧
        (∀ e, e < g.numEdges → s.edgeDst_old e = g.edgeDst e) ∧
        (∀ j, j < n → s.edgeIndData_temp j = edgesBelow g.edgeDst (j + 1) g.numEdges) ∧
        (∀ j, n ≤ j → j < g.numNodes →
          s.edgeIndData_temp j = inDegree g.edgeDst j g.numEdges))
      addPrevious 1 g.numNodes s2 (by omega)
      ⟨A2.1, A2.2.2.1, A2.2.2.2.1, A2.2.2.2.2.1,
        fun j hj => by
          have : j = 0 := by omega
          subst this
          rw [A2.2.2.2.2.2 0 hpos, edgesBelow_succ, edgesBelow_zero]
          omega,
        fun j _ hj => A2.2.2.2.2.2 j hj⟩
      (by
        rintro n s hn1 hn ⟨p1, p2, p3, p4, p5, p6⟩
        refine ⟨p1, p2, p3, p4, ?_, ?_⟩
        · intro j hj
          show Function.update s.edgeIndData_temp n
            ((s.edgeIndData_temp n + s.edgeIndData_temp (n - 1)) % 18446744073709551616) j = _
          by_cases hjn : j = n
          · subst hjn
            rw [Function.update_same, p6 j (Nat.le_refl _) hn, p5 (j - 1) (by omega)]
            have e1 : j - 1 + 1 = j := by omega
            rw [e1, edgesBelow_succ g.edgeDst j, Nat.mod_eq_of_lt]
            · omega
            · have := edgesBelow_le g.edgeDst (j + 1) g.numEdges
              rw [edgesBelow_succ] at this
              omega
          · rw [Function.update_noteq hjn]
            exact p5 j (by omega)
        · intro j hj1 hj2
          show Function.update s.edgeIndData_temp n _ j = _
          rw [Function.update_noteq (by omega)]
          exact p6 j (by omega) hj2)
    rw [← hs3] at h
    exact ⟨h.1, h.2.1, h.2.2.1, h.2.2.2.1, h.2.2.2.2.1⟩
  -- the new index array
  have A4 : s4.edgeData = g.edgeData ∧
      (∀ j, j < g.numNodes → s4.edgeIndData_old j = g.edgeIndData j) ∧
      (∀ e, e < g.numEdges → s4.edgeDst_old e = g.edgeDst e) ∧
      (∀ j, j < g.numNodes →
        s4.edgeIndData_temp j = edgesBelow g.edgeDst (j + 1) g.numEdges) ∧
      (∀ j, j < g.numNodes → s4.edgeIndData j = edgesBelow g.edgeDst (j + 1) g.numEdges) := by
    rw [hs4]
    refine forLoop_inv
      (fun n (s : TransposeVars E) => s.edgeData = g.edgeData ∧
        (∀ j, j < g.numNodes → s.edgeIndData_old j = g.edgeIndData j) ∧
        (∀ e, e < g.numEdges → s.edgeDst_old e = g.edgeDst e) ∧
        (∀ j, j < g.numNodes →
          s.edgeIndData_temp j = edgesBelow g.edgeDst (j + 1) g.numEdges) ∧
        (∀ j, j < n → s.edgeIndData j = edgesBelow g.edgeDst (j + 1) g.numEdges))
      setIndex 0 g.numNodes s3 (Nat.zero_le _) ?_ ?_
    · exact ⟨A3.2.1, A3.2.2.1, A3.2.2.2.1, A3.2.2.2.2, fun j hj => absurd hj (by omega)⟩
    · rintro n s _ hn ⟨p1, p2, p3, p4, p5⟩
      refine ⟨p1, p2, p3, p4, ?_⟩
      intro j hj
      show Function.update s.edgeIndData n (s.edgeIndData_temp n) j = _
      by_cases hjn : j = n
      · subst hjn
        rw [Function.update_same, p4 j hn]
      · rw [Function.update_noteq hjn]
        exact p5 j (by omega)
  -- the starts of the new edge lists
  have A5 : s5.edgeIndData = s4.edgeIndData ∧ s5.edgeData = g.edgeData ∧
      (∀ j, j < g.numNodes → s5.edgeIndData_old j = g.edgeIndData j) ∧
      (∀ e, e < g.numEdges → s5.edgeDst_old e = g.edgeDst e) ∧
      (∀ j, j < g.numNodes → s5.edgeIndData_temp j = edgesBelow g.edgeDst j g.numEdges) := by
    rw [hs5]
    refine forLoop_inv
      (fun n (s : TransposeVars E) => s.edgeIndData = s4.edgeIndData ∧
        s.edgeData = g.edgeData ∧
        (∀ j, j < g.numNodes → s.edgeIndData_old j = g.edgeIndData j) ∧
        (∀ e, e < g.numEdges → s.edgeDst_old e = g.edgeDst e) ∧
        (∀ j, j < n → s.edgeIndData_temp j = edgesBelow g.edgeDst j g.numEdges))
      shiftTemp 1 g.numNodes t4 (by omega) ?_ ?_
    · rw [ht4]
      refine ⟨rfl, A4.1, A4.2.1, A4.2.2.1, ?_⟩
      intro j hj
      have : j = 0 := by omega
      subst this
      simp [edgesBelow_zero]
    · rintro n s hn1 hn ⟨p1, p2, p3, p4, p5⟩
      refine ⟨p1, p2, p3, p4, ?_⟩
      intro j hj
      show Function.update s.edgeIndData_temp n (s.edgeIndData (n - 1)) j = _
      by_cases hjn : j = n
      · subst hjn
        rw [Function.update_same, p1, A4.2.2.2.2 (j - 1) (by omega)]
        have e1 : j - 1 + 1 = j := by omega
        rw [e1]
      · rw [Function.update_noteq hjn]
        exact p5 j (by omega)
  have hq : Moved g s4.edgeIndData 0 s5 :=
    ⟨A5.1, A5.2.1, A5.2.2.1, A5.2.2.2.1,
      fun d hd => by rw [A5.2.2.2.2 d hd]; rfl,
      fun e he => absurd he (by omega), fun e he => absurd he (by omega)⟩
  exact ⟨forLoop 0 g.numNodes moveEdgesOf s5, s4.edgeIndData, hall,
    moveAll_spec g hv hM s4.edgeIndData s5 hpos hq, A4.2.2.2.2⟩

/-- The loop "TRANSPOSE_EDGEDATA_SET": it copies the first `K` entries of
`edgeData_new` and nothing else. -/
theorem copyData_spec (K : Nat) (s : TransposeVars E) :
    (forLoop 0 K copyData s).edgeIndData = s.edgeIndData ∧
    (forLoop 0 K copyData s).edgeDst = s.edgeDst ∧
    (∀ j, j < K → (forLoop 0 K copyData s).edgeData j = s.edgeData_new j) ∧
    (∀ j, K ≤ j → (forLoop 0 K copyData s).edgeData j = s.edgeData j) := by
  have h := forLoop_inv
    (fun k (t : TransposeVars E) => t.edgeIndData = s.edgeIndData ∧ t.edgeDst = s.edgeDst ∧
      t.edgeData_new = s.edgeData_new ∧
      (∀ j, j < k → t.edgeData j = s.edgeData_new j) ∧
      (∀ j, k ≤ j → t.edgeData j = s.edgeData j))
    copyData 0 K s (Nat.zero_le _)
    ⟨rfl, rfl, rfl, fun j hj => absurd hj (by omega), fun _ _ => rfl⟩
    (by
      rintro k t _ _ ⟨p1, p2, p3, p4, p5⟩
      refine ⟨p1, p2, p3, ?_, ?_⟩
      · intro j hj
        show Function.update t.edgeData k (t.edgeData_new k) j = _
        by_cases hjk : j = k
        · subst hjk
          rw [Function.update_same, p3]
        · rw [Function.update_noteq hjk]
          exact p4 j (by omega)
      · intro j hj
        show Function.update t.edgeData k (t.edgeData_new k) j = _
        rw [Function.update_noteq (by omega)]
        exact p5 j (by omega))
  exact ⟨h.1, h.2.1, h.2.2.2.1, h.2.2.2.2⟩

/-- What `transpose()` does to a graph with valid CSR arrays, fewer than 2^32
nodes and fewer than 2^64 edges: it returns; the counts stay; the new
`edgeIndData` holds the prefix sums of the in-degrees; every edge `e`, say
from `src`, is found at its new place `transposedIndex g e` with destination
`src`; its data is there too when that place is below `numEdges mod 2^32`,
the number of entries the last loop copies; and from that number on
`edgeData` is what it was before the call. -/
theorem transpose_spec (g : LC_CSR_Graph E) (fresh : TransposeVars E) (newRanges : Vec)
    (hv : ValidCSR g) (hN : g.numNodes < 4294967296)
    (hM : g.numEdges < 18446744073709551616) :
    ∃ g', transpose g fresh newRanges = some g' ∧
      g'.numNodes = g.numNodes ∧ g'.numEdges = g.numEdges ∧
      (∀ j, j < g.numNodes →
        g'.edgeIndData j = edgesBelow g.edgeDst (j + 1) g.numEdges) ∧
      (∀ e, e < g.numEdges → ∃ src, src < g.numNodes ∧ g.raw_begin src ≤ e ∧
        e < g.raw_end src ∧ g'.edgeDst (transposedIndex g e) = src) ∧
      (∀ e, e < g.numEdges → transposedIndex g e < g.numEdges % 4294967296 →
        g'.edgeData (transposedIndex g e) = g.edgeData e) ∧
      (∀ i, g.numEdges % 4294967296 ≤ i → g'.edgeData i = g.edgeData i) := by
  unfold transpose
  rw [if_neg (by omega)]
  refine ⟨_, rfl, rfl, rfl, ?_⟩
  simp only
  by_cases hpos : 0 < g.numNodes
  · obtain ⟨s6, ind, hall, hq, hind⟩ := transposeVars_moved g fresh hv hpos hN hM
    obtain ⟨c1, c2, c3, c4⟩ := copyData_spec (g.numEdges % 4294967296) s6
    obtain ⟨q1, q2, _, _, _, q6, q7⟩ := hq
    rw [hall]
    refine ⟨?_, ?_, ?_, ?_⟩
    · intro j hj
      rw [c1, q1]
      exact hind j hj
    · intro e he
      rw [c2]
      exact q6 e he
    · intro e he hlt
      rw [c3 _ hlt]
      exact q7 e he
    · intro i hi
      rw [c4 i hi, q2]
  · have h0 : g.numNodes = 0 := by omega
    have hM0 : g.numEdges = 0 := hv.2.2.1 h0
    refine ⟨fun j hj => absurd hj (by omega), fun e he => absurd he (by omega),
      fun e he => absurd he (by omega), ?_⟩
    intro i _
    simp [transposeVars, forLoop, h0, hM0]

theorem wideFan_valid : ValidCSR wideFan := by
  refine ⟨fun n _ => Nat.le_refl _, fun _ => rfl, fun h => absurd h (by decide), ?_⟩
  intro e _
  show (if e = 0 then 1 else 0) < 2
  split <;> omega

theorem wideFan_below_one : ∀ k, edgesBelow wideFan.edgeDst 1 k = k - 1 := by
  intro k
  induction k with
  | zero => rfl
  | succ k ih =>
    rw [edgesBelow, ih]
    show k - 1 + (if (if k = 0 then 1 else 0) < 1 then 1 else 0) = k + 1 - 1
    by_cases hk : k = 0
    · subst hk
      rfl
    · simp only [if_neg hk, Nat.zero_lt_one, if_true]
      omega

theorem transposedIndex_eq (g : LC_CSR_Graph E) (e : Nat) :
    transposedIndex g e =
      edgesBelow g.edgeDst (g.edgeDst e) g.numEdges + inDegree g.edgeDst (g.edgeDst e) e :=
  rfl

theorem wideFan_first : transposedIndex wideFan 0 = 4294967295 := by
  have e1 : wideFan.edgeDst 0 = 1 := rfl
  have e2 : wideFan.numEdges = 4294967296 := rfl
  rw [transposedIndex_eq, e1, e2, wideFan_below_one, inDegree]

/-- C27 (failing input): the graph of 2 nodes and 2^32 edges, all leaving node
0, the first to node 1 with data 0 and every other to node 0.  transpose()
returns; afterwards node 1 has exactly one edge, at index 2^32 - 1 and to
node 0, as it should; but the data of that edge is 2^32 - 1, which was the
data of the last edge from node 0 to node 0, whereas the one edge from node 0
to node 1 carried the data 0: the last loop of transpose counts in uint32_t
up to numEdges, which is 0 modulo 2^32, and copies nothing. -/
theorem transpose_loses_edge_data (fresh : TransposeVars Nat) (newRanges : Vec) :
    wideFan.edgeDst 0 = 1 ∧ wideFan.edgeData 0 = 0 ∧
    (∀ e, e ≠ 0 → wideFan.edgeDst e ≠ 1) ∧
    ∃ g', transpose wideFan fresh newRanges = some g' ∧
      g'.raw_begin 1 = 4294967295 ∧ g'.raw_end 1 = 4294967296 ∧
      g'.edgeDst 4294967295 = 0 ∧ g'.edgeData 4294967295 = 4294967295 := by
  refine ⟨rfl, rfl, ?_, ?_⟩
  · intro e he
    show (if e = 0 then 1 else 0) ≠ 1
    rw [if_neg he]
    decide
  · obtain ⟨g', h1, _, _, h4, h5, _, h7⟩ := transpose_spec wideFan fresh newRanges
      wideFan_valid (by decide) (by decide)
    have hpos : transposedIndex wideFan 0 = 4294967295 := wideFan_first
    refine ⟨g', h1, ?_, ?_, ?_, ?_⟩
    · show (if (1 : Nat) = 0 then 0 else g'.edgeIndData (1 - 1)) = _
      rw [if_neg (by decide), h4 0 (by decide)]
      exact wideFan_below_one _
    · show g'.edgeIndData 1 = _
      rw [h4 1 (by decide)]
      refine edgesBelow_all _ _ _ ?_
      intro e _
      show (if e = 0 then 1 else 0) < 2
      split <;> omega
    · obtain ⟨src, a1, a2, a3, a4⟩ := h5 0 (by decide)
      rw [hpos] at a4
      rw [a4]
      have hs : src < 2 := a1
      by_contra hne
      have h1' : src = 1 := by omega
      subst h1'
      have : wideFan.raw_begin 1 = 4294967296 := rfl
      omega
    · exact h7 4294967295 (by decide)

/-- An edge belongs to one node only. -/
theorem edge_source_unique (g : LC_CSR_Graph E) (hv : ValidCSR g) (e a b : Nat)
    (ha : a < g.numNodes) (hb : b < g.numNodes)
    (h1 : g.raw_begin a ≤ e) (h2 : e < g.raw_end a)
    (h3 : g.raw_begin b ≤ e) (h4 : e < g.raw_end b) : a = b := by
  have key : ∀ x y, x < y → y < g.numNodes → g.raw_end x ≤ g.raw_begin y := by
    intro x y hxy hy
    unfold LC_CSR_Graph.raw_begin LC_CSR_Graph.raw_end
    rw [if_neg (by omega)]
    exact validCSR_mono g hv (y - 1) x (by omega) (by omega)
  rcases Nat.lt_trichotomy a b with h | h | h
  · have := key a b h hb
    omega
  · exact h
  · have := key b a h ha
    omega

/-- Among fewer than `numEdges` places, every place is the new place of an
edge. -/
theorem transposedIndex_surj (g : LC_CSR_Graph E) (i : Nat) (hi : i < g.numEdges) :
    ∃ e, e < g.numEdges ∧ transposedIndex g e = i := by
  have hinj : Set.InjOn (transposedIndex g) (Finset.range g.numEdges : Set Nat) := by
    intro a ha b hb hab
    simp only [Finset.coe_range, Set.mem_Iio] at ha hb
    rcases Nat.lt_trichotomy a b with h | h | h
    · exact absurd hab (transposedIndex_lt g a b h hb).1
    · exact h
    · exact absurd hab.symm (transposedIndex_lt g b a h ha).1
  have hsub : (Finset.range g.numEdges).image (transposedIndex g) ⊆ Finset.range g.numEdges := by
    intro x hx
    rw [Finset.mem_image] at hx
    obtain ⟨e, he, rfl⟩ := hx
    rw [Finset.mem_range] at he ⊢
    exact (transposedIndex_range g e he).2.2
  have hcard : ((Finset.range g.numEdges).image (transposedIndex g)).card =
      (Finset.range g.numEdges).card := Finset.card_image_of_injOn hinj
  have heq := Finset.eq_of_subset_of_card_le hsub (by rw [hcard])
  have hmem : i ∈ (Finset.range g.numEdges).image (transposedIndex g) := by
    rw [heq, Finset.mem_range]
    exact hi
  rw [Finset.mem_image] at hmem
  obtain ⟨e, he, hei⟩ := hmem
  exact ⟨e, Finset.mem_range.1 he, hei⟩

/-- The places of node `v` in the new index array. -/
theorem transposed_raw (g g' : LC_CSR_Graph E) (v : Nat) (hv : v < g.numNodes)
    (hind : ∀ j, j < g.numNodes →
      g'.edgeIndData j = edgesBelow g.edgeDst (j + 1) g.numEdges) :
    g'.raw_begin v = edgesBelow g.edgeDst v g.numEdges ∧
    g'.raw_end v = edgesBelow g.edgeDst (v + 1) g.numEdges := by
  unfold LC_CSR_Graph.raw_begin LC_CSR_Graph.raw_end
  refine ⟨?_, hind v hv⟩
  split
  · rename_i h0
    rw [h0, edgesBelow_zero]
  · rw [hind (v - 1) (by omega)]
    have : v - 1 + 1 = v := by omega
    rw [this]

/-- A new place among the places of node `v` holds an edge into `v`. -/
theorem transposedIndex_dst (g : LC_CSR_Graph E) (e v : Nat) (he : e < g.numEdges)
    (h1 : edgesBelow g.edgeDst v g.numEdges ≤ transposedIndex g e)
    (h2 : transposedIndex g e < edgesBelow g.edgeDst (v + 1) g.numEdges) :
    g.edgeDst e = v := by
  obtain ⟨r1, r2, _⟩ := transposedIndex_range g e he
  rcases Nat.lt_trichotomy (g.edgeDst e) v with h | h | h
  · have := edgesBelow_mono g.edgeDst g.numEdges (g.edgeDst e + 1) v (by omega)
    omega
  · exact h
  · have := edgesBelow_mono g.edgeDst g.numEdges (v + 1) (g.edgeDst e) (by omega)
    omega

theorem raw_end_le_raw_begin (g : LC_CSR_Graph E) (hv : ValidCSR g) (x y : Nat) (hxy : x < y)
    (hy : y < g.numNodes) : g.raw_end x ≤ g.raw_begin y := by
  unfold LC_CSR_Graph.raw_begin LC_CSR_Graph.raw_end
  rw [if_neg (by omega)]
  exact validCSR_mono g hv (y - 1) x (by omega) (by omega)

/-- What `transpose()` does to a graph with valid CSR arrays, fewer than 2^32
nodes and fewer than 2^32 edges: it returns; the counts stay; the new
`edgeIndData` holds the prefix sums of the in-degrees; for all nodes `u`, `v`
there are as many edges from `v` to `u` afterwards as there were from `u` to
`v`; the new edges of each node are in the order of their old sources; and
every edge is found at its new place, among the edges of its old destination,
with its old source as destination and with its data. -/
theorem transpose_below_limit (g : LC_CSR_Graph E) (fresh : TransposeVars E) (newRanges : Vec)
    (hv : ValidCSR g) (hN : g.numNodes < 4294967296) (hM : g.numEdges < 4294967296) :
    ∃ g', transpose g fresh newRanges = some g' ∧
      g'.numNodes = g.numNodes ∧ g'.numEdges = g.numEdges ∧
      (∀ j, j < g.numNodes →
        g'.edgeIndData j = edgesBelow g.edgeDst (j + 1) g.numEdges) ∧
      (∀ u v, u < g.numNodes → v < g.numNodes → edgeCount g' v u = edgeCount g u v) ∧
      (∀ v, v < g.numNodes → ∀ i j, g'.raw_begin v ≤ i → i ≤ j → j < g'.raw_end v →
        g'.edgeDst i ≤ g'.edgeDst j) ∧
      (∀ e, e < g.numEdges →
        g'.raw_begin (g.edgeDst e) ≤ transposedIndex g e ∧
        transposedIndex g e < g'.raw_end (g.edgeDst e) ∧
        g'.edgeData (transposedIndex g e) = g.edgeData e ∧
        ∀ src, src < g.numNodes → g.raw_begin src ≤ e → e < g.raw_end src →
          g'.edgeDst (transposedIndex g e) = src) := by
  obtain ⟨g', h1, h2, h3, h4, h5, h6, _⟩ := transpose_spec g fresh newRanges hv hN (by omega)
  have hmod : g.numEdges % 4294967296 = g.numEdges := Nat.mod_eq_of_lt hM
  rw [hmod] at h6
  have hsrc : ∀ e, e < g.numEdges → ∀ src, src < g.numNodes → g.raw_begin src ≤ e →
      e < g.raw_end src → g'.edgeDst (transposedIndex g e) = src := by
    intro e he src hs b1 b2
    obtain ⟨s', a1, a2, a3, a4⟩ := h5 e he
    rw [a4]
    exact edge_source_unique g hv e s' src a1 hs a2 a3 b1 b2
  have hplace : ∀ e, e < g.numEdges →
      g'.raw_begin (g.edgeDst e) ≤ transposedIndex g e ∧
      transposedIndex g e < g'.raw_end (g.edgeDst e) := by
    intro e he
    obtain ⟨r1, r2⟩ := transposed_raw g g' (g.edgeDst e) (hv.2.2.2 e he) h4
    obtain ⟨p1, p2, _⟩ := transposedIndex_range g e he
    rw [r1, r2]
    exact ⟨p1, p2⟩
  -- every new place of node v holds an edge into v
  have hback : ∀ v, v < g.numNodes → ∀ i, g'.raw_begin v ≤ i → i < g'.raw_end v →
      ∃ e, e < g.numEdges ∧ transposedIndex g e = i ∧ g.edgeDst e = v := by
    intro v hvN i i1 i2
    obtain ⟨r1, r2⟩ := transposed_raw g g' v hvN h4
    rw [r1] at i1
    rw [r2] at i2
    have hiM : i < g.numEdges := by
      have := edgesBelow_le g.edgeDst (v + 1) g.numEdges
      omega
    obtain ⟨e, he, hei⟩ := transposedIndex_surj g i hiM
    refine ⟨e, he, hei, transposedIndex_dst g e v he ?_ ?_⟩
    · rw [hei]; exact i1
    · rw [hei]; exact i2
  refine ⟨g', h1, h2, h3, h4, ?_, ?_, ?_⟩
  · intro u v hu hvN
    unfold edgeCount
    symm
    refine Finset.card_bij (fun e _ => transposedIndex g e) ?_ ?_ ?_
    · intro e he
      rw [Finset.mem_filter, Finset.mem_Ico] at he
      obtain ⟨⟨e1, e2⟩, e3⟩ := he
      have heM : e < g.numEdges := by
        have := (validCSR_raw g hv u hu).2.1
        omega
      have := hplace e heM
      rw [e3] at this
      rw [Finset.mem_filter, Finset.mem_Ico]
      exact ⟨this, hsrc e heM u hu e1 e2⟩
    · intro a ha b hb hab
      rw [Finset.mem_filter, Finset.mem_Ico] at ha hb
      have haM : a < g.numEdges := by
        have := (validCSR_raw g hv u hu).2.1
        omega
      have hbM : b < g.numEdges := by
        have := (validCSR_raw g hv u hu).2.1
        omega
      rcases Nat.lt_trichotomy a b with h | h | h
      · exact absurd hab (transposedIndex_lt g a b h hbM).1
      · exact h
      · exact absurd hab.symm (transposedIndex_lt g b a h haM).1
    · intro i hi
      rw [Finset.mem_filter, Finset.mem_Ico] at hi
      obtain ⟨⟨i1, i2⟩, i3⟩ := hi
      obtain ⟨e, he, hei, hed⟩ := hback v hvN i i1 i2
      obtain ⟨s', a1, a2, a3, a4⟩ := h5 e he
      rw [hei, i3] at a4
      subst a4
      refine ⟨e, ?_, hei⟩
      rw [Finset.mem_filter, Finset.mem_Ico]
      exact ⟨⟨a2, a3⟩, hed⟩
  · intro v hvN i j i1 hij j2
    obtain ⟨e, he, hei, hed⟩ := hback v hvN i i1 (by omega)
    obtain ⟨e', he', hej, hed'⟩ := hback v hvN j (by omega) j2
    obtain ⟨s, a1, a2, a3, a4⟩ := h5 e he
    obtain ⟨s', b1, b2, b3, b4⟩ := h5 e' he'
    rw [hei] at a4
    rw [hej] at b4
    rw [a4, b4]
    by_contra hlt
    have hss : s' < s := by omega
    have := raw_end_le_raw_begin g hv s' s hss a1
    have hee : e' < e := by omega
    have := (transposedIndex_lt g e' e hee he).2 (by rw [hed, hed'])
    omega
  · intro e he
    exact ⟨(hplace e he).1, (hplace e he).2, h6 e he (transposedIndex_range g e he).2.2,
      hsrc e he⟩

end galois.graphs
